import Mathlib

/-!
Verification of the GraphQL fragment/query synthesis engine and the
response-normalisation layer of the `content-js-sdk` repository.

The development shallowly embeds:
* the property / content-type data model (`model/properties.ts`,
  `model/contentTypes.ts`),
* the base-type fragment library (`util/baseTypeUtil.ts`),
* the fragment composer (`graph/createQuery.ts`): `resolveAllowedTypes`,
  `convertPropertyField`, `createExperienceFragments`, `createFragment`,
* the response normaliser (`graph/index.ts`): `removeTypePrefix`,
  `decorateWithContext`,
* the query filters (`graph/filters.ts`): `normalizePath`, `pathFilter`,
* the pure orchestration core of the Graph client (`graph/index.ts`):
  metadata extraction, `getContentByPath`, `getPreviewContent`.

The mutually recursive fragment composer is embedded as a single
fuel-indexed step function over an inductive type of jobs; running out of
fuel is an explicit error value, and the thrown
`GraphMissingContentTypeError` is the other error value.  JavaScript's
`Set` (insertion-ordered, first occurrence wins) is modelled by `jsDedup`;
the shared mutable `visited` set is threaded explicitly through every call.
-/

/-! ## JavaScript-style list/string helpers -/

/-- First-occurrence deduplication with an accumulator of already seen
elements; models iteration over a JavaScript `Set` built with
`new Set(list)` (insertion order, first occurrence wins). -/
def jsDedupAux (seen : List String) : List String → List String
  | [] => []
  | a :: rest =>
    if a ∈ seen then jsDedupAux seen rest
    else a :: jsDedupAux (a :: seen) rest

/-- Models `[...new Set(list)]` in JavaScript. -/
def jsDedup (l : List String) : List String := jsDedupAux [] l

/-- Models `list.join(' ')` in JavaScript. -/
def joinSpace : List String → String
  | [] => ""
  | a :: rest => rest.foldl (fun acc x => acc ++ " " ++ x) a

/-- Boolean list-of-chars prefix test (character-wise); used to model
JavaScript's `String.prototype.startsWith`. -/
def charsIsPre : List Char → List Char → Bool
  | [], _ => true
  | _ :: _, [] => false
  | p :: ps, c :: cs => p == c && charsIsPre ps cs

/-- Models `s.startsWith(p)` in JavaScript. -/
def strStartsWith (s p : String) : Bool := charsIsPre p.data s.data

/-! ## Data model (`model/properties.ts`, `model/contentTypes.ts`)

The property model files are not present in the source snapshot; the
shapes below are reconstructed from their uses in `graph/createQuery.ts`
and `util/baseTypeUtil.ts` and from the specification's data model: a
property is a tagged variant over kinds, carries an optional
`indexingType`, and `array` wraps another property.  A `PermittedTypes`
value is either a base-type key string or a (registered) content-type
object; only its key is ever consulted (`getKeyName`), so it is modelled
by its key string, and the all-properties-disabled check on an object
entry is modelled by the registry lookup of that key (the two coincide
for registered objects, the supported usage). -/

mutual

inductive PropShape where
  | scalar : PropShape
  | richText : PropShape
  | url : PropShape
  | link : PropShape
  | contentReference : PropShape
  | component : String → PropShape
  | content : Option (List String) → Option (List String) → PropShape
  | array : AnyProperty → PropShape
  deriving DecidableEq

inductive AnyProperty where
  | mk : Option String → PropShape → AnyProperty
  deriving DecidableEq

end

/-- The optional `indexingType` field of a property definition. -/
def AnyProperty.indexingType : AnyProperty → Option String
  | .mk i _ => i

/-- The kind tag (`type` discriminant) and payload of a property. -/
def AnyProperty.shape : AnyProperty → PropShape
  | .mk _ s => s

/-- A content-type definition: unique `key`, `baseType`, insertion-ordered
`properties`, and `compositionBehaviors` (an absent field is modelled by
the empty list; the source checks presence and non-emptiness together). -/
structure ContentType where
  key : String
  baseType : String
  properties : List (String × AnyProperty)
  compositionBehaviors : List String
  deriving DecidableEq

/-- Modelled from the spec: the schema registry (`model/contentTypeRegistry.ts`
is absent from the snapshot) is an in-memory catalog of content-type
definitions; `register` replaces the whole set, so a registry is just the
list of registered definitions. -/
abbrev Registry := List ContentType

/-- Modelled from the spec: `lookup(key) -> ContentTypeDefinition | not-found`. -/
def getContentType (reg : Registry) (key : String) : Option ContentType :=
  reg.find? (fun ct => ct.key == key)

/-- Modelled from the spec: the composer's cached "all content types" list,
refreshed from the registry at the start of every top-level composition;
within one composition pass it equals the registry contents. -/
def getAllContentTypes (reg : Registry) : List ContentType := reg

/-- Modelled from the spec: `lookupByBaseType(baseType) -> ContentTypeDefinition[]`. -/
def getContentTypeByBaseType (reg : Registry) (bt : String) : List ContentType :=
  reg.filter (fun ct => ct.baseType == bt)

/-- Modelled from the spec: the top-level structural base types
(page/experience/section/component) are never directly returned as
concrete union members (`MAIN_BASE_TYPES` in `model/contentTypes.ts`). -/
def MAIN_BASE_TYPES : List String := ["_page", "_experience", "_section", "_component"]

/-! ## Base-type utilities (`util/baseTypeUtil.ts`) -/

/-- Checks whether a key names a built-in CMS base type (`/^_/.test(key)`). -/
def isBaseType (key : String) : Bool := strStartsWith key "_"

/-- Converts a base-type key to GraphQL fragment format, e.g.
`"_image" -> "_Image"`; other keys are returned unchanged. -/
def toBaseTypeFragmentKey (key : String) : String :=
  match key.data with
  | '_' :: c :: rest => String.mk ('_' :: c.toUpper :: rest)
  | _ => key

def CONTENT_URL_FRAGMENT : String :=
  "fragment ContentUrl on ContentUrl \x7b type default hierarchical internal graph base \x7d"

def DAM_ASSET_FRAGMENTS : List String :=
  [ "fragment PublicImageAsset on cmp_PublicImageAsset \x7b Url Title AltText Description MimeType Height Width Renditions \x7b Id Name Url Width Height \x7d FocalPoint \x7b X Y \x7d Tags \x7b Guid Name \x7d \x7d",
    "fragment PublicVideoAsset on cmp_PublicVideoAsset \x7b Url Title AltText Description MimeType Renditions \x7b Id Name Url Width Height \x7d Tags \x7b Guid Name \x7d \x7d",
    "fragment PublicRawFileAsset on cmp_PublicRawFileAsset \x7b Url Title Description MimeType Tags \x7b Guid Name \x7d \x7d",
    "fragment ContentReferenceItem on ContentReference \x7b item \x7b ...PublicImageAsset ...PublicVideoAsset ...PublicRawFileAsset \x7d \x7d" ]

def COMMON_FRAGMENTS : List String :=
  [ "fragment MediaMetadata on MediaMetadata \x7b mimeType thumbnail content \x7d",
    "fragment ItemMetadata on ItemMetadata \x7b changeset displayOption \x7d",
    "fragment InstanceMetadata on InstanceMetadata \x7b changeset locales expired container owner routeSegment lastModifiedBy path createdBy \x7d",
    CONTENT_URL_FRAGMENT,
    "fragment IContentMetadata on IContentMetadata \x7b key locale fallbackForLocale version displayName url \x7b...ContentUrl\x7d types published status created lastModified sortOrder ...MediaMetadata ...ItemMetadata ...InstanceMetadata \x7d",
    "fragment _IContent on _IContent \x7b _id _metadata \x7b...IContentMetadata\x7d \x7d" ]

def COMMON_FIELDS : String := "..._IContent"

/-- `buildBaseTypeFragments()` returns the shared `_IContent` field and the
common metadata fragments. -/
def buildBaseTypeFragmentsFields : List String := [COMMON_FIELDS]

def buildBaseTypeFragmentsExtra : List String := COMMON_FRAGMENTS

/-! ## Allow-list resolution (`resolveAllowedTypes`) -/

/-- Checks whether every property of a content type has `indexingType`
set to `"disabled"` (and there is at least one property). -/
def allPropertiesAreDisabled (ct : ContentType) : Bool :=
  !ct.properties.isEmpty &&
    ct.properties.all (fun p => p.2.indexingType == some "disabled")

/-- State of the `resolveAllowedTypes` fold: the `seen` set and the
accumulated `result` list (of keys, in output order). -/
structure RAState where
  seen : List String
  result : List String
  deriving DecidableEq

/-- The `add` closure of `resolveAllowedTypes`: skip entries whose content
type exists with all properties disabled, entries on the skip list, already
seen entries, and the main structural base types; otherwise record the key. -/
def raAdd (reg : Registry) (skip : List String) (st : RAState) (key : String) : RAState :=
  if (match getContentType reg key with
      | some c => allPropertiesAreDisabled c
      | none => false) then st
  else if skip.contains key || st.seen.contains key || MAIN_BASE_TYPES.contains key then st
  else { seen := key :: st.seen, result := st.result ++ [key] }

/-- The skip set: every restricted key, and for a restricted CMS base type
also every registered content type sharing that base type. -/
def raSkip (reg : Registry) (restricted : Option (List String)) : List String :=
  (restricted.getD []).foldl
    (fun sk r =>
      let sk' := sk ++ [r]
      if isBaseType r then sk' ++ (getContentTypeByBaseType reg r).map (fun ct => ct.key)
      else sk')
    []

/-- Resolves the set of allowed content types for a `content` property,
excluding restricted and recursive entries; returns the keys in order.
The baseline is the explicit allow list when non-empty, otherwise all
registered content types; a base-type entry of an explicit allow list has
all registered types with that base type spliced in immediately before it. -/
def resolveAllowedTypes (reg : Registry) (allowed restricted : Option (List String)) :
    List String :=
  let explicit : Bool := match allowed with | some l => !l.isEmpty | none => false
  let baseline : List String :=
    if explicit then allowed.getD []
    else (getAllContentTypes reg).map (fun ct => ct.key)
  let skip := raSkip reg restricted
  let final := baseline.foldl
    (fun st entry =>
      let st' :=
        if explicit && isBaseType entry then
          (getContentTypeByBaseType reg entry).foldl
            (fun st2 ct => raAdd reg skip st2 ct.key) st
        else st
      raAdd reg skip st' entry)
    ⟨[], []⟩
  final.result

/-! ## The fragment composer (`graph/createQuery.ts`)

`createFragment`, `convertPropertyField` (the value-relevant part of
`convertProperty`; `checkTypeConstraintIssues` only logs warnings) and
`createExperienceFragments` are mutually recursive through the shared
mutable `visited` set.  They are embedded as one fuel-indexed step
function over a type of jobs; each job mirrors one source function (or
one of its internal loops), the `visited` set is threaded explicitly, and
running out of fuel is the explicit error `StepErr.fuelOut`.  The source's
`refreshCache()` on a root call makes the composer's cache equal to the
registry for the whole pass, so the registry is passed as a value.

`Out.cr` instruments the traversal with one extra bit, "an enabled
`contentReference` property was reached", accumulated across all
sub-calls; the source computes no such value, and no other component
depends on it.  `Out.dam` is the source's `includesDamAssetsFragments`
flag (which is `damEnabled` at a `contentReference` site and is *not*
propagated out of nested `createFragment` calls, exactly as in the
source). -/

inductive StepErr where
  | fuelOut : StepErr
  | missingType : String → StepErr
  deriving DecidableEq

/-- One job of the composer: a `createFragment` call, the property loop of
`createFragment`, one `convertPropertyField` call, the allowed-types loop
of the `content` branch, a `createExperienceFragments` call, or its
per-node loop. -/
inductive Job where
  | frag : String → String → Bool → Job
  | props : String → String → List (String × AnyProperty) → Job
  | prop : String → AnyProperty → String → String → Job
  | contentKeys : String → List String → Job
  | expFrags : Job
  | expList : List String → Job
  deriving DecidableEq

/-- Result of a composer job: generated selection fields, dependent
fragment strings (for a `frag` job this is the full returned fragment
list), the source's DAM flag, the `contentReference`-reached
instrumentation bit, and the updated visited set. -/
structure Out where
  fields : List String
  extra : List String
  dam : Bool
  cr : Bool
  visited : List String
  deriving DecidableEq

/-- Builds the final string of a composed fragment:
`fragment <name> on <parsedName> { <deduplicated fields> }`. -/
def mkFragmentString (fragmentName parsedName : String) (fields : List String) : String :=
  "fragment " ++ fragmentName ++ " on " ++ parsedName ++ " \x7b " ++
    joinSpace (jsDedup fields) ++ " \x7d"

def EXPERIENCE_FIXED_FRAGMENTS : List String :=
  [ "fragment _IExperience on _IExperience \x7b composition \x7b...ICompositionNode \x7d\x7d",
    "fragment ICompositionNode on ICompositionNode \x7b __typename key type nodeType layoutType displayName displayTemplateKey displaySettings \x7bkey value\x7d ...on CompositionStructureNode \x7b nodes @recursive \x7d ...on CompositionComponentNode \x7b nodeType component \x7b ..._IComponent \x7d \x7d \x7d" ]

/-- Keys of all registered `_component` types with a non-empty
`compositionBehaviors` list. -/
def experienceNodes (reg : Registry) : List String :=
  ((getAllContentTypes reg).filter
    (fun c => c.baseType == "_component" && !c.compositionBehaviors.isEmpty)).map
    (fun c => c.key)

/-- The shared polymorphic `_IComponent` fragment spanning all experience
nodes. -/
def componentFragmentString (reg : Registry) : String :=
  "fragment _IComponent on _IComponent \x7b __typename " ++
    joinSpace ((experienceNodes reg).map (fun n => "..." ++ n)) ++ " \x7d"

/-- One unfolding of the composer: every recursive call goes through the
`recur` parameter (instantiated with the composer at one unit less fuel). -/
def stepBody (reg : Registry) (dam : Bool)
    (recur : Job → List String → Except StepErr Out) :
    Job → List String → Except StepErr Out
  | .frag name suffix includeBase, visited =>
    let fragmentName := name ++ suffix
    if visited.contains fragmentName then .ok ⟨[], [], false, false, visited⟩
    else
      let v1 := fragmentName :: visited
      if isBaseType name then
        let fields := "__typename" :: buildBaseTypeFragmentsFields
        .ok ⟨[], jsDedup buildBaseTypeFragmentsExtra ++
          [mkFragmentString fragmentName (toBaseTypeFragmentKey fragmentName) fields],
          false, false, v1⟩
      else
        match getContentType reg name with
        | none => .error (.missingType name)
        | some ct =>
          match recur (.props name suffix ct.properties) v1 with
          | .error e => .error e
          | .ok pr =>
            let fields := "__typename" :: pr.fields ++
              (if includeBase then buildBaseTypeFragmentsFields else [])
            let extra := (if includeBase then buildBaseTypeFragmentsExtra else []) ++ pr.extra
            if ct.baseType == "_experience" then
              match recur .expFrags pr.visited with
              | .error e => .error e
              | .ok ex =>
                let fields := fields ++ ["..._IExperience"]
                let extra := (if pr.dam then DAM_ASSET_FRAGMENTS else []) ++ (extra ++ ex.extra)
                .ok ⟨[], jsDedup extra ++
                  [mkFragmentString fragmentName (toBaseTypeFragmentKey fragmentName) fields],
                  false, pr.cr || ex.cr, ex.visited⟩
            else
              let extra := (if pr.dam then DAM_ASSET_FRAGMENTS else []) ++ extra
              .ok ⟨[], jsDedup extra ++
                [mkFragmentString fragmentName (toBaseTypeFragmentKey fragmentName) fields],
                false, pr.cr, pr.visited⟩
  | .props root suffix ps, visited =>
    match ps with
    | [] => .ok ⟨[], [], false, false, visited⟩
    | (pname, p) :: rest =>
      if p.indexingType == some "disabled" then
        recur (.props root suffix rest) visited
      else
        match recur (.prop pname p root suffix) visited with
        | .error e => .error e
        | .ok r1 =>
          match recur (.props root suffix rest) r1.visited with
          | .error e => .error e
          | .ok r2 =>
            .ok ⟨r1.fields ++ r2.fields, r1.extra ++ r2.extra,
              r1.dam || r2.dam, r1.cr || r2.cr, r2.visited⟩
  | .prop pname p root suffix, visited =>
    let nameInFragment := root ++ suffix ++ "__" ++ pname ++ ":" ++ pname
    match p.shape with
    | .component key =>
      let fragName := key ++ "Property"
      match recur (.frag key "Property" false) visited with
      | .error e => .error e
      | .ok f =>
        .ok ⟨[nameInFragment ++ " \x7b ..." ++ fragName ++ " \x7d"],
          jsDedup f.extra, false, f.cr, f.visited⟩
    | .content allowedT restrictedT =>
      let allowed := resolveAllowedTypes reg allowedT restrictedT
      match recur (.contentKeys root allowed) visited with
      | .error e => .error e
      | .ok ck =>
        let uniqueSubfields := joinSpace ("__typename" :: jsDedup ck.fields)
        .ok ⟨[nameInFragment ++ " \x7b " ++ uniqueSubfields ++ " \x7d"],
          jsDedup ck.extra, false, ck.cr, ck.visited⟩
    | .richText =>
      .ok ⟨[nameInFragment ++ " \x7b html, json \x7d"], [], false, false, visited⟩
    | .url =>
      .ok ⟨[nameInFragment ++ " \x7b ...ContentUrl \x7d"],
        jsDedup [CONTENT_URL_FRAGMENT], false, false, visited⟩
    | .link =>
      .ok ⟨[nameInFragment ++ " \x7b text title target url \x7b ...ContentUrl \x7d\x7d"],
        jsDedup [CONTENT_URL_FRAGMENT], false, false, visited⟩
    | .contentReference =>
      let itemFragment := if dam then " ...ContentReferenceItem" else ""
      .ok ⟨[pname ++ " \x7b key url \x7b ...ContentUrl \x7d" ++ itemFragment ++ " \x7d"],
        jsDedup [CONTENT_URL_FRAGMENT], dam, true, visited⟩
    | .array items =>
      match recur (.prop pname items root suffix) visited with
      | .error e => .error e
      | .ok r => .ok ⟨r.fields, jsDedup r.extra, r.dam, r.cr, r.visited⟩
    | .scalar =>
      .ok ⟨[nameInFragment], [], false, false, visited⟩
  | .contentKeys root keys, visited =>
    match keys with
    | [] => .ok ⟨[], [], false, false, visited⟩
    | t :: rest =>
      let key := if t == "_self" then root else t
      match recur (.frag key "" true) visited with
      | .error e => .error e
      | .ok f =>
        match recur (.contentKeys root rest) f.visited with
        | .error e => .error e
        | .ok r =>
          .ok ⟨("..." ++ key) :: r.fields, f.extra ++ r.extra,
            false, f.cr || r.cr, r.visited⟩
  | .expFrags, visited =>
    let nodes := experienceNodes reg
    let toProcess := nodes.filter (fun n => !visited.contains n)
    match recur (.expList toProcess) visited with
    | .error e => .error e
    | .ok r =>
      .ok ⟨[], EXPERIENCE_FIXED_FRAGMENTS ++ r.extra ++ [componentFragmentString reg],
        false, r.cr, r.visited⟩
  | .expList keys, visited =>
    match keys with
    | [] => .ok ⟨[], [], false, false, visited⟩
    | n :: rest =>
      match recur (.frag n "" true) visited with
      | .error e => .error e
      | .ok f =>
        match recur (.expList rest) f.visited with
        | .error e => .error e
        | .ok r => .ok ⟨[], f.extra ++ r.extra, false, f.cr || r.cr, r.visited⟩

/-- The fuel-indexed composer.  Every recursive call consumes one unit of
fuel; `StepErr.fuelOut` therefore marks insufficient fuel, never an error
of the source program. -/
def step (reg : Registry) (dam : Bool) : Nat → Job → List String → Except StepErr Out
  | 0, _, _ => .error .fuelOut
  | fuel + 1, job, visited => stepBody reg dam (step reg dam fuel) job visited

/-- `createFragment(contentTypeName, visited, suffix, includeBaseFragments,
damEnabled)` returns the fragment-string list (the source mutates `visited`
in place; the final visited set is exposed through `step`). -/
def createFragment (fuel : Nat) (reg : Registry) (contentTypeName : String)
    (visited : List String) (suffix : String)
    (includeBaseFragments damEnabled : Bool) : Except StepErr (List String) :=
  (step reg damEnabled fuel (.frag contentTypeName suffix includeBaseFragments) visited).map
    Out.extra

/-! ## JSON values and the response normaliser (`graph/index.ts`) -/

/-- A JSON-like runtime value, as traversed by `removeTypePrefix` and
`decorateWithContext`: primitives, arrays, and insertion-ordered objects. -/
inductive JVal where
  | null : JVal
  | bool : Bool → JVal
  | num : Int → JVal
  | str : String → JVal
  | arr : List JVal → JVal
  | obj : List (String × JVal) → JVal

/-- First-match key lookup in a JavaScript object. -/
def jsGet (fields : List (String × JVal)) (k : String) : Option JVal :=
  match fields.find? (fun f => f.1 == k) with
  | some f => some f.2
  | none => none

/-- JavaScript object assignment `obj[k] = v`: updates the value in place
when the key exists, otherwise appends the key at the end. -/
def jsSet (fields : List (String × JVal)) (k : String) (v : JVal) :
    List (String × JVal) :=
  if (fields.find? (fun f => f.1 == k)).isSome then
    fields.map (fun f => if f.1 == k then (k, v) else f)
  else fields ++ [(k, v)]

/-- Models `key.slice(prefix.length)` guarded by `key.startsWith(prefix)`. -/
def stripPre (key pre : String) : String := String.mk (key.data.drop pre.data.length)

mutual

/-- `removeTypePrefix(obj)`: recursively walks arrays and objects; for an
object carrying a string `__typename`, every key starting with
`"<typename>__"` is rewritten to the unprefixed name; other objects are
walked unchanged.  Returns a new tree. -/
def removeTypePrefix : JVal → JVal
  | .arr l => .arr (removeTypePrefixList l)
  | .obj fields =>
    match jsGet fields "__typename" with
    | some (.str tn) => .obj (removeTypePrefixFields (tn ++ "__") fields)
    | _ => .obj (removeTypePrefixPlain fields)
  | v => v

/-- Elementwise `removeTypePrefix` over an array (`obj.map(...)`). -/
def removeTypePrefixList : List JVal → List JVal
  | [] => []
  | v :: rest => removeTypePrefix v :: removeTypePrefixList rest

/-- The `for (const k in obj)` loop of `removeTypePrefix` for an object
with a matching `__typename`: keys starting with the prefix are stripped
(recursing into the value), others are copied (also recursing). -/
def removeTypePrefixFields (pre : String) : List (String × JVal) → List (String × JVal)
  | [] => []
  | (k, v) :: rest =>
    (if strStartsWith k pre then (stripPre k pre, removeTypePrefix v)
     else (k, removeTypePrefix v)) :: removeTypePrefixFields pre rest

/-- The `for (const k in obj)` loop of `removeTypePrefix` for an object
without `__typename`: plain recursive copy. -/
def removeTypePrefixPlain : List (String × JVal) → List (String × JVal)
  | [] => []
  | (k, v) :: rest => (k, removeTypePrefix v) :: removeTypePrefixPlain rest

end

/-- The preview parameters (`preview_token`, `key`, `ctx`, `ver`, `loc`). -/
structure PreviewParams where
  preview_token : String
  key : String
  ctx : String
  ver : String
  loc : String
  deriving DecidableEq

/-- The `__context` value attached by `decorateWithContext`. -/
def contextValue (params : PreviewParams) : JVal :=
  .obj [("edit", .bool (params.ctx == "edit")),
        ("preview_token", .str params.preview_token)]

mutual

/-- `decorateWithContext(obj, params)`: recursively walks arrays and
objects; after recursing into the values, an object carrying a
`__typename` key (of any value) gets `__context` assigned (the source
mutates in place; assignment updates an existing `__context` key in place
or appends it at the end). -/
def decorateWithContext (params : PreviewParams) : JVal → JVal
  | .arr l => .arr (decorateList params l)
  | .obj fields =>
    let fields2 := decorateFields params fields
    if (fields.find? (fun f => f.1 == "__typename")).isSome then
      .obj (jsSet fields2 "__context" (contextValue params))
    else .obj fields2
  | v => v

/-- Elementwise `decorateWithContext` over an array. -/
def decorateList (params : PreviewParams) : List JVal → List JVal
  | [] => []
  | v :: rest => decorateWithContext params v :: decorateList params rest

/-- The `for (const k in obj)` loop of `decorateWithContext`. -/
def decorateFields (params : PreviewParams) : List (String × JVal) → List (String × JVal)
  | [] => []
  | (k, v) :: rest => (k, decorateWithContext params v) :: decorateFields params rest

end

/-! ## Query filters (`graph/filters.ts`) -/

/-- One `_or` branch of the path filter: the `_metadata.url.default.eq`
value and the optional `_metadata.url.base.eq` value (`undefined` when no
host is given). -/
structure UrlWhere where
  defaultEq : Option String
  baseEq : Option String
  deriving DecidableEq

/-- The `where` clause built by `pathFilter`: a disjunction of URL matches. -/
structure PathFilterWhere where
  orBranches : List UrlWhere
  deriving DecidableEq

/-- `normalizePath(path)`: returns the same path with and without a
trailing slash, as `(pathWithTrailingSlash, pathWithoutTrailingSlash)`.
`path.endsWith('/')` and `path.slice(0, -1)` are modelled character-wise. -/
def normalizePath (path : String) : String × String :=
  if path.data.getLast? == some '/' then (path, String.mk path.data.dropLast)
  else (path ++ "/", path)

/-- `pathFilter(path, host)`: an `_or` of the trailing-slash and
non-trailing-slash forms of the path, each optionally scoped to the host.
The source falls back to `process.env.APPLICATION_HOST` when `path` is
falsy (the empty string); the environment variable is the `appHost`
parameter. -/
def pathFilter (path : String) (host : Option String) (appHost : String) :
    PathFilterWhere :=
  let p := if path == "" then appHost else path
  let n := normalizePath p
  ⟨[⟨some n.1, host⟩, ⟨some n.2, host⟩]⟩

/-- The `where` clause built by `previewFilter`: key, version and locale
equality. -/
structure PreviewWhere where
  keyEq : String
  versionEq : String
  localeEq : String
  deriving DecidableEq

/-- `previewFilter({key, ver, loc})`. -/
def previewFilter (params : PreviewParams) : PreviewWhere :=
  ⟨params.key, params.ver, params.loc⟩

/-! ## Graph-client orchestration core (`graph/index.ts`)

The HTTP round trips themselves are outside a shallow embedding; the
client logic is embedded as pure functions taking the JSON value each
request *would* return (the metadata-probe response and the content
response) and producing the value returned, or the error thrown, by the
source.  `none : Option JVal` models the JavaScript value `undefined`
produced by optional-chaining short-circuits. -/

/-- JavaScript property access `v?.k` on an optional value: nullish or
non-object receivers yield `undefined`. -/
def optGet (v : Option JVal) (k : String) : Option JVal :=
  match v with
  | some (.obj fields) => jsGet fields k
  | _ => none

/-- JavaScript truthiness test for `!x` on an optional value. -/
def isFalsy : Option JVal → Bool
  | none => true
  | some .null => true
  | some (.bool b) => !b
  | some (.num n) => n == 0
  | some (.str s) => s == ""
  | some (.arr _) => false
  | some (.obj _) => false

/-- The error class `GraphResponseError`, carrying its message. -/
inductive GErr where
  | graphResponse : String → GErr
  deriving DecidableEq

def SHAPE_ERROR_MSG : String :=
  "Returned type is not 'string'. This might be a bug in the SDK. Try again later. If the error persists, contact Optimizely support"

/-- `getContentMetaData`: extracts
`data._Content?.item?._metadata?.types?.[0]` and the DAM-enablement flag
`data.damAssetType !== null`; a falsy type name yields
`(none, damEnabled)`, a non-string one throws `GraphResponseError`. -/
def getContentMetaDataCore (data : JVal) : Except GErr (Option String × Bool) :=
  let c4 := optGet (optGet (optGet (optGet (some data) "_Content") "item") "_metadata") "types"
  let ctn : Option JVal := match c4 with | some (.arr (x :: _)) => some x | _ => none
  let dam : Bool := match optGet (some data) "damAssetType" with
    | some .null => false
    | _ => true
  if isFalsy ctn then .ok (none, dam)
  else match ctn with
    | some (.str s) => .ok (some s, dam)
    | _ => .error (.graphResponse SHAPE_ERROR_MSG)

/-- Models `response?._Content?.items.map(removeTypePrefix)`:
optional-chaining short-circuits on a missing or nullish `_Content`
(yielding `undefined`, i.e. `.ok none`), while calling `.map` on a missing
or non-array `items` raises a runtime `TypeError` (`.error ()`). -/
def mapItemsResult (response : JVal) : Except Unit (Option (List JVal)) :=
  match optGet (some response) "_Content" with
  | none => .ok none
  | some .null => .ok none
  | some v =>
    match optGet (some v) "items" with
    | some (.arr items) => .ok (some (removeTypePrefixList items))
    | _ => .error ()

/-- Outcome of `getContentByPath`: a thrown `GraphResponseError`, a runtime
`TypeError`, or a returned value (`none` models `undefined`,
`some l` a returned array). -/
inductive PathResult where
  | thrown : GErr → PathResult
  | jsError : PathResult
  | ok : Option (List JVal) → PathResult

/-- The orchestration of `getContentByPath` after the two responses are
known: probe the metadata; return `[]` when no content type resolves;
otherwise post-process the content response. -/
def getContentByPathCore (probeData contentResp : JVal) : PathResult :=
  match getContentMetaDataCore probeData with
  | .error e => .thrown e
  | .ok (none, _) => .ok (some [])
  | .ok (some _, _) =>
    match mapItemsResult contentResp with
    | .error _ => .jsError
    | .ok r => .ok r

/-- The message of the error thrown by `getPreviewContent` when the
metadata probe resolves no content type. -/
def previewNotFoundMsg (key : String) : String :=
  "No content found for key [" ++ key ++ "]. Check that your CMS contains something there"

/-- The orchestration of `getPreviewContent` after the two responses are
known: probe the metadata; throw when no content type resolves; otherwise
strip alias prefixes from `response?._Content?.item` and decorate it with
the preview context. -/
def getPreviewContentCore (params : PreviewParams) (probeData contentResp : JVal) :
    Except GErr (Option JVal) :=
  match getContentMetaDataCore probeData with
  | .error e => .error e
  | .ok (none, _) => .error (.graphResponse (previewNotFoundMsg params.key))
  | .ok (some _, _) =>
    let item := optGet (optGet (some contentResp) "_Content") "item"
    .ok (match item with
      | some v => some (decorateWithContext params (removeTypePrefix v))
      | none => none)

/-! ## C1: allow-list media override ordering -/

/-- A key that `raAdd` refuses for reasons independent of the fold state:
it is on the skip list, it is a main structural base type, or its
registered content type has every property indexing-disabled. -/
def permSkipped (reg : Registry) (skip : List String) (u : String) : Prop :=
  u ∈ skip ∨ u ∈ MAIN_BASE_TYPES ∨
    (match getContentType reg u with
      | some c => allPropertiesAreDisabled c
      | none => false) = true

/-- Invariant of the `resolveAllowedTypes` fold: `seen` and `result`
contain the same keys, no result key is on the skip list, and once the
base type `b` is in the result, all of its user-defined extension keys
either already precede it or are permanently skipped. -/
def C1Inv (reg : Registry) (skip : List String) (b : String) (byKeys : List String)
    (st : RAState) : Prop :=
  (∀ x, x ∈ st.seen ↔ x ∈ st.result) ∧
  (∀ x ∈ st.result, x ∉ skip) ∧
  (b ∈ st.result →
    ∃ r1 r2, st.result = r1 ++ b :: r2 ∧
      (∀ u ∈ byKeys, u ∉ r2) ∧
      (∀ u ∈ byKeys, u ∉ st.seen → permSkipped reg skip u))

/-- One entry of the main `resolveAllowedTypes` loop (explicit allow-list
case): splice in the user-defined extensions of a base-type entry, then add
the entry itself. -/
def raEntryStep (reg : Registry) (skip : List String) (st : RAState) (entry : String) :
    RAState :=
  raAdd reg skip
    (if isBaseType entry then
      (getContentTypeByBaseType reg entry).foldl
        (fun st2 ct => raAdd reg skip st2 ct.key) st
    else st) entry

/-- A registry with one user-defined image type and one page type whose
`content` property has no explicit allow list. -/
def regC1 : Registry :=
  [⟨"MyImage", "_image", [("alt", .mk none .scalar)], []⟩,
   ⟨"Root", "_page", [("media", .mk none (.content none none))], []⟩]

/-- A page type with an indexing-disabled property and an enabled sibling. -/
def regC6 : Registry :=
  [⟨"ct1", "_page",
    [("secret", .mk (some "disabled") .scalar), ("title", .mk none .scalar)], []⟩]

/-- A segment scanner: `hasSeg p l` is true when `p` occurs contiguously
inside `l`. -/
def hasSeg (p : List Char) : List Char → Bool
  | [] => p.isEmpty
  | c :: rest => charsIsPre p (c :: rest) || hasSeg p rest

/-! ## DAM conditionality invariant -/

/-- Jobs that return the source's DAM flag as `false` (the flag is not
propagated out of nested `createFragment` calls). -/
def Job.fragLike : Job → Bool
  | .props _ _ _ => false
  | .prop _ _ _ _ => false
  | _ => true

/-! ## The traversal is independent of the DAM flag -/

/-- Similarity of composer results: same error, or same visited set and
same `contentReference`-reached bit. -/
def simR : Except StepErr Out → Except StepErr Out → Prop
  | .error e1, .error e2 => e1 = e2
  | .ok o1, .ok o2 => o1.visited = o2.visited ∧ o1.cr = o2.cr
  | _, _ => False

/-- A registry with one page type holding a `contentReference` property. -/
def regC2 : Registry := [⟨"ct1", "_page", [("image", .mk none .contentReference)], []⟩]

/-! ## C3: cycle safety and termination of the composer -/

/-- The universe of composition keys a run over `reg` can add to `visited`
through a recursing `frag` job: every registered key, plain and with the
`Property` suffix of component sub-fragments. -/
def uNames (reg : Registry) : List String :=
  reg.map (fun c => c.key) ++ reg.map (fun c => c.key ++ "Property")

/-- Number of universe keys not yet visited: the termination measure. -/
def mU (reg : Registry) (v : List String) : Nat :=
  ((uNames reg).filter (fun x => !v.contains x)).length

/-- The suffixes the composer itself passes to nested `createFragment`
calls. -/
def goodSuf (s : String) : Prop := s = "" ∨ s = "Property"

/-- Number of (possibly overlapping) occurrences of `pat` as a contiguous
segment. -/
def countSeg (pat : List Char) : List Char → Nat
  | [] => 0
  | c :: rest => (if charsIsPre pat (c :: rest) then 1 else 0) + countSeg pat rest

/-- A registry whose single page type's `content` property allows the type
itself: the minimal self-referencing schema. -/
def regCyc : Registry :=
  [⟨"Cyc", "_page", [("kids", .mk none (.content (some ["Cyc"]) none))], []⟩]

mutual

/-- Structural depth of a property shape (array nesting). -/
def shapeDepth : PropShape → Nat
  | .array p => propDepth p + 1
  | _ => 0

/-- Structural depth of a property. -/
def propDepth : AnyProperty → Nat
  | .mk _ s => shapeDepth s + 1

end

/-! ## C4: declared fragment names -/

/-- The name a fragment string declares: the characters after the
`"fragment "` prefix up to the first space. -/
def dn (s : String) : List Char := (s.data.drop 9).takeWhile (fun c => !(c == ' '))

/-- All fixed library fragments a composition pass can emit besides
composed per-type fragments. -/
def LIB (reg : Registry) : List String :=
  COMMON_FRAGMENTS ++ DAM_ASSET_FRAGMENTS ++ [CONTENT_URL_FRAGMENT] ++
    EXPERIENCE_FIXED_FRAGMENTS ++ [componentFragmentString reg]

mutual

/-- Names a property can send to nested `createFragment` calls: component
keys (suffixed) and explicit content allow-list entries. -/
def propNames : AnyProperty → List String
  | .mk _ s => shapeNames s

/-- Names a property shape can send to nested `createFragment` calls. -/
def shapeNames : PropShape → List String
  | .component key => [key ++ "Property"]
  | .content (some l) _ => l
  | .content none _ => []
  | .array p => propNames p
  | _ => []

end

/-- All names a property of a registered type can mention. -/
def ctNames (c : ContentType) : List String :=
  (c.properties.map (fun pp => propNames pp.2)).flatten

/-- Every name one top-level composition pass over `reg` rooted at `root`
can declare in a composed fragment. -/
def allTypeNames (reg : Registry) (root : String) : List String :=
  root :: (uNames reg ++ (reg.map ctNames).flatten)

/-- Invariant on in-flight jobs: every name the job can still send to a
nested `createFragment` call lies in the name universe `A`. -/
def jobNamesOK (A : List String) : Job → Prop
  | .frag name suffix _ => goodSuf suffix ∧ (name ++ suffix) ∈ A
  | .props root _ ps => root ∈ A ∧ ∀ pp ∈ ps, ∀ n ∈ propNames pp.2, n ∈ A
  | .prop _ p root _ => root ∈ A ∧ ∀ n ∈ propNames p, n ∈ A
  | .contentKeys root keys => root ∈ A ∧ ∀ t ∈ keys, t ≠ "_self" → t ∈ A
  | .expFrags => True
  | .expList keys => ∀ n ∈ keys, n ∈ A

/-- Classification of emitted fragment strings: library fragments, or
fragments composed for a name recorded in `Δ`. -/
def classif (reg : Registry) (Δ : List String) (L : List String) : Prop :=
  ∀ s ∈ L, s ∈ LIB reg ∨ ∃ n ∈ Δ, ∃ pn flds, s = mkFragmentString n pn flds

/-- Per space-free name, at most one composed fragment string occurs. -/
def uniqNames (L : List String) : Prop :=
  ∀ n : String, n.data.all (fun c => !(c == ' ')) = true →
    ∀ s1 ∈ L, ∀ s2 ∈ L,
      (∃ pn flds, s1 = mkFragmentString n pn flds) →
      (∃ pn flds, s2 = mkFragmentString n pn flds) → s1 = s2

/-- Full naming invariant of a composer run: the visited delta is clean
and inside the name universe, every emitted string is a library fragment
or composed for a delta name, and composed names are unique. -/
def NInv (reg : Registry) (A : List String) (v : List String) (out : Out) : Prop :=
  ∃ Δ : List String,
    out.visited = Δ ++ v ∧ Δ.Nodup ∧ (∀ x ∈ Δ, v.contains x = false) ∧
    (∀ x ∈ Δ, x ∈ A) ∧ classif reg Δ out.extra ∧ uniqNames out.extra

/-- A registry with a user type keyed like the library `ContentUrl`
fragment, referenced from a second type. -/
def regC4 : Registry :=
  [⟨"ContentUrl", "_page", [], []⟩,
   ⟨"Root", "_page", [("kids", .mk none (.content (some ["ContentUrl"]) none))], []⟩]

/-! ## Theorems -/

/-! ## Supporting lemmas -/

/-- A string equals the string rebuilt from its character list. -/
theorem string_mk_data (s : String) : String.mk s.data = s := by
  cases s; rfl

/-- Appending a character list never yields the empty string. -/
theorem append_slash_ne_empty (p : String) : (p ++ "/") = "" → False := by
  intro h
  have hd : (p ++ "/").data = ("" : String).data := by rw [h]
  rw [String.data_append] at hd
  simp at hd

/-- The character data of `p ++ "/"` is `p.data ++ ['/']`. -/
theorem data_append_slash (p : String) : (p ++ "/").data = p.data ++ ['/'] := by
  rw [String.data_append]

/-! ## C5: alias-prefix stripping round trip -/

/-- C5: applying `removeTypePrefix` to
`\x7b__typename: "T", "T__a": 1, nested: \x7b__typename: "U", "U__b": 2\x7d\x7d`
yields `\x7b__typename: "T", a: 1, nested: \x7b__typename: "U", b: 2\x7d\x7d`,
and a second application leaves that result unchanged (idempotence on
already-normalised data). -/
theorem removeTypePrefix_round_trip :
    removeTypePrefix
        (.obj [("__typename", .str "T"), ("T__a", .num 1),
               ("nested", .obj [("__typename", .str "U"), ("U__b", .num 2)])]) =
      .obj [("__typename", .str "T"), ("a", .num 1),
            ("nested", .obj [("__typename", .str "U"), ("b", .num 2)])] ∧
    removeTypePrefix
        (.obj [("__typename", .str "T"), ("a", .num 1),
               ("nested", .obj [("__typename", .str "U"), ("b", .num 2)])]) =
      .obj [("__typename", .str "T"), ("a", .num 1),
            ("nested", .obj [("__typename", .str "U"), ("b", .num 2)])] :=
  ⟨rfl, rfl⟩

/-! ## C9: preview-context decoration -/

/-- C9: decorating `\x7b__typename: "T", child: \x7b__typename: "U"\x7d\x7d`
with preview parameters `ctx = "edit"`, `preview_token = "tok"` attaches
`__context = \x7bedit: true, preview_token: "tok"\x7d` beside the
`__typename` of both nodes; and every object lacking a `__typename` key
gets nothing attached — its own keys are unchanged apart from the
recursion into their values. -/
theorem decorateWithContext_attaches_context :
    (decorateWithContext ⟨"tok", "k", "edit", "v", "l"⟩
        (.obj [("__typename", .str "T"),
               ("child", .obj [("__typename", .str "U")])]) =
      .obj [("__typename", .str "T"),
            ("child", .obj [("__typename", .str "U"),
              ("__context", .obj [("edit", .bool true),
                                  ("preview_token", .str "tok")])]),
            ("__context", .obj [("edit", .bool true),
                                ("preview_token", .str "tok")])]) ∧
    ∀ (params : PreviewParams) (fields : List (String × JVal)),
      fields.find? (fun f => f.1 == "__typename") = none →
      decorateWithContext params (.obj fields) = .obj (decorateFields params fields) := by
  refine ⟨rfl, ?_⟩
  intro params fields h
  simp [decorateWithContext, h]

/-- Witness for C9 at a concrete `__typename`-free object. -/
theorem decorateWithContext_attaches_context_witness :
    decorateWithContext ⟨"t", "k", "edit", "v", "l"⟩ (.obj [("x", .num 1)]) =
      .obj [("x", .num 1)] := by
  have h := decorateWithContext_attaches_context.2 ⟨"t", "k", "edit", "v", "l"⟩
    [("x", .num 1)] (by rfl)
  simp only [decorateFields, decorateWithContext] at h
  exact h

/-! ## C7: path filter symmetry and empty result on probe miss -/

/-- C7: for every non-empty path without a trailing slash, `pathFilter`
builds the same where-filter for the path and for its trailing-slash form,
and that filter's `_or` lists both the trailing-slash and the
non-trailing-slash variants; and when the metadata probe resolves no
content type, `getContentByPath` returns the empty array instead of
throwing. -/
theorem pathFilter_slash_symmetry :
    (∀ (p : String) (host : Option String) (appHost : String),
      p ≠ "" → p.data.getLast? ≠ some '/' →
      pathFilter p host appHost = pathFilter (p ++ "/") host appHost ∧
      (pathFilter p host appHost).orBranches =
        [⟨some (p ++ "/"), host⟩, ⟨some p, host⟩]) ∧
    (∀ (probe content : JVal) (d : Bool),
      getContentMetaDataCore probe = .ok (none, d) →
      getContentByPathCore probe content = .ok (some [])) := by
  constructor
  · intro p host appHost hne hlast
    have hpe : (p == "") = false := by
      simp only [beq_eq_false_iff_ne, ne_eq]; exact hne
    have hps : ((p ++ "/") == "") = false := by
      simp only [beq_eq_false_iff_ne, ne_eq]
      exact fun h => append_slash_ne_empty p h
    have hl1 : (p.data.getLast? == some '/') = false := by
      simp only [beq_eq_false_iff_ne, ne_eq]; exact hlast
    have hl2 : ((p ++ "/").data.getLast? == some '/') = true := by
      rw [data_append_slash]
      simp
    have hdrop : (p ++ "/").data.dropLast = p.data := by
      rw [data_append_slash]; simp
    constructor
    · simp [pathFilter, normalizePath, hpe, hps, hl1, hl2, hdrop, string_mk_data]
    · simp [pathFilter, normalizePath, hpe, hl1]
  · intro probe content d h
    simp [getContentByPathCore, h]

/-- Witness for C7 at the concrete paths `/a/b` and `/a/b/` and a probe
response resolving no content type. -/
theorem pathFilter_slash_symmetry_witness :
    (pathFilter "/a/b" none "" = pathFilter ("/a/b" ++ "/") none "" ∧
      (pathFilter "/a/b" none "").orBranches =
        [⟨some ("/a/b" ++ "/"), none⟩, ⟨some "/a/b", none⟩]) ∧
    getContentByPathCore (.obj []) (.obj []) = .ok (some []) :=
  ⟨pathFilter_slash_symmetry.1 "/a/b" none "" (by decide) (by decide),
   pathFilter_slash_symmetry.2 (.obj []) (.obj []) true rfl⟩

/-! ## C8: preview not-found throws a descriptive error -/

/-- C8: whenever the metadata probe resolves no content type,
`getPreviewContent` throws the `GraphResponseError` whose message names
the requested key (never returning null or an empty result), in contrast
with `getContentByPath`, which returns the empty array on the same probe
outcome. -/
theorem getPreviewContent_not_found_throws :
    ∀ (params : PreviewParams) (probe content : JVal) (d : Bool),
      getContentMetaDataCore probe = .ok (none, d) →
      getPreviewContentCore params probe content =
        .error (.graphResponse (previewNotFoundMsg params.key)) ∧
      (∃ a b, previewNotFoundMsg params.key = a ++ params.key ++ b) ∧
      getContentByPathCore probe content = .ok (some []) := by
  intro params probe content d h
  refine ⟨?_, ⟨"No content found for key [",
    "]. Check that your CMS contains something there", rfl⟩, ?_⟩
  · simp [getPreviewContentCore, h]
  · simp [getContentByPathCore, h]

/-- Witness for C8 at a concrete probe response resolving no content type. -/
theorem getPreviewContent_not_found_throws_witness :
    getPreviewContentCore ⟨"tok", "thekey", "edit", "v", "l"⟩ (.obj []) (.obj []) =
      .error (.graphResponse (previewNotFoundMsg "thekey")) :=
  (getPreviewContent_not_found_throws ⟨"tok", "thekey", "edit", "v", "l"⟩
    (.obj []) (.obj []) true rfl).1

/-! ## C10: missing `_Content` yields `undefined`, not an array -/

/-- C10: when the metadata probe resolves a content type but the content
response's `_Content` field is missing or null, `getContentByPath` returns
`undefined` (`none`), which is not an array; the empty-array result arises
only from the probe-miss branch, and with `_Content.items` present as an
array the result is the mapped item list. -/
theorem getContentByPath_undefined_on_missing_content :
    (∀ (probe content : JVal) (n : String) (d : Bool),
      getContentMetaDataCore probe = .ok (some n, d) →
      (optGet (some content) "_Content" = none ∨
        optGet (some content) "_Content" = some .null) →
      getContentByPathCore probe content = .ok none) ∧
    (∀ (l : List JVal), (PathResult.ok none : PathResult) ≠ .ok (some l)) ∧
    (∀ (probe content : JVal) (d : Bool),
      getContentMetaDataCore probe = .ok (none, d) →
      getContentByPathCore probe content = .ok (some [])) ∧
    (∀ (probe content : JVal) (n : String) (d : Bool) (items : List JVal),
      getContentMetaDataCore probe = .ok (some n, d) →
      optGet (optGet (some content) "_Content") "items" = some (.arr items) →
      getContentByPathCore probe content = .ok (some (removeTypePrefixList items))) := by
  refine ⟨?_, ?_, ?_, ?_⟩
  · intro probe content n d h hc
    rcases hc with hc | hc <;>
      simp [getContentByPathCore, h, mapItemsResult, hc]
  · intro l h
    simp at h
  · intro probe content d h
    simp [getContentByPathCore, h]
  · intro probe content n d items h hitems
    rcases hc : optGet (some content) "_Content" with _ | v
    · rw [hc] at hitems; simp [optGet] at hitems
    · cases v with
      | null => rw [hc] at hitems; simp [optGet] at hitems
      | _ =>
        rw [hc] at hitems
        simp [getContentByPathCore, h, mapItemsResult, hc, hitems]

/-- Witness for C10: a probe response resolving `ct1` together with a
content response lacking `_Content` yields `undefined`. -/
theorem getContentByPath_undefined_on_missing_content_witness :
    getContentByPathCore
        (.obj [("_Content", .obj [("item", .obj [("_metadata",
          .obj [("types", .arr [.str "ct1"])])])])])
        (.obj []) = .ok none :=
  getContentByPath_undefined_on_missing_content.1
    (.obj [("_Content", .obj [("item", .obj [("_metadata",
      .obj [("types", .arr [.str "ct1"])])])])])
    (.obj []) "ct1" true rfl (.inl rfl)

/-- Boolean `contains` on string lists agrees with membership. -/
theorem strContains_iff (l : List String) (x : String) : l.contains x = true ↔ x ∈ l := by
  simp [List.contains, List.elem_eq_mem]

/-- `raAdd` either leaves the state unchanged (the key being permanently
skipped or already seen) or appends a key that was neither. -/
theorem raAdd_eq_or (reg : Registry) (skip : List String) (st : RAState) (key : String) :
    (raAdd reg skip st key = st ∧ (permSkipped reg skip key ∨ key ∈ st.seen)) ∨
    (raAdd reg skip st key = ⟨key :: st.seen, st.result ++ [key]⟩ ∧
      ¬ permSkipped reg skip key ∧ key ∉ st.seen) := by
  unfold raAdd
  split_ifs with h1 h2
  · exact .inl ⟨rfl, .inl (.inr (.inr h1))⟩
  · left
    refine ⟨rfl, ?_⟩
    simp only [Bool.or_eq_true, strContains_iff] at h2
    rcases h2 with (h | h) | h
    · exact .inl (.inl h)
    · exact .inr h
    · exact .inl (.inr (.inl h))
  · right
    simp only [Bool.or_eq_true, strContains_iff, not_or] at h2
    refine ⟨rfl, ?_, h2.1.2⟩
    intro hp
    rcases hp with h | h | h
    · exact h2.1.1 h
    · exact h2.2 h
    · exact h1 h

/-- `raAdd` with a key different from `b` preserves the invariant. -/
theorem C1Inv_raAdd_ne (reg : Registry) (skip : List String) (b : String)
    (byKeys : List String) (st : RAState) (key : String) (hkb : key ≠ b)
    (h : C1Inv reg skip b byKeys st) :
    C1Inv reg skip b byKeys (raAdd reg skip st key) := by
  rcases raAdd_eq_or reg skip st key with ⟨he, _⟩ | ⟨he, hnp, hns⟩
  · rw [he]; exact h
  · rw [he]
    obtain ⟨hA, hB, hC⟩ := h
    refine ⟨?_, ?_, ?_⟩
    · intro x
      simp only [List.mem_cons, List.mem_append, List.mem_singleton, hA x]
      tauto
    · intro x hx
      rcases List.mem_append.mp hx with hx | hx
      · exact hB x hx
      · rw [List.mem_singleton] at hx; subst hx
        intro hsk
        exact hnp (.inl hsk)
    · intro hb
      have hbr : b ∈ st.result := by
        rcases List.mem_append.mp hb with h' | h'
        · exact h'
        · rw [List.mem_singleton] at h'
          exact absurd h'.symm hkb
      obtain ⟨r1, r2, hdec, hr2, hperm⟩ := hC hbr
      refine ⟨r1, r2 ++ [key], by rw [hdec]; simp, ?_, ?_⟩
      · intro u hu hmem
        rcases List.mem_append.mp hmem with hm | hm
        · exact hr2 u hu hm
        · rw [List.mem_singleton] at hm; subst hm
          exact hnp (hperm u hu hns)
      · intro u hu hus
        exact hperm u hu (fun h' => hus (List.mem_cons_of_mem _ h'))

/-- `raAdd` with the base key `b` itself preserves the invariant, provided
every user extension of `b` is already seen or permanently skipped. -/
theorem C1Inv_raAdd_b (reg : Registry) (skip : List String) (b : String)
    (byKeys : List String) (st : RAState)
    (h : C1Inv reg skip b byKeys st)
    (hsp : ∀ u ∈ byKeys, u ∈ st.seen ∨ permSkipped reg skip u) :
    C1Inv reg skip b byKeys (raAdd reg skip st b) := by
  rcases raAdd_eq_or reg skip st b with ⟨he, _⟩ | ⟨he, hnp, hns⟩
  · rw [he]; exact h
  · rw [he]
    obtain ⟨hA, hB, hC⟩ := h
    refine ⟨?_, ?_, ?_⟩
    · intro x
      simp only [List.mem_cons, List.mem_append, List.mem_singleton, hA x]
      tauto
    · intro x hx
      rcases List.mem_append.mp hx with hx | hx
      · exact hB x hx
      · rw [List.mem_singleton] at hx; subst hx
        intro hsk
        exact hnp (.inl hsk)
    · intro _
      refine ⟨st.result, [], by simp, by simp, ?_⟩
      intro u hu hus
      rcases hsp u hu with h' | h'
      · exact absurd (List.mem_cons_of_mem _ h') hus
      · exact h'

/-- `raAdd` only grows the seen set. -/
theorem raAdd_seen_mono (reg : Registry) (skip : List String) (st : RAState)
    (key : String) : ∀ x ∈ st.seen, x ∈ (raAdd reg skip st key).seen := by
  rcases raAdd_eq_or reg skip st key with ⟨he, _⟩ | ⟨he, _, _⟩ <;>
    (rw [he]; intro x hx) <;> simp [hx]

/-- Folding `raAdd` over a key list only grows the seen set. -/
theorem foldl_raAdd_seen_mono (reg : Registry) (skip : List String) :
    ∀ (ks : List String) (st : RAState) (x : String), x ∈ st.seen →
      x ∈ (ks.foldl (raAdd reg skip) st).seen := by
  intro ks
  induction ks with
  | nil => intro st x hx; exact hx
  | cons k rest ih =>
    intro st x hx
    exact ih (raAdd reg skip st k) x (raAdd_seen_mono reg skip st k x hx)

/-- After folding `raAdd` over a key list, every key of the list is either
in the seen set or permanently skipped. -/
theorem foldl_raAdd_covers (reg : Registry) (skip : List String) :
    ∀ (ks : List String) (st : RAState) (u : String), u ∈ ks →
      u ∈ (ks.foldl (raAdd reg skip) st).seen ∨ permSkipped reg skip u := by
  intro ks
  induction ks with
  | nil => intro st u hu; cases hu
  | cons k rest ih =>
    intro st u hu
    rcases List.mem_cons.mp hu with rfl | hu
    · rcases raAdd_eq_or reg skip st u with ⟨he, hwhy⟩ | ⟨he, _, _⟩
      · rcases hwhy with hp | hseen
        · exact .inr hp
        · left
          rw [List.foldl_cons, he]
          exact foldl_raAdd_seen_mono reg skip rest st u hseen
      · left
        rw [List.foldl_cons]
        refine foldl_raAdd_seen_mono reg skip rest _ u ?_
        rw [he]
        exact List.mem_cons_self u _
    · exact ih (raAdd reg skip st k) u hu

/-- Folding `raAdd` over keys all different from `b` preserves the
invariant. -/
theorem C1Inv_foldl_ne (reg : Registry) (skip : List String) (b : String)
    (byKeys : List String) :
    ∀ (ks : List String) (st : RAState), (∀ k ∈ ks, k ≠ b) →
      C1Inv reg skip b byKeys st →
      C1Inv reg skip b byKeys (ks.foldl (raAdd reg skip) st) := by
  intro ks
  induction ks with
  | nil => intro st _ h; exact h
  | cons k rest ih =>
    intro st hne h
    exact ih (raAdd reg skip st k) (fun x hx => hne x (List.mem_cons_of_mem _ hx))
      (C1Inv_raAdd_ne reg skip b byKeys st k (hne k (List.mem_cons_self k _)) h)

/-- With a non-empty explicit allow list, `resolveAllowedTypes` is the
main loop folded over that list. -/
theorem resolveAllowedTypes_explicit (reg : Registry) (al : List String)
    (restricted : Option (List String)) (h : al ≠ []) :
    resolveAllowedTypes reg (some al) restricted =
      (al.foldl (raEntryStep reg (raSkip reg restricted)) ⟨[], []⟩).result := by
  have he : (!al.isEmpty) = true := by
    cases al
    · exact absurd rfl h
    · rfl
  unfold resolveAllowedTypes raEntryStep
  simp [he]

/-- One main-loop entry preserves the invariant, for a base type `b` in a
registry whose keys are all non-base keys. -/
theorem C1Inv_entryStep (reg : Registry) (skip : List String) (b : String)
    (hbase : isBaseType b = true)
    (hreg : ∀ ct ∈ reg, isBaseType ct.key = false)
    (entry : String) (st : RAState)
    (h : C1Inv reg skip b ((getContentTypeByBaseType reg b).map ContentType.key) st) :
    C1Inv reg skip b ((getContentTypeByBaseType reg b).map ContentType.key)
      (raEntryStep reg skip st entry) := by
  have hbyreg : ∀ bt : String, ∀ k ∈ (getContentTypeByBaseType reg bt).map ContentType.key,
      isBaseType k = false := by
    intro bt k hk
    rcases List.mem_map.mp hk with ⟨ct, hct, rfl⟩
    exact hreg ct (List.mem_of_mem_filter hct)
  have hbyne : ∀ bt : String, ∀ k ∈ (getContentTypeByBaseType reg bt).map ContentType.key,
      k ≠ b := by
    intro bt k hk hkb
    rw [hkb] at hk
    rw [hbyreg bt b hk] at hbase
    cases hbase
  unfold raEntryStep
  by_cases hbe : isBaseType entry = true
  · rw [if_pos hbe]
    rw [← List.foldl_map ContentType.key (raAdd reg skip)]
    by_cases heb : entry = b
    · rw [heb]
      refine C1Inv_raAdd_b reg skip b _ _ ?_ ?_
      · exact C1Inv_foldl_ne reg skip b _ _ st (hbyne b) h
      · intro u hu
        exact foldl_raAdd_covers reg skip _ st u hu
    · exact C1Inv_raAdd_ne reg skip b _ _ entry heb
        (C1Inv_foldl_ne reg skip b _ _ st (hbyne entry) h)
  · rw [if_neg hbe]
    refine C1Inv_raAdd_ne reg skip b _ _ entry ?_ h
    intro hkb
    rw [hkb] at hbe
    exact hbe hbase

/-- The `raSkip` fold only grows its accumulator. -/
theorem raSkip_foldl_mono (reg : Registry) :
    ∀ (l acc : List String) (x : String), x ∈ acc →
      x ∈ l.foldl (fun sk r =>
        if isBaseType r then
          (sk ++ [r]) ++ (getContentTypeByBaseType reg r).map (fun ct => ct.key)
        else sk ++ [r]) acc := by
  intro l
  induction l with
  | nil => intro acc x hx; exact hx
  | cons r rest ih =>
    intro acc x hx
    rw [List.foldl_cons]
    apply ih
    by_cases hb : isBaseType r = true <;> simp [hb, hx]

/-- Every restricted key is on the skip list, and for a restricted base
type every registered extension key is too. -/
theorem raSkip_spec (reg : Registry) (rl : List String) :
    ∀ r ∈ rl, r ∈ raSkip reg (some rl) ∧
      (isBaseType r = true →
        ∀ ct ∈ getContentTypeByBaseType reg r, ct.key ∈ raSkip reg (some rl)) := by
  have main : ∀ (l acc : List String), ∀ r ∈ l,
      r ∈ l.foldl (fun sk r' =>
        if isBaseType r' then
          (sk ++ [r']) ++ (getContentTypeByBaseType reg r').map (fun ct => ct.key)
        else sk ++ [r']) acc ∧
      (isBaseType r = true →
        ∀ ct ∈ getContentTypeByBaseType reg r,
          ct.key ∈ l.foldl (fun sk r' =>
            if isBaseType r' then
              (sk ++ [r']) ++ (getContentTypeByBaseType reg r').map (fun ct => ct.key)
            else sk ++ [r']) acc) := by
    intro l
    induction l with
    | nil => intro acc r hr; cases hr
    | cons r0 rest ih =>
      intro acc r hr
      rcases List.mem_cons.mp hr with rfl | hr
      · constructor
        · rw [List.foldl_cons]
          apply raSkip_foldl_mono
          by_cases hb : isBaseType r = true <;> simp [hb]
        · intro hb ct hct
          rw [List.foldl_cons]
          apply raSkip_foldl_mono
          simp only [hb, if_pos]
          refine List.mem_append.mpr (.inr ?_)
          exact List.mem_map.mpr ⟨ct, hct, rfl⟩
      · exact ih _ r hr
  intro r hr
  have h := main rl [] r hr
  unfold raSkip
  simpa using h

/-- C1 amended: for a `content` property with an *explicit* allow list, the
resolved key list excludes every restricted key (and every registered
extension of a restricted base type), and whenever a base media type `b`
of the allow list survives into the result, every registered type
extending `b` that is resolved appears strictly before `b` (the splice
puts extensions first), assuming registered keys are not base-type keys. -/
theorem resolveAllowedTypes_media_override (reg : Registry) (al rl : List String)
    (b : String) (hbase : isBaseType b = true)
    (hreg : ∀ ct ∈ reg, isBaseType ct.key = false)
    (hal : al ≠ []) :
    (∀ x ∈ resolveAllowedTypes reg (some al) (some rl), x ∉ raSkip reg (some rl)) ∧
    (∀ r ∈ rl, r ∈ raSkip reg (some rl) ∧
      (isBaseType r = true →
        ∀ ct ∈ getContentTypeByBaseType reg r, ct.key ∈ raSkip reg (some rl))) ∧
    (b ∈ resolveAllowedTypes reg (some al) (some rl) →
      ∃ r1 r2, resolveAllowedTypes reg (some al) (some rl) = r1 ++ b :: r2 ∧
        ∀ u ∈ (getContentTypeByBaseType reg b).map ContentType.key, u ∉ b :: r2) := by
  have hfold : ∀ (l : List String) (st : RAState),
      C1Inv reg (raSkip reg (some rl)) b
        ((getContentTypeByBaseType reg b).map ContentType.key) st →
      C1Inv reg (raSkip reg (some rl)) b
        ((getContentTypeByBaseType reg b).map ContentType.key)
        (l.foldl (raEntryStep reg (raSkip reg (some rl))) st) := by
    intro l
    induction l with
    | nil => intro st h; exact h
    | cons e rest ih =>
      intro st h
      exact ih _ (C1Inv_entryStep reg _ b hbase hreg e st h)
  have hinv := hfold al ⟨[], []⟩ (by
    refine ⟨?_, ?_, ?_⟩
    · intro x
      constructor <;> (intro h; cases h)
    · intro x hx; cases hx
    · intro hb; cases hb)
  rw [resolveAllowedTypes_explicit reg al (some rl) hal]
  obtain ⟨_, hB, hC⟩ := hinv
  refine ⟨hB, raSkip_spec reg rl, ?_⟩
  intro hb
  obtain ⟨r1, r2, hdec, hr2, _⟩ := hC hb
  refine ⟨r1, r2, hdec, ?_⟩
  intro u hu hmem
  rcases List.mem_cons.mp hmem with rfl | hmem
  · rcases List.mem_map.mp hu with ⟨ct, hct, hk⟩
    rw [← hk] at hbase
    rw [hreg ct (List.mem_of_mem_filter hct)] at hbase
    cases hbase
  · exact hr2 u hu hmem

/-- C1 counterexample: with *no* explicit allow list, the resolved types
for the `content` property are just the registered user types, the base
image type's own key never occurs, and the generated field spreads are
`...MyImage ...Root` with no `..._image` — so the claimed
"user-defined type before the base type's own fragment" ordering is false
as stated, the base fragment being absent entirely. -/
theorem resolveAllowedTypes_no_allow_list_counterexample :
    resolveAllowedTypes regC1 none none = ["MyImage", "Root"] ∧
    "_image" ∉ resolveAllowedTypes regC1 none none ∧
    (step regC1 false 8 (.prop "media" (.mk none (.content none none)) "Root" "")
        ["Root"]).map Out.fields =
      .ok ["Root__media:media \x7b __typename ...MyImage ...Root \x7d"] :=
  ⟨rfl, by decide, rfl⟩

/-- Witness for the amended C1 theorem: with the explicit allow list
`["_image"]`, the user image type is resolved strictly before `_image`. -/
theorem resolveAllowedTypes_media_override_witness :
    ∃ r1 r2, resolveAllowedTypes regC1 (some ["_image"]) (some []) = r1 ++ "_image" :: r2 ∧
      ∀ u ∈ (getContentTypeByBaseType regC1 "_image").map ContentType.key,
        u ∉ "_image" :: r2 :=
  (resolveAllowedTypes_media_override regC1 ["_image"] [] "_image"
    (by decide) (by decide) (by decide)).2.2 (by decide)

/-! ## Fuel stability of the composer -/

/-- A result other than fuel exhaustion is preserved when the recursive
calls are replaced by calls that agree wherever they do not run out of
fuel. -/
theorem stepBody_mono (reg : Registry) (dam : Bool)
    (r1 r2 : Job → List String → Except StepErr Out)
    (hag : ∀ j u, r1 j u ≠ .error .fuelOut → r2 j u = r1 j u) :
    ∀ (job : Job) (v : List String),
      stepBody reg dam r1 job v ≠ .error .fuelOut →
      stepBody reg dam r2 job v = stepBody reg dam r1 job v := by
  have agree : ∀ (j : Job) (u : List String) (e : StepErr), r1 j u = .error e →
      e ≠ .fuelOut → r2 j u = r1 j u := by
    intro j u e he hne
    exact hag j u (by rw [he]; intro hh; exact hne (by injection hh))
  have agreeOk : ∀ (j : Job) (u : List String) (o : Out), r1 j u = .ok o → r2 j u = r1 j u := by
    intro j u o ho
    exact hag j u (by rw [ho]; intro hh; cases hh)
  intro job v h
  match job with
  | .frag name suffix includeBase =>
    simp only [stepBody] at h ⊢
    by_cases hv : (List.contains v (name ++ suffix)) = true
    · simp only [hv, if_pos]
    · simp only [hv, Bool.false_eq_true, if_false] at h ⊢
      by_cases hb : isBaseType name = true
      · simp only [hb, if_pos]
      · simp only [hb, Bool.false_eq_true, if_false] at h ⊢
        rcases hct : getContentType reg name with _ | ct <;> simp only [hct] at h ⊢
        rcases hp : r1 (.props name suffix ct.properties) ((name ++ suffix) :: v) with e | pr
        · simp only [hp] at h
          have he : e ≠ .fuelOut := fun hh => h (by rw [hh])
          rw [agree _ _ _ hp he]
          simp only [hp]
        · rw [agreeOk _ _ _ hp]
          simp only [hp] at h ⊢
          by_cases hexp : (ct.baseType == "_experience") = true
          · simp only [hexp, if_pos] at h ⊢
            rcases hx : r1 .expFrags pr.visited with e | ex
            · simp only [hx] at h
              have he : e ≠ .fuelOut := fun hh => h (by rw [hh])
              rw [agree _ _ _ hx he]
              simp only [hx]
            · rw [agreeOk _ _ _ hx]
              simp only [hx]
          · simp only [hexp, Bool.false_eq_true, if_false]
  | .props root suffix ps =>
    simp only [stepBody] at h ⊢
    match ps with
    | [] => rfl
    | (pname, p) :: rest =>
      simp only [] at h ⊢
      by_cases hd : (p.indexingType == some "disabled") = true
      · simp only [hd, if_pos] at h ⊢
        exact hag _ _ h
      · simp only [hd, Bool.false_eq_true, if_false] at h ⊢
        rcases hp : r1 (.prop pname p root suffix) v with e | r0
        · simp only [hp] at h
          have he : e ≠ .fuelOut := fun hh => h (by rw [hh])
          rw [agree _ _ _ hp he]
          simp only [hp]
        · rw [agreeOk _ _ _ hp]
          simp only [hp] at h ⊢
          rcases hq : r1 (.props root suffix rest) r0.visited with e | r3
          · simp only [hq] at h
            have he : e ≠ .fuelOut := fun hh => h (by rw [hh])
            rw [agree _ _ _ hq he]
            simp only [hq]
          · rw [agreeOk _ _ _ hq]
            simp only [hq]
  | .prop pname p root suffix =>
    simp only [stepBody] at h ⊢
    match hsh : p.shape with
    | .component key =>
      simp only [hsh] at h ⊢
      rcases hp : r1 (.frag key "Property" false) v with e | f0
      · simp only [hp] at h
        have he : e ≠ .fuelOut := fun hh => h (by rw [hh])
        rw [agree _ _ _ hp he]
        simp only [hp]
      · rw [agreeOk _ _ _ hp]
        simp only [hp]
    | .content allowedT restrictedT =>
      simp only [hsh] at h ⊢
      rcases hp : r1 (.contentKeys root (resolveAllowedTypes reg allowedT restrictedT)) v
        with e | ck
      · simp only [hp] at h
        have he : e ≠ .fuelOut := fun hh => h (by rw [hh])
        rw [agree _ _ _ hp he]
        simp only [hp]
      · rw [agreeOk _ _ _ hp]
        simp only [hp]
    | .richText => simp only [hsh]
    | .url => simp only [hsh]
    | .link => simp only [hsh]
    | .contentReference => simp only [hsh]
    | .array items =>
      simp only [hsh] at h ⊢
      rcases hp : r1 (.prop pname items root suffix) v with e | r0
      · simp only [hp] at h
        have he : e ≠ .fuelOut := fun hh => h (by rw [hh])
        rw [agree _ _ _ hp he]
        simp only [hp]
      · rw [agreeOk _ _ _ hp]
        simp only [hp]
    | .scalar => simp only [hsh]
  | .contentKeys root keys =>
    simp only [stepBody] at h ⊢
    match keys with
    | [] => rfl
    | t :: rest =>
      simp only [] at h ⊢
      rcases hp : r1 (.frag (if t == "_self" then root else t) "" true) v with e | f0
      · simp only [hp] at h
        have he : e ≠ .fuelOut := fun hh => h (by rw [hh])
        rw [agree _ _ _ hp he]
        simp only [hp]
      · rw [agreeOk _ _ _ hp]
        simp only [hp] at h ⊢
        rcases hq : r1 (.contentKeys root rest) f0.visited with e | r3
        · simp only [hq] at h
          have he : e ≠ .fuelOut := fun hh => h (by rw [hh])
          rw [agree _ _ _ hq he]
          simp only [hq]
        · rw [agreeOk _ _ _ hq]
          simp only [hq]
  | .expFrags =>
    simp only [stepBody] at h ⊢
    rcases hp : r1 (.expList ((experienceNodes reg).filter (fun n => !v.contains n))) v
      with e | r0
    · simp only [hp] at h
      have he : e ≠ .fuelOut := fun hh => h (by rw [hh])
      rw [agree _ _ _ hp he]
      simp only [hp]
    · rw [agreeOk _ _ _ hp]
      simp only [hp]
  | .expList keys =>
    simp only [stepBody] at h ⊢
    match keys with
    | [] => rfl
    | n :: rest =>
      simp only [] at h ⊢
      rcases hp : r1 (.frag n "" true) v with e | f0
      · simp only [hp] at h
        have he : e ≠ .fuelOut := fun hh => h (by rw [hh])
        rw [agree _ _ _ hp he]
        simp only [hp]
      · rw [agreeOk _ _ _ hp]
        simp only [hp] at h ⊢
        rcases hq : r1 (.expList rest) f0.visited with e | r3
        · simp only [hq] at h
          have he : e ≠ .fuelOut := fun hh => h (by rw [hh])
          rw [agree _ _ _ hq he]
          simp only [hq]
        · rw [agreeOk _ _ _ hq]
          simp only [hq]

/-- Adding one unit of fuel does not change a result other than fuel
exhaustion. -/
theorem step_fuel_succ :
    ∀ (f : Nat) (reg : Registry) (dam : Bool) (job : Job) (v : List String),
      step reg dam f job v ≠ .error .fuelOut →
      step reg dam (f + 1) job v = step reg dam f job v := by
  intro f
  induction f with
  | zero =>
    intro reg dam job v h
    exact absurd rfl h
  | succ f ih =>
    intro reg dam job v h
    simp only [step] at h ⊢
    exact stepBody_mono reg dam (step reg dam f) (step reg dam (f + 1))
      (fun j u hj => ih reg dam j u hj) job v h

/-- Fuel stability: any result other than fuel exhaustion is stable under
increasing the fuel. -/
theorem step_fuel_mono (reg : Registry) (dam : Bool) (job : Job) (v : List String)
    (f g : Nat) (hfg : f ≤ g) (h : step reg dam f job v ≠ .error .fuelOut) :
    step reg dam g job v = step reg dam f job v := by
  induction g with
  | zero =>
    have : f = 0 := Nat.le_zero.mp hfg
    rw [this]
  | succ g ihg =>
    rcases Nat.lt_or_ge f (g + 1) with hlt | hge
    · have hle : f ≤ g := Nat.lt_succ_iff.mp hlt
      have hg := ihg hle
      rw [← hg] at h
      rw [step_fuel_succ g reg dam job v h, hg]
    · have : f = g + 1 := Nat.le_antisymm hfg hge
      rw [this]

/-! ## C6: indexing-disabled exclusion -/

/-- The property loop of `createFragment` computes the same result on a
property list and on that list with the indexing-disabled properties
removed: a disabled property contributes no field, no fragment, no DAM
flag and no visit. -/
theorem props_skip_disabled :
    ∀ (f : Nat) (reg : Registry) (dam : Bool) (root suffix : String)
      (ps : List (String × AnyProperty)) (v : List String) (out : Out),
      step reg dam f (.props root suffix ps) v = .ok out →
      ∃ g, step reg dam g
        (.props root suffix
          (ps.filter (fun q => !(q.2.indexingType == some "disabled")))) v = .ok out := by
  intro f
  induction f with
  | zero =>
    intro reg dam root suffix ps v out h
    cases h
  | succ f ih =>
    intro reg dam root suffix ps v out h
    match ps with
    | [] => exact ⟨f + 1, by simpa using h⟩
    | (pname, p) :: rest =>
      simp only [step, stepBody] at h
      by_cases hd : (p.indexingType == some "disabled") = true
      · simp only [hd, if_pos] at h
        obtain ⟨g, hg⟩ := ih reg dam root suffix rest v out h
        refine ⟨g, ?_⟩
        have hfc : ((pname, p) :: rest).filter
            (fun q => !(q.2.indexingType == some "disabled")) =
            rest.filter (fun q => !(q.2.indexingType == some "disabled")) := by
          simp [List.filter_cons, hd]
        rw [hfc]
        exact hg
      · simp only [hd, Bool.false_eq_true, if_false] at h
        rcases hp : step reg dam f (.prop pname p root suffix) v with e | r1
        · simp only [hp] at h
          cases h
        simp only [hp] at h
        rcases hq : step reg dam f (.props root suffix rest) r1.visited with e | r2
        · simp only [hq] at h
          cases h
        simp only [hq] at h
        obtain ⟨g2, hg2⟩ := ih reg dam root suffix rest r1.visited r2 hq
        refine ⟨max f g2 + 1, ?_⟩
        have hfc : ((pname, p) :: rest).filter
            (fun q => !(q.2.indexingType == some "disabled")) =
            (pname, p) :: rest.filter (fun q => !(q.2.indexingType == some "disabled")) := by
          simp [List.filter_cons, hd]
        rw [hfc]
        simp only [step, stepBody]
        simp only [hd, Bool.false_eq_true, if_false]
        rw [step_fuel_mono reg dam (.prop pname p root suffix) v f (max f g2)
          (Nat.le_max_left f g2) (by rw [hp]; intro hh; cases hh), hp]
        simp only []
        rw [step_fuel_mono reg dam
          (.props root suffix (rest.filter (fun q => !(q.2.indexingType == some "disabled"))))
          r1.visited g2 (max f g2) (Nat.le_max_right f g2)
          (by rw [hg2]; intro hh; cases hh), hg2]
        simp only []
        exact h

/-- C6: a property with `indexingType: "disabled"` contributes nothing to
the composed fragment — the property loop yields the same output as if the
property were absent — while enabled siblings still contribute their
fields; concretely, composing `ct1` yields only the sibling's aliased
field. -/
theorem indexing_disabled_excluded :
    (∀ (f : Nat) (reg : Registry) (dam : Bool) (root suffix : String)
        (ps : List (String × AnyProperty)) (v : List String) (out : Out),
      step reg dam f (.props root suffix ps) v = .ok out →
      ∃ g, step reg dam g
        (.props root suffix
          (ps.filter (fun q => !(q.2.indexingType == some "disabled")))) v = .ok out) ∧
    createFragment 6 regC6 "ct1" [] "" true false =
      .ok (COMMON_FRAGMENTS ++
        ["fragment ct1 on ct1 \x7b __typename ct1__title:title ..._IContent \x7d"]) :=
  ⟨props_skip_disabled, rfl⟩

/-- Witness for C6 at the concrete `regC6` property list. -/
theorem indexing_disabled_excluded_witness :
    ∃ g, step regC6 false g
      (.props "ct1" ""
        ([("secret", AnyProperty.mk (some "disabled") .scalar),
          ("title", AnyProperty.mk none .scalar)].filter
          (fun q => !(q.2.indexingType == some "disabled")))) ["ct1"] =
      .ok ⟨["ct1__title:title"], [], false, false, ["ct1"]⟩ :=
  indexing_disabled_excluded.1 4 regC6 false "ct1" ""
    [("secret", AnyProperty.mk (some "disabled") .scalar),
     ("title", AnyProperty.mk none .scalar)] ["ct1"]
    ⟨["ct1__title:title"], [], false, false, ["ct1"]⟩ rfl

/-! ## List and string helper lemmas for the composer proofs -/

/-- Membership in the deduplication accumulator form. -/
theorem jsDedupAux_mem (l : List String) :
    ∀ (seen : List String) (x : String),
      x ∈ jsDedupAux seen l ↔ (x ∈ l ∧ x ∉ seen) := by
  induction l with
  | nil => intro seen x; simp [jsDedupAux]
  | cons a rest ih =>
    intro seen x
    by_cases ha : a ∈ seen
    · rw [jsDedupAux, if_pos ha, ih seen x]
      constructor
      · rintro ⟨hx, hns⟩
        exact ⟨List.mem_cons_of_mem _ hx, hns⟩
      · rintro ⟨hx, hns⟩
        rcases List.mem_cons.mp hx with rfl | hx
        · exact absurd ha hns
        · exact ⟨hx, hns⟩
    · rw [jsDedupAux, if_neg ha]
      constructor
      · intro hmem
        rcases List.mem_cons.mp hmem with rfl | hmem
        · exact ⟨List.mem_cons_self _ _, ha⟩
        · obtain ⟨hx, hns⟩ := (ih (a :: seen) x).mp hmem
          refine ⟨List.mem_cons_of_mem _ hx, fun hc => hns (List.mem_cons_of_mem _ hc)⟩
      · rintro ⟨hmem, hns⟩
        rcases List.mem_cons.mp hmem with rfl | hx
        · exact List.mem_cons_self _ _
        · by_cases hxa : x = a
          · rw [hxa]; exact List.mem_cons_self _ _
          · refine List.mem_cons_of_mem _ ((ih (a :: seen) x).mpr ⟨hx, fun hc => ?_⟩)
            rcases List.mem_cons.mp hc with h1 | h1
            · exact hxa h1
            · exact hns h1

/-- `jsDedup` preserves membership. -/
theorem jsDedup_mem (l : List String) (x : String) : x ∈ jsDedup l ↔ x ∈ l := by
  simp [jsDedup, jsDedupAux_mem]

/-- `jsDedup` has no duplicates. -/
theorem jsDedup_nodup (l : List String) : (jsDedup l).Nodup := by
  have aux : ∀ (l seen : List String), (jsDedupAux seen l).Nodup := by
    intro l
    induction l with
    | nil => intro seen; simp [jsDedupAux]
    | cons a rest ih =>
      intro seen
      by_cases ha : a ∈ seen
      · simp only [jsDedupAux, if_pos ha]
        exact ih seen
      · simp only [jsDedupAux, if_neg ha]
        refine List.Nodup.cons ?_ (ih (a :: seen))
        intro hc
        exact ((jsDedupAux_mem rest (a :: seen) a).mp hc).2 (List.mem_cons_self a seen)
  exact aux l []

/-- `jsDedup` keeps the head of a list. -/
theorem jsDedup_cons (x : String) (l : List String) :
    jsDedup (x :: l) = x :: jsDedupAux [x] l := by
  simp [jsDedup, jsDedupAux]

/-- Folding the space-join over a list keeps the accumulator as a prefix. -/
theorem joinSpace_foldl_pre (l : List String) :
    ∀ (a : String), ∃ t, l.foldl (fun acc x => acc ++ " " ++ x) a = a ++ t := by
  induction l with
  | nil => intro a; exact ⟨"", by simp⟩
  | cons y rest ih =>
    intro a
    obtain ⟨t, ht⟩ := ih (a ++ " " ++ y)
    exact ⟨" " ++ y ++ t, by rw [List.foldl_cons, ht]; simp [String.append_assoc]⟩

/-- The space-join of a non-empty list starts with its head. -/
theorem joinSpace_cons (x : String) (l : List String) :
    ∃ t, joinSpace (x :: l) = x ++ t := by
  simpa [joinSpace] using joinSpace_foldl_pre l x

/-- Every list is char-prefix of itself extended. -/
theorem charsIsPre_append (p b : List Char) : charsIsPre p (p ++ b) = true := by
  induction p with
  | nil => rfl
  | cons c rest ih => simp [charsIsPre, ih]

/-- The empty pattern occurs in every list. -/
theorem hasSeg_nil : ∀ (l : List Char), hasSeg [] l = true := by
  intro l
  cases l <;> simp [hasSeg, charsIsPre, List.isEmpty]

/-- A contiguous occurrence makes the scanner succeed. -/
theorem hasSeg_of_append (p : List Char) :
    ∀ (a b : List Char), hasSeg p (a ++ (p ++ b)) = true := by
  intro a
  induction a with
  | nil =>
    intro b
    match p with
    | [] => exact hasSeg_nil b
    | c :: rest =>
      have hc := charsIsPre_append (c :: rest) b
      simp only [List.nil_append, hasSeg, List.append_eq]
      rw [List.cons_append] at hc
      rw [hc]
      rfl
  | cons c arest ih =>
    intro b
    simp only [List.cons_append, hasSeg, List.append_eq]
    rw [ih b]
    simp

/-- The scanner succeeds on any extension to the left. -/
theorem hasSeg_append_pre (p : List Char) :
    ∀ (a l : List Char), hasSeg p l = true → hasSeg p (a ++ l) = true := by
  intro a
  induction a with
  | nil => intro l h; exact h
  | cons c rest ih =>
    intro l h
    simp only [List.cons_append, hasSeg, List.append_eq]
    rw [ih l h]
    simp

/-- A composed fragment string whose field list starts with `__typename`
contains `__typename` as a contiguous segment. -/
theorem mkFrag_contains_typename (n p : String) (rest : List String) :
    hasSeg ("__typename".data) (mkFragmentString n p ("__typename" :: rest)).data = true := by
  obtain ⟨t, ht⟩ := joinSpace_cons "__typename" (jsDedupAux ["__typename"] rest)
  unfold mkFragmentString
  rw [jsDedup_cons, ht]
  simp only [String.data_append, List.append_assoc]
  apply hasSeg_append_pre
  apply hasSeg_append_pre
  apply hasSeg_append_pre
  apply hasSeg_append_pre
  apply hasSeg_append_pre
  have h := hasSeg_of_append ("__typename".data) [] (t.data ++ " \x7d".data)
  simpa using h

/-- None of the DAM asset fragments contains `__typename`. -/
theorem dam_no_typename :
    ∀ D ∈ DAM_ASSET_FRAGMENTS, hasSeg ("__typename".data) D.data = false := by
  decide

/-- A composed fragment string is never one of the DAM asset fragments. -/
theorem mkFrag_ne_dam (n p : String) (rest : List String) (D : String)
    (hD : D ∈ DAM_ASSET_FRAGMENTS) :
    mkFragmentString n p ("__typename" :: rest) ≠ D := by
  intro heq
  have h1 := mkFrag_contains_typename n p rest
  rw [heq, dam_no_typename D hD] at h1
  cases h1

/-- The `_IComponent` fragment contains `__typename` as a segment. -/
theorem componentFragment_contains_typename (reg : Registry) :
    hasSeg ("__typename".data) (componentFragmentString reg).data = true := by
  unfold componentFragmentString
  have hsplit : ("fragment _IComponent on _IComponent \x7b __typename " : String) =
      "fragment _IComponent on _IComponent \x7b " ++ "__typename" ++ " " := rfl
  rw [hsplit]
  simp only [String.data_append, List.append_assoc]
  apply hasSeg_append_pre
  exact hasSeg_of_append _ [] _

/-- The `_IComponent` fragment is never a DAM asset fragment. -/
theorem componentFragment_ne_dam (reg : Registry) (D : String)
    (hD : D ∈ DAM_ASSET_FRAGMENTS) : componentFragmentString reg ≠ D := by
  intro heq
  have h1 := componentFragment_contains_typename reg
  rw [heq, dam_no_typename D hD] at h1
  cases h1

/-- DAM asset fragments are distinct from the other fixed fragments. -/
theorem dam_not_library :
    ∀ D ∈ DAM_ASSET_FRAGMENTS,
      D ∉ COMMON_FRAGMENTS ∧ D ∉ EXPERIENCE_FIXED_FRAGMENTS ∧
        D ≠ CONTENT_URL_FRAGMENT := by
  decide

/-- Membership in a conditionally-included list. -/
theorem mem_ite_list (c : Bool) (l : List String) (x : String) :
    (x ∈ if c = true then l else []) ↔ (c = true ∧ x ∈ l) := by
  by_cases hc : c = true <;> simp [hc]

set_option maxHeartbeats 1000000 in
/-- The DAM invariant: a DAM asset fragment occurs in the output (or the
DAM flag is set) exactly when `damEnabled` holds and the traversal reached
an enabled `contentReference` property; moreover `frag`-like jobs always
report the flag as `false`. -/
theorem step_dam_inv :
    ∀ (f : Nat) (reg : Registry) (dam : Bool) (job : Job) (v : List String) (out : Out),
      step reg dam f job v = .ok out →
      (job.fragLike = true → out.dam = false) ∧
      (∀ D ∈ DAM_ASSET_FRAGMENTS,
        ((D ∈ out.extra ∨ out.dam = true) ↔ (dam = true ∧ out.cr = true))) := by
  intro f
  induction f with
  | zero =>
    intro reg dam job v out h
    cases h
  | succ f ih =>
    intro reg dam job v out h
    simp only [step] at h
    match job with
    | .frag name suffix includeBase =>
      simp only [stepBody] at h
      by_cases hv : (List.contains v (name ++ suffix)) = true
      · simp only [hv, if_pos] at h
        injection h with h
        subst h
        refine ⟨fun _ => rfl, fun D _ => by simp⟩
      · simp only [hv, Bool.false_eq_true, if_false] at h
        by_cases hb : isBaseType name = true
        · simp only [hb, if_pos] at h
          injection h with h
          subst h
          refine ⟨fun _ => rfl, fun D hD => ?_⟩
          have hno := (dam_not_library D hD).1
          have hne := mkFrag_ne_dam (name ++ suffix) (toBaseTypeFragmentKey (name ++ suffix))
            buildBaseTypeFragmentsFields D hD
          have hne2 : ¬ D = mkFragmentString (name ++ suffix)
              (toBaseTypeFragmentKey (name ++ suffix))
              ("__typename" :: buildBaseTypeFragmentsFields) := fun hh => hne hh.symm
          clear ih hne
          simp only [List.mem_append, jsDedup_mem, List.mem_singleton, Bool.false_eq_true,
            or_false]
          tauto
        · simp only [hb, Bool.false_eq_true, if_false] at h
          rcases hct : getContentType reg name with _ | ct <;> simp only [hct] at h
          · cases h
          rcases hp : step reg dam f (.props name suffix ct.properties)
            ((name ++ suffix) :: v) with e | pr <;> simp only [hp] at h
          · cases h
          have h1 := (ih reg dam _ _ _ hp).2
          by_cases hexp : (ct.baseType == "_experience") = true
          · simp only [hexp, if_pos] at h
            rcases hx : step reg dam f .expFrags pr.visited with e | ex <;>
              simp only [hx] at h
            · cases h
            have ihx := ih reg dam _ _ _ hx
            have hxdam : ex.dam = false := ihx.1 rfl
            injection h with h
            subst h
            refine ⟨fun _ => rfl, fun D hD => ?_⟩
            have hno := (dam_not_library D hD).1
            have hne : D ≠ mkFragmentString (name ++ suffix)
                (toBaseTypeFragmentKey (name ++ suffix))
                (("__typename" :: (pr.fields ++
                  if includeBase = true then buildBaseTypeFragmentsFields else [])) ++
                  ["..._IExperience"]) := by
              rw [List.cons_append]
              exact fun hh => (mkFrag_ne_dam _ _ _ D hD) hh.symm
            have hiff1 := h1 D hD
            have hiff2 := ihx.2 D hD
            rw [hxdam] at hiff2
            simp only [Bool.false_eq_true, or_false] at hiff2
            clear h1 hp hx ihx ih
            simp only [List.mem_append, jsDedup_mem, List.mem_singleton, mem_ite_list,
              Bool.or_eq_true, Bool.false_eq_true, or_false] at hiff1 hiff2 ⊢
            tauto
          · simp only [hexp, Bool.false_eq_true, if_false] at h
            injection h with h
            subst h
            refine ⟨fun _ => rfl, fun D hD => ?_⟩
            have hno := (dam_not_library D hD).1
            have hne : D ≠ mkFragmentString (name ++ suffix)
                (toBaseTypeFragmentKey (name ++ suffix))
                ("__typename" :: (pr.fields ++
                  if includeBase = true then buildBaseTypeFragmentsFields else [])) :=
              fun hh => (mkFrag_ne_dam _ _ _ D hD) hh.symm
            have hiff1 := h1 D hD
            clear h1 hp ih
            simp only [List.mem_append, jsDedup_mem, List.mem_singleton, mem_ite_list,
              Bool.or_eq_true, Bool.false_eq_true, or_false] at hiff1 ⊢
            tauto
    | .props root suffix ps =>
      simp only [stepBody] at h
      match ps with
      | [] =>
        injection h with h
        subst h
        exact ⟨fun _ => rfl, fun D _ => by simp⟩
      | (pname, p) :: rest =>
        by_cases hd : (p.indexingType == some "disabled") = true
        · simp only [hd, if_pos] at h
          exact ⟨(fun hk => nomatch hk), (ih reg dam _ _ _ h).2⟩
        · simp only [hd, Bool.false_eq_true, if_false] at h
          rcases hp : step reg dam f (.prop pname p root suffix) v with e | r1 <;>
            simp only [hp] at h
          · cases h
          rcases hq : step reg dam f (.props root suffix rest) r1.visited with e | r2 <;>
            simp only [hq] at h
          · cases h
          injection h with h
          subst h
          have h1 := (ih reg dam _ _ _ hp).2
          have h2 := (ih reg dam _ _ _ hq).2
          refine ⟨(fun hk => nomatch hk), fun D hD => ?_⟩
          have hiff1 := h1 D hD
          have hiff2 := h2 D hD
          clear h1 h2 hp hq ih
          simp only [List.mem_append, Bool.or_eq_true] at hiff1 hiff2 ⊢
          tauto
    | .prop pname p root suffix =>
      simp only [stepBody] at h
      match hsh : p.shape with
      | .component key =>
        simp only [hsh] at h
        rcases hp : step reg dam f (.frag key "Property" false) v with e | f0 <;>
          simp only [hp] at h
        · cases h
        injection h with h
        subst h
        have ihf := ih reg dam _ _ _ hp
        have hfd : f0.dam = false := ihf.1 rfl
        refine ⟨(fun hk => nomatch hk), fun D hD => ?_⟩
        have hiff := ihf.2 D hD
        rw [hfd] at hiff
        simp only [Bool.false_eq_true, or_false] at hiff
        simp only [jsDedup_mem, Bool.false_eq_true, or_false]
        exact hiff
      | .content aT rT =>
        simp only [hsh] at h
        rcases hp : step reg dam f (.contentKeys root (resolveAllowedTypes reg aT rT)) v
          with e | ck <;> simp only [hp] at h
        · cases h
        injection h with h
        subst h
        have ihf := ih reg dam _ _ _ hp
        have hfd : ck.dam = false := ihf.1 rfl
        refine ⟨(fun hk => nomatch hk), fun D hD => ?_⟩
        have hiff := ihf.2 D hD
        rw [hfd] at hiff
        simp only [Bool.false_eq_true, or_false] at hiff
        simp only [jsDedup_mem, Bool.false_eq_true, or_false]
        exact hiff
      | .richText =>
        simp only [hsh] at h
        injection h with h
        subst h
        exact ⟨(fun hk => nomatch hk), fun D _ => by simp⟩
      | .url =>
        simp only [hsh] at h
        injection h with h
        subst h
        refine ⟨(fun hk => nomatch hk), fun D hD => ?_⟩
        have hno := (dam_not_library D hD).2.2
        simp only [jsDedup_mem, List.mem_singleton, Bool.false_eq_true, or_false]
        constructor
        · intro hm
          exact absurd hm hno
        · rintro ⟨_, hcr⟩
          cases hcr
      | .link =>
        simp only [hsh] at h
        injection h with h
        subst h
        refine ⟨(fun hk => nomatch hk), fun D hD => ?_⟩
        have hno := (dam_not_library D hD).2.2
        simp only [jsDedup_mem, List.mem_singleton, Bool.false_eq_true, or_false]
        constructor
        · intro hm
          exact absurd hm hno
        · rintro ⟨_, hcr⟩
          cases hcr
      | .contentReference =>
        simp only [hsh] at h
        injection h with h
        subst h
        refine ⟨(fun hk => nomatch hk), fun D hD => ?_⟩
        have hno := (dam_not_library D hD).2.2
        clear ih
        simp only [jsDedup_mem, List.mem_singleton, and_true]
        tauto
      | .array items =>
        simp only [hsh] at h
        rcases hp : step reg dam f (.prop pname items root suffix) v with e | r0 <;>
          simp only [hp] at h
        · cases h
        injection h with h
        subst h
        have hiff := (ih reg dam _ _ _ hp).2
        refine ⟨(fun hk => nomatch hk), fun D hD => ?_⟩
        have hiff1 := hiff D hD
        simp only [jsDedup_mem]
        exact hiff1
      | .scalar =>
        simp only [hsh] at h
        injection h with h
        subst h
        exact ⟨(fun hk => nomatch hk), fun D _ => by simp⟩
    | .contentKeys root keys =>
      simp only [stepBody] at h
      match keys with
      | [] =>
        injection h with h
        subst h
        exact ⟨fun _ => rfl, fun D _ => by simp⟩
      | t :: rest =>
        rcases hp : step reg dam f (.frag (if t == "_self" then root else t) "" true) v
          with e | f0 <;> simp only [hp] at h
        · cases h
        rcases hq : step reg dam f (.contentKeys root rest) f0.visited with e | r3 <;>
          simp only [hq] at h
        · cases h
        injection h with h
        subst h
        have ihf := ih reg dam _ _ _ hp
        have ihr := ih reg dam _ _ _ hq
        have hfd : f0.dam = false := ihf.1 rfl
        have hrd : r3.dam = false := ihr.1 rfl
        refine ⟨fun _ => rfl, fun D hD => ?_⟩
        have hiff1 := ihf.2 D hD
        have hiff2 := ihr.2 D hD
        rw [hfd] at hiff1
        rw [hrd] at hiff2
        simp only [Bool.false_eq_true, or_false] at hiff1 hiff2
        clear hp hq ihf ihr ih
        simp only [List.mem_append, Bool.or_eq_true, Bool.false_eq_true, or_false]
        tauto
    | .expFrags =>
      simp only [stepBody] at h
      rcases hp : step reg dam f
        (.expList ((experienceNodes reg).filter (fun n => !v.contains n))) v
        with e | r0 <;> simp only [hp] at h
      · cases h
      injection h with h
      subst h
      have ihr := ih reg dam _ _ _ hp
      have hrd : r0.dam = false := ihr.1 rfl
      refine ⟨fun _ => rfl, fun D hD => ?_⟩
      have hiff := ihr.2 D hD
      rw [hrd] at hiff
      have hnx := (dam_not_library D hD).2.1
      have hnc := componentFragment_ne_dam reg D hD
      simp only [Bool.false_eq_true, or_false] at hiff
      have hnc2 : ¬ D = componentFragmentString reg := fun hh => hnc hh.symm
      clear hp ihr ih hnc
      simp only [List.mem_append, List.mem_singleton, Bool.false_eq_true, or_false]
      tauto
    | .expList keys =>
      simp only [stepBody] at h
      match keys with
      | [] =>
        injection h with h
        subst h
        exact ⟨fun _ => rfl, fun D _ => by simp⟩
      | n :: rest =>
        rcases hp : step reg dam f (.frag n "" true) v with e | f0 <;> simp only [hp] at h
        · cases h
        rcases hq : step reg dam f (.expList rest) f0.visited with e | r3 <;>
          simp only [hq] at h
        · cases h
        injection h with h
        subst h
        have ihf := ih reg dam _ _ _ hp
        have ihr := ih reg dam _ _ _ hq
        have hfd : f0.dam = false := ihf.1 rfl
        have hrd : r3.dam = false := ihr.1 rfl
        refine ⟨fun _ => rfl, fun D hD => ?_⟩
        have hiff1 := ihf.2 D hD
        have hiff2 := ihr.2 D hD
        rw [hfd] at hiff1
        rw [hrd] at hiff2
        simp only [Bool.false_eq_true, or_false] at hiff1 hiff2
        clear hp hq ihf ihr ih
        simp only [List.mem_append, Bool.or_eq_true, Bool.false_eq_true, or_false]
        tauto

/-- Two runs of the composer with different `damEnabled` flags follow the
same control path: they fail identically or succeed with the same visited
set and the same `contentReference` bit. -/
theorem step_dam_indep :
    ∀ (f : Nat) (reg : Registry) (d1 d2 : Bool) (job : Job) (v : List String),
      simR (step reg d1 f job v) (step reg d2 f job v) := by
  intro f
  induction f with
  | zero =>
    intro reg d1 d2 job v
    exact rfl
  | succ f ih =>
    intro reg d1 d2 job v
    simp only [step]
    match job with
    | .frag name suffix includeBase =>
      simp only [stepBody]
      by_cases hv : (List.contains v (name ++ suffix)) = true
      · simp only [hv, if_pos]
        exact ⟨rfl, rfl⟩
      · simp only [hv, Bool.false_eq_true, if_false]
        by_cases hb : isBaseType name = true
        · simp only [hb, if_pos]
          exact ⟨rfl, rfl⟩
        · simp only [hb, Bool.false_eq_true, if_false]
          rcases hct : getContentType reg name with _ | ct <;> simp only [hct]
          · exact rfl
          have IH1 := ih reg d1 d2 (.props name suffix ct.properties) ((name ++ suffix) :: v)
          rcases hp1 : step reg d1 f (.props name suffix ct.properties) ((name ++ suffix) :: v)
            with e | o1 <;> rw [hp1] at IH1 <;>
            rcases hp2 : step reg d2 f (.props name suffix ct.properties)
              ((name ++ suffix) :: v) with e2 | o2 <;> rw [hp2] at IH1
          · simp only [simR] at IH1
            subst IH1
            simp only [hp1, hp2, simR]
          · exact absurd IH1 (by simp [simR])
          · exact absurd IH1 (by simp [simR])
          · simp only [simR] at IH1
            obtain ⟨hvv, hcc⟩ := IH1
            simp only [hp1, hp2]
            by_cases hexp : (ct.baseType == "_experience") = true
            · simp only [hexp, if_pos]
              rw [← hvv]
              have IH2 := ih reg d1 d2 .expFrags o1.visited
              rcases hx1 : step reg d1 f .expFrags o1.visited with e | x1 <;>
                rw [hx1] at IH2 <;>
                rcases hx2 : step reg d2 f .expFrags o1.visited with e2 | x2 <;>
                rw [hx2] at IH2
              · simp only [simR] at IH2
                subst IH2
                simp only [hx1, hx2, simR]
              · exact absurd IH2 (by simp [simR])
              · exact absurd IH2 (by simp [simR])
              · simp only [simR] at IH2
                obtain ⟨hvx, hcx⟩ := IH2
                simp only [hx1, hx2, simR]
                exact ⟨hvx, by rw [hcc, hcx]⟩
            · simp only [hexp, Bool.false_eq_true, if_false, simR]
              exact ⟨hvv, hcc⟩
    | .props root suffix ps =>
      simp only [stepBody]
      match ps with
      | [] => exact ⟨rfl, rfl⟩
      | (pname, p) :: rest =>
        by_cases hd : (p.indexingType == some "disabled") = true
        · simp only [hd, if_pos]
          exact ih reg d1 d2 (.props root suffix rest) v
        · simp only [hd, Bool.false_eq_true, if_false]
          have IH1 := ih reg d1 d2 (.prop pname p root suffix) v
          rcases hp1 : step reg d1 f (.prop pname p root suffix) v with e | o1 <;>
            rw [hp1] at IH1 <;>
            rcases hp2 : step reg d2 f (.prop pname p root suffix) v with e2 | o2 <;>
            rw [hp2] at IH1
          · simp only [simR] at IH1
            subst IH1
            simp only [hp1, hp2, simR]
          · exact absurd IH1 (by simp [simR])
          · exact absurd IH1 (by simp [simR])
          · simp only [simR] at IH1
            obtain ⟨hvv, hcc⟩ := IH1
            simp only [hp1, hp2]
            rw [← hvv]
            have IH2 := ih reg d1 d2 (.props root suffix rest) o1.visited
            rcases hq1 : step reg d1 f (.props root suffix rest) o1.visited with e | x1 <;>
              rw [hq1] at IH2 <;>
              rcases hq2 : step reg d2 f (.props root suffix rest) o1.visited with e2 | x2 <;>
              rw [hq2] at IH2
            · simp only [simR] at IH2
              subst IH2
              simp only [hq1, hq2, simR]
            · exact absurd IH2 (by simp [simR])
            · exact absurd IH2 (by simp [simR])
            · simp only [simR] at IH2
              obtain ⟨hvx, hcx⟩ := IH2
              simp only [hq1, hq2, simR]
              exact ⟨hvx, by rw [hcc, hcx]⟩
    | .prop pname p root suffix =>
      simp only [stepBody]
      match hsh : p.shape with
      | .component key =>
        have IH1 := ih reg d1 d2 (.frag key "Property" false) v
        rcases hp1 : step reg d1 f (.frag key "Property" false) v with e | o1 <;>
          rw [hp1] at IH1 <;>
          rcases hp2 : step reg d2 f (.frag key "Property" false) v with e2 | o2 <;>
          rw [hp2] at IH1
        · simp only [simR] at IH1
          subst IH1
          simp only [hp1, hp2, simR]
        · exact absurd IH1 (by simp [simR])
        · exact absurd IH1 (by simp [simR])
        · simp only [simR] at IH1
          obtain ⟨hvv, hcc⟩ := IH1
          simp only [hp1, hp2, simR]
          exact ⟨hvv, hcc⟩
      | .content aT rT =>
        have IH1 := ih reg d1 d2 (.contentKeys root (resolveAllowedTypes reg aT rT)) v
        rcases hp1 : step reg d1 f (.contentKeys root (resolveAllowedTypes reg aT rT)) v
          with e | o1 <;> rw [hp1] at IH1 <;>
          rcases hp2 : step reg d2 f (.contentKeys root (resolveAllowedTypes reg aT rT)) v
            with e2 | o2 <;> rw [hp2] at IH1
        · simp only [simR] at IH1
          subst IH1
          simp only [hp1, hp2, simR]
        · exact absurd IH1 (by simp [simR])
        · exact absurd IH1 (by simp [simR])
        · simp only [simR] at IH1
          obtain ⟨hvv, hcc⟩ := IH1
          simp only [hp1, hp2, simR]
          exact ⟨hvv, hcc⟩
      | .richText => exact ⟨rfl, rfl⟩
      | .url => exact ⟨rfl, rfl⟩
      | .link => exact ⟨rfl, rfl⟩
      | .contentReference => exact ⟨rfl, rfl⟩
      | .array items =>
        have IH1 := ih reg d1 d2 (.prop pname items root suffix) v
        rcases hp1 : step reg d1 f (.prop pname items root suffix) v with e | o1 <;>
          rw [hp1] at IH1 <;>
          rcases hp2 : step reg d2 f (.prop pname items root suffix) v with e2 | o2 <;>
          rw [hp2] at IH1
        · simp only [simR] at IH1
          subst IH1
          simp only [hp1, hp2, simR]
        · exact absurd IH1 (by simp [simR])
        · exact absurd IH1 (by simp [simR])
        · simp only [simR] at IH1
          obtain ⟨hvv, hcc⟩ := IH1
          simp only [hp1, hp2, simR]
          exact ⟨hvv, hcc⟩
      | .scalar => exact ⟨rfl, rfl⟩
    | .contentKeys root keys =>
      simp only [stepBody]
      match keys with
      | [] => exact ⟨rfl, rfl⟩
      | t :: rest =>
        have IH1 := ih reg d1 d2 (.frag (if t == "_self" then root else t) "" true) v
        rcases hp1 : step reg d1 f (.frag (if t == "_self" then root else t) "" true) v
          with e | o1 <;> rw [hp1] at IH1 <;>
          rcases hp2 : step reg d2 f (.frag (if t == "_self" then root else t) "" true) v
            with e2 | o2 <;> rw [hp2] at IH1
        · simp only [simR] at IH1
          subst IH1
          simp only [hp1, hp2, simR]
        · exact absurd IH1 (by simp [simR])
        · exact absurd IH1 (by simp [simR])
        · simp only [simR] at IH1
          obtain ⟨hvv, hcc⟩ := IH1
          simp only [hp1, hp2]
          rw [← hvv]
          have IH2 := ih reg d1 d2 (.contentKeys root rest) o1.visited
          rcases hq1 : step reg d1 f (.contentKeys root rest) o1.visited with e | x1 <;>
            rw [hq1] at IH2 <;>
            rcases hq2 : step reg d2 f (.contentKeys root rest) o1.visited with e2 | x2 <;>
            rw [hq2] at IH2
          · simp only [simR] at IH2
            subst IH2
            simp only [hq1, hq2, simR]
          · exact absurd IH2 (by simp [simR])
          · exact absurd IH2 (by simp [simR])
          · simp only [simR] at IH2
            obtain ⟨hvx, hcx⟩ := IH2
            simp only [hq1, hq2, simR]
            exact ⟨hvx, by rw [hcc, hcx]⟩
    | .expFrags =>
      simp only [stepBody]
      have IH1 := ih reg d1 d2
        (.expList ((experienceNodes reg).filter (fun n => !v.contains n))) v
      rcases hp1 : step reg d1 f
        (.expList ((experienceNodes reg).filter (fun n => !v.contains n))) v
        with e | o1 <;> rw [hp1] at IH1 <;>
        rcases hp2 : step reg d2 f
          (.expList ((experienceNodes reg).filter (fun n => !v.contains n))) v
          with e2 | o2 <;> rw [hp2] at IH1
      · simp only [simR] at IH1
        subst IH1
        simp only [hp1, hp2, simR]
      · exact absurd IH1 (by simp [simR])
      · exact absurd IH1 (by simp [simR])
      · simp only [simR] at IH1
        obtain ⟨hvv, hcc⟩ := IH1
        simp only [hp1, hp2, simR]
        exact ⟨hvv, hcc⟩
    | .expList keys =>
      simp only [stepBody]
      match keys with
      | [] => exact ⟨rfl, rfl⟩
      | n :: rest =>
        have IH1 := ih reg d1 d2 (.frag n "" true) v
        rcases hp1 : step reg d1 f (.frag n "" true) v with e | o1 <;>
          rw [hp1] at IH1 <;>
          rcases hp2 : step reg d2 f (.frag n "" true) v with e2 | o2 <;>
          rw [hp2] at IH1
        · simp only [simR] at IH1
          subst IH1
          simp only [hp1, hp2, simR]
        · exact absurd IH1 (by simp [simR])
        · exact absurd IH1 (by simp [simR])
        · simp only [simR] at IH1
          obtain ⟨hvv, hcc⟩ := IH1
          simp only [hp1, hp2]
          rw [← hvv]
          have IH2 := ih reg d1 d2 (.expList rest) o1.visited
          rcases hq1 : step reg d1 f (.expList rest) o1.visited with e | x1 <;>
            rw [hq1] at IH2 <;>
            rcases hq2 : step reg d2 f (.expList rest) o1.visited with e2 | x2 <;>
            rw [hq2] at IH2
          · simp only [simR] at IH2
            subst IH2
            simp only [hq1, hq2, simR]
          · exact absurd IH2 (by simp [simR])
          · exact absurd IH2 (by simp [simR])
          · simp only [simR] at IH2
            obtain ⟨hvx, hcx⟩ := IH2
            simp only [hq1, hq2, simR]
            exact ⟨hvx, by rw [hcc, hcx]⟩

/-! ## C2: DAM conditionality of `createFragment` -/

/-- A successful `frag` job either hit the cycle guard (empty result) or
returned dependency fragments followed by one composed fragment whose
field list starts with `__typename`. -/
theorem frag_extra_shape (f : Nat) (reg : Registry) (dam : Bool)
    (name suffix : String) (incl : Bool) (v : List String) (out : Out)
    (h : step reg dam f (.frag name suffix incl) v = .ok out) :
    (out.extra = [] ∧ out.visited = v) ∨
    ∃ (X : List String) (nrest : List String),
      out.extra = jsDedup X ++
        [mkFragmentString (name ++ suffix) (toBaseTypeFragmentKey (name ++ suffix))
          ("__typename" :: nrest)] := by
  match f with
  | 0 => cases h
  | f + 1 =>
    simp only [step, stepBody] at h
    by_cases hv : (List.contains v (name ++ suffix)) = true
    · simp only [hv, if_pos] at h
      injection h with h
      subst h
      exact .inl ⟨rfl, rfl⟩
    · simp only [hv, Bool.false_eq_true, if_false] at h
      by_cases hb : isBaseType name = true
      · simp only [hb, if_pos] at h
        injection h with h
        subst h
        exact .inr ⟨buildBaseTypeFragmentsExtra, buildBaseTypeFragmentsFields, rfl⟩
      · simp only [hb, Bool.false_eq_true, if_false] at h
        rcases hct : getContentType reg name with _ | ct <;> simp only [hct] at h
        · cases h
        rcases hp : step reg dam f (.props name suffix ct.properties)
          ((name ++ suffix) :: v) with e | pr <;> simp only [hp] at h
        · cases h
        by_cases hexp : (ct.baseType == "_experience") = true
        · simp only [hexp, if_pos] at h
          rcases hx : step reg dam f .expFrags pr.visited with e | ex <;>
            simp only [hx] at h
          · cases h
          injection h with h
          subst h
          refine .inr ⟨(if pr.dam = true then DAM_ASSET_FRAGMENTS else []) ++
            ((if incl = true then buildBaseTypeFragmentsExtra else []) ++ pr.extra ++
              ex.extra),
            (pr.fields ++ (if incl = true then buildBaseTypeFragmentsFields else [])) ++
              ["..._IExperience"], ?_⟩
          simp only [List.cons_append]
        · simp only [hexp, Bool.false_eq_true, if_false] at h
          injection h with h
          subst h
          exact .inr ⟨_, pr.fields ++
            (if incl = true then buildBaseTypeFragmentsFields else []), rfl⟩

/-- C2: the DAM asset fragments (image/video/file/ContentReferenceItem)
occur in a composed fragment list exactly when `damEnabled` is true and
the traversal reached a `contentReference` property (the `cr` bit, which
is independent of the flag and of the fuel); when present each occurs
exactly once; and the `contentReference` field selection carries the
`...ContentReferenceItem` spread exactly when `damEnabled` is true. -/
theorem dam_fragments_iff (reg : Registry) (root : String) (dam : Bool)
    (f : Nat) (out : Out)
    (h : step reg dam f (.frag root "" true) [] = .ok out) :
    (∀ D ∈ DAM_ASSET_FRAGMENTS, (D ∈ out.extra ↔ (dam = true ∧ out.cr = true))) ∧
    (∀ D ∈ DAM_ASSET_FRAGMENTS, dam = true → out.cr = true → out.extra.count D = 1) ∧
    (∀ (dam2 : Bool) (f2 : Nat) (out2 : Out),
      step reg dam2 f2 (.frag root "" true) [] = .ok out2 → out2.cr = out.cr) ∧
    (∀ (g : Nat) (pname root2 suffix : String) (v2 : List String) (o : Out)
        (ind : Option String),
      step reg true (g + 1) (.prop pname (.mk ind .contentReference) root2 suffix) v2 =
        .ok o →
      o.fields =
        [pname ++ " \x7b key url \x7b ...ContentUrl \x7d" ++ " ...ContentReferenceItem" ++
          " \x7d"]) ∧
    (∀ (g : Nat) (pname root2 suffix : String) (v2 : List String) (o : Out)
        (ind : Option String),
      step reg false (g + 1) (.prop pname (.mk ind .contentReference) root2 suffix) v2 =
        .ok o →
      o.fields = [pname ++ " \x7b key url \x7b ...ContentUrl \x7d" ++ "" ++ " \x7d"]) := by
  have hinv := step_dam_inv f reg dam _ _ _ h
  have hdam0 : out.dam = false := hinv.1 rfl
  have hiff : ∀ D ∈ DAM_ASSET_FRAGMENTS, (D ∈ out.extra ↔ (dam = true ∧ out.cr = true)) := by
    intro D hD
    have := hinv.2 D hD
    rw [hdam0] at this
    simpa using this
  refine ⟨hiff, ?_, ?_, ?_, ?_⟩
  · intro D hD hdam hcr
    have hmem : D ∈ out.extra := (hiff D hD).mpr ⟨hdam, hcr⟩
    rcases frag_extra_shape f reg dam root "" true [] out h with ⟨he, _⟩ | ⟨X, nrest, he⟩
    · rw [he] at hmem
      cases hmem
    · rw [he] at hmem ⊢
      rcases List.mem_append.mp hmem with hm | hm
      · rw [List.count_append]
        rw [List.count_eq_one_of_mem (jsDedup_nodup X) hm]
        have : List.count D [mkFragmentString (root ++ "")
            (toBaseTypeFragmentKey (root ++ "")) ("__typename" :: nrest)] = 0 := by
          rw [List.count_eq_zero]
          intro hc
          rcases List.mem_singleton.mp hc with rfl
          exact (mkFrag_ne_dam _ _ _ _ hD) rfl
        rw [this]
      · rcases List.mem_singleton.mp hm with rfl
        exact absurd rfl (mkFrag_ne_dam _ _ _ _ hD)
  · intro dam2 f2 out2 h2
    have hs := step_dam_indep (max f f2) reg dam2 dam (.frag root "" true) []
    have hne1 : step reg dam f (.frag root "" true) [] ≠ .error .fuelOut := by
      rw [h]; intro hh; cases hh
    have hne2 : step reg dam2 f2 (.frag root "" true) [] ≠ .error .fuelOut := by
      rw [h2]; intro hh; cases hh
    have hm1 : step reg dam (max f f2) (.frag root "" true) [] = .ok out := by
      rw [step_fuel_mono reg dam (.frag root "" true) [] f (max f f2)
        (Nat.le_max_left f f2) hne1]
      exact h
    have hm2 : step reg dam2 (max f f2) (.frag root "" true) [] = .ok out2 := by
      rw [step_fuel_mono reg dam2 (.frag root "" true) [] f2 (max f f2)
        (Nat.le_max_right f f2) hne2]
      exact h2
    rw [hm1, hm2] at hs
    simp only [simR] at hs
    exact hs.2
  · intro g pname root2 suffix v2 o ind h0
    simp only [step, stepBody, AnyProperty.shape] at h0
    injection h0 with h0
    subst h0
    rfl
  · intro g pname root2 suffix v2 o ind h0
    simp only [step, stepBody, AnyProperty.shape] at h0
    injection h0 with h0
    subst h0
    rfl

set_option maxRecDepth 100000 in
/-- Witness for C2: with DAM enabled, composing `regC2`'s page type puts
the public image asset fragment in the output. -/
theorem dam_fragments_iff_witness :
    "fragment PublicImageAsset on cmp_PublicImageAsset \x7b Url Title AltText Description MimeType Height Width Renditions \x7b Id Name Url Width Height \x7d FocalPoint \x7b X Y \x7d Tags \x7b Guid Name \x7d \x7d" ∈
      (DAM_ASSET_FRAGMENTS ++ COMMON_FRAGMENTS ++
        ["fragment ct1 on ct1 \x7b __typename image \x7b key url \x7b ...ContentUrl \x7d ...ContentReferenceItem \x7d ..._IContent \x7d"]) :=
  ((dam_fragments_iff regC2 "ct1" true 6
      ⟨[], DAM_ASSET_FRAGMENTS ++ COMMON_FRAGMENTS ++
        ["fragment ct1 on ct1 \x7b __typename image \x7b key url \x7b ...ContentUrl \x7d ...ContentReferenceItem \x7d ..._IContent \x7d"],
        false, true, ["ct1"]⟩ rfl).1 _ (by decide)).mpr ⟨rfl, rfl⟩

theorem string_append_empty (s : String) : s ++ "" = s := by
  cases s with
  | mk data => exact congrArg String.mk (List.append_nil data)

theorem contains_mono_append (Δ v : List String) (x : String)
    (h : v.contains x = true) : (Δ ++ v).contains x = true := by
  rcases strContains_iff v x |>.mp h with hm
  exact strContains_iff _ _ |>.mpr (List.mem_append.mpr (.inr hm))

theorem mU_anti_append (reg : Registry) (Δ v : List String) :
    mU reg (Δ ++ v) ≤ mU reg v := by
  unfold mU
  refine List.Sublist.length_le (List.monotone_filter_right _ ?_)
  intro a ha
  simp only [Bool.not_eq_true', ← Bool.not_eq_true] at ha ⊢
  intro hc
  exact ha (contains_mono_append Δ v a hc)

theorem mU_cons_lt (reg : Registry) (v : List String) (x : String)
    (hx : x ∈ uNames reg) (hv : v.contains x = false) :
    mU reg (x :: v) < mU reg v := by
  unfold mU
  have hsub : List.Sublist ((uNames reg).filter (fun y => !(x :: v).contains y))
      ((uNames reg).filter (fun y => !v.contains y)) := by
    refine List.monotone_filter_right _ ?_
    intro a ha
    simp only [Bool.not_eq_true', ← Bool.not_eq_true] at ha ⊢
    intro hc
    exact ha (contains_mono_append [x] v a hc)
  have hle := hsub.length_le
  rcases Nat.lt_or_ge ((uNames reg).filter (fun y => !(x :: v).contains y)).length
      ((uNames reg).filter (fun y => !v.contains y)).length with hlt | hge
  · exact hlt
  · exfalso
    have heq : ((uNames reg).filter (fun y => !(x :: v).contains y)) =
        ((uNames reg).filter (fun y => !v.contains y)) :=
      hsub.eq_of_length (Nat.le_antisymm hle hge)
    have hmem : x ∈ (uNames reg).filter (fun y => !v.contains y) := by
      refine List.mem_filter.mpr ⟨hx, ?_⟩
      simp only [Bool.not_eq_true']
      exact hv
    rw [← heq] at hmem
    have := (List.mem_filter.mp hmem).2
    have hx2 : (x :: v).contains x = true :=
      strContains_iff _ _ |>.mpr (List.mem_cons_self x v)
    rw [hx2] at this
    cases this

theorem delta_compose (v m w : List String) (Δ1 Δ2 : List String)
    (h1 : m = Δ1 ++ v) (hn1 : Δ1.Nodup) (hd1 : ∀ x ∈ Δ1, v.contains x = false)
    (h2 : w = Δ2 ++ m) (hn2 : Δ2.Nodup) (hd2 : ∀ x ∈ Δ2, m.contains x = false) :
    w = (Δ2 ++ Δ1) ++ v ∧ (Δ2 ++ Δ1).Nodup ∧ ∀ x ∈ Δ2 ++ Δ1, v.contains x = false := by
  refine ⟨by rw [h2, h1, List.append_assoc], ?_, ?_⟩
  · refine List.nodup_append.mpr ⟨hn2, hn1, ?_⟩
    intro x hx2 hx1
    have := hd2 x hx2
    rw [h1] at this
    have hc : (Δ1 ++ v).contains x = true :=
      strContains_iff _ _ |>.mpr (List.mem_append.mpr (.inl hx1))
    rw [hc] at this
    cases this
  · intro x hx
    rcases List.mem_append.mp hx with hx2 | hx1
    · have := hd2 x hx2
      rcases hcv : v.contains x with _ | _
      · rfl
      · exfalso
        rw [h1, contains_mono_append Δ1 v x hcv] at this
        cases this
    · exact hd1 x hx1

/-- A successful composer run only grows the visited set: the result is
a block of pairwise-distinct, previously unvisited names prepended to the
input set. -/
theorem step_visited_delta :
    ∀ (f : Nat) (reg : Registry) (dam : Bool) (job : Job) (v : List String) (out : Out),
      step reg dam f job v = .ok out →
      ∃ Δ : List String, out.visited = Δ ++ v ∧ Δ.Nodup ∧
        ∀ x ∈ Δ, v.contains x = false := by
  intro f
  induction f with
  | zero =>
    intro reg dam job v out h
    cases h
  | succ f ih =>
    intro reg dam job v out h
    simp only [step] at h
    match job with
    | .frag name suffix includeBase =>
      simp only [stepBody] at h
      by_cases hv : (List.contains v (name ++ suffix)) = true
      · simp only [hv, if_pos] at h
        injection h with h
        subst h
        exact ⟨[], rfl, List.nodup_nil, fun x hx => nomatch hx⟩
      · simp only [hv, Bool.false_eq_true, if_false] at h
        have hone : (name ++ suffix) :: v = [name ++ suffix] ++ v := rfl
        have hnone : ([name ++ suffix] : List String).Nodup := List.nodup_singleton _
        have hdone : ∀ x ∈ [name ++ suffix], v.contains x = false := by
          intro x hx
          rcases List.mem_singleton.mp hx with rfl
          exact Bool.not_eq_true _ ▸ hv
        by_cases hb : isBaseType name = true
        · simp only [hb, if_pos] at h
          injection h with h
          subst h
          exact ⟨[name ++ suffix], rfl, hnone, hdone⟩
        · simp only [hb, Bool.false_eq_true, if_false] at h
          rcases hct : getContentType reg name with _ | ct <;> simp only [hct] at h
          · cases h
          rcases hp : step reg dam f (.props name suffix ct.properties)
            ((name ++ suffix) :: v) with e | pr <;> simp only [hp] at h
          · cases h
          obtain ⟨Δp, hp1, hp2, hp3⟩ := ih reg dam _ _ _ hp
          obtain ⟨hc1, hc2, hc3⟩ := delta_compose v ((name ++ suffix) :: v) pr.visited
            [name ++ suffix] Δp hone hnone hdone hp1 hp2 hp3
          by_cases hexp : (ct.baseType == "_experience") = true
          · simp only [hexp, if_pos] at h
            rcases hx : step reg dam f .expFrags pr.visited with e | ex <;>
              simp only [hx] at h
            · cases h
            obtain ⟨Δe, he1, he2, he3⟩ := ih reg dam _ _ _ hx
            obtain ⟨hf1, hf2, hf3⟩ := delta_compose v pr.visited ex.visited
              (Δp ++ [name ++ suffix]) Δe hc1 hc2 hc3 he1 he2 he3
            injection h with h
            subst h
            exact ⟨Δe ++ (Δp ++ [name ++ suffix]), hf1, hf2, hf3⟩
          · simp only [hexp, Bool.false_eq_true, if_false] at h
            injection h with h
            subst h
            exact ⟨Δp ++ [name ++ suffix], hc1, hc2, hc3⟩
    | .props root suffix ps =>
      simp only [stepBody] at h
      match ps with
      | [] =>
        injection h with h
        subst h
        exact ⟨[], rfl, List.nodup_nil, fun x hx => nomatch hx⟩
      | (pname, p) :: rest =>
        by_cases hd : (p.indexingType == some "disabled") = true
        · simp only [hd, if_pos] at h
          exact ih reg dam _ _ _ h
        · simp only [hd, Bool.false_eq_true, if_false] at h
          rcases hp : step reg dam f (.prop pname p root suffix) v with e | r1 <;>
            simp only [hp] at h
          · cases h
          rcases hq : step reg dam f (.props root suffix rest) r1.visited with e | r2 <;>
            simp only [hq] at h
          · cases h
          injection h with h
          subst h
          obtain ⟨Δ1, h11, h12, h13⟩ := ih reg dam _ _ _ hp
          obtain ⟨Δ2, h21, h22, h23⟩ := ih reg dam _ _ _ hq
          obtain ⟨hc1, hc2, hc3⟩ := delta_compose v r1.visited r2.visited
            Δ1 Δ2 h11 h12 h13 h21 h22 h23
          exact ⟨Δ2 ++ Δ1, hc1, hc2, hc3⟩
    | .prop pname p root suffix =>
      simp only [stepBody] at h
      match hsh : p.shape with
      | .component key =>
        simp only [hsh] at h
        rcases hp : step reg dam f (.frag key "Property" false) v with e | f0 <;>
          simp only [hp] at h
        · cases h
        injection h with h
        subst h
        obtain ⟨Δ, h1, h2, h3⟩ := ih reg dam _ _ _ hp
        exact ⟨Δ, h1, h2, h3⟩
      | .content allowedT restrictedT =>
        simp only [hsh] at h
        rcases hp : step reg dam f
          (.contentKeys root (resolveAllowedTypes reg allowedT restrictedT)) v with e | ck <;>
          simp only [hp] at h
        · cases h
        injection h with h
        subst h
        obtain ⟨Δ, h1, h2, h3⟩ := ih reg dam _ _ _ hp
        exact ⟨Δ, h1, h2, h3⟩
      | .richText =>
        simp only [hsh] at h
        injection h with h
        subst h
        exact ⟨[], rfl, List.nodup_nil, fun x hx => nomatch hx⟩
      | .url =>
        simp only [hsh] at h
        injection h with h
        subst h
        exact ⟨[], rfl, List.nodup_nil, fun x hx => nomatch hx⟩
      | .link =>
        simp only [hsh] at h
        injection h with h
        subst h
        exact ⟨[], rfl, List.nodup_nil, fun x hx => nomatch hx⟩
      | .contentReference =>
        simp only [hsh] at h
        injection h with h
        subst h
        exact ⟨[], rfl, List.nodup_nil, fun x hx => nomatch hx⟩
      | .array items =>
        simp only [hsh] at h
        rcases hp : step reg dam f (.prop pname items root suffix) v with e | r <;>
          simp only [hp] at h
        · cases h
        injection h with h
        subst h
        obtain ⟨Δ, h1, h2, h3⟩ := ih reg dam _ _ _ hp
        exact ⟨Δ, h1, h2, h3⟩
      | .scalar =>
        simp only [hsh] at h
        injection h with h
        subst h
        exact ⟨[], rfl, List.nodup_nil, fun x hx => nomatch hx⟩
    | .contentKeys root keys =>
      simp only [stepBody] at h
      match keys with
      | [] =>
        injection h with h
        subst h
        exact ⟨[], rfl, List.nodup_nil, fun x hx => nomatch hx⟩
      | t :: rest =>
        rcases hp : step reg dam f
          (.frag (if t == "_self" then root else t) "" true) v with e | f0 <;>
          simp only [hp] at h
        · cases h
        rcases hq : step reg dam f (.contentKeys root rest) f0.visited with e | r <;>
          simp only [hq] at h
        · cases h
        injection h with h
        subst h
        obtain ⟨Δ1, h11, h12, h13⟩ := ih reg dam _ _ _ hp
        obtain ⟨Δ2, h21, h22, h23⟩ := ih reg dam _ _ _ hq
        obtain ⟨hc1, hc2, hc3⟩ := delta_compose v f0.visited r.visited
          Δ1 Δ2 h11 h12 h13 h21 h22 h23
        exact ⟨Δ2 ++ Δ1, hc1, hc2, hc3⟩
    | .expFrags =>
      simp only [stepBody] at h
      rcases hp : step reg dam f
        (.expList ((experienceNodes reg).filter (fun n => !v.contains n))) v with e | r <;>
        simp only [hp] at h
      · cases h
      injection h with h
      subst h
      obtain ⟨Δ, h1, h2, h3⟩ := ih reg dam _ _ _ hp
      exact ⟨Δ, h1, h2, h3⟩
    | .expList ks =>
      simp only [stepBody] at h
      match ks with
      | [] =>
        injection h with h
        subst h
        exact ⟨[], rfl, List.nodup_nil, fun x hx => nomatch hx⟩
      | n :: rest =>
        rcases hp : step reg dam f (.frag n "" true) v with e | f0 <;>
          simp only [hp] at h
        · cases h
        rcases hq : step reg dam f (.expList rest) f0.visited with e | r <;>
          simp only [hq] at h
        · cases h
        injection h with h
        subst h
        obtain ⟨Δ1, h11, h12, h13⟩ := ih reg dam _ _ _ hp
        obtain ⟨Δ2, h21, h22, h23⟩ := ih reg dam _ _ _ hq
        obtain ⟨hc1, hc2, hc3⟩ := delta_compose v f0.visited r.visited
          Δ1 Δ2 h11 h12 h13 h21 h22 h23
        exact ⟨Δ2 ++ Δ1, hc1, hc2, hc3⟩

theorem mU_step_le (f : Nat) (reg : Registry) (dam : Bool) (job : Job)
    (v : List String) (out : Out) (h : step reg dam f job v = .ok out) :
    mU reg out.visited ≤ mU reg v := by
  obtain ⟨Δ, h1, _, _⟩ := step_visited_delta f reg dam job v out h
  rw [h1]
  exact mU_anti_append reg Δ v

theorem term_contentKeys (reg : Registry) (dam : Bool) (K : Nat)
    (Hfrag : ∀ (nm sf : String) (ic : Bool) (v : List String), goodSuf sf →
      mU reg v ≤ K → ∃ f, step reg dam f (.frag nm sf ic) v ≠ .error .fuelOut) :
    ∀ (keys : List String) (root : String) (v : List String), mU reg v ≤ K →
      ∃ f, step reg dam f (.contentKeys root keys) v ≠ .error .fuelOut := by
  intro keys
  induction keys with
  | nil =>
    intro root v hK
    exact ⟨1, fun hh => nomatch hh⟩
  | cons t rest IH =>
    intro root v hK
    obtain ⟨f1, h1⟩ := Hfrag (if t == "_self" then root else t) "" true v (.inl rfl) hK
    rcases hres : step reg dam f1 (.frag (if t == "_self" then root else t) "" true) v
      with e | f0
    · refine ⟨f1 + 1, ?_⟩
      simp only [step, stepBody, hres]
      rw [hres] at h1
      exact h1
    · have hle : mU reg f0.visited ≤ K :=
        le_trans (mU_step_le f1 reg dam _ v f0 hres) hK
      obtain ⟨f2, h2⟩ := IH root f0.visited hle
      refine ⟨max f1 f2 + 1, ?_⟩
      have hm1 := step_fuel_mono reg dam (.frag (if t == "_self" then root else t) "" true)
        v f1 (max f1 f2) (Nat.le_max_left f1 f2) h1
      rw [hres] at hm1
      have hm2 := step_fuel_mono reg dam (.contentKeys root rest) f0.visited
        f2 (max f1 f2) (Nat.le_max_right f1 f2) h2
      simp only [step, stepBody, hm1]
      rcases hq : step reg dam f2 (.contentKeys root rest) f0.visited with e2 | r
      · rw [hq] at hm2 h2
        simp only [hm2]
        exact h2
      · rw [hq] at hm2
        simp only [hm2]
        exact fun hh => nomatch hh

theorem term_expList (reg : Registry) (dam : Bool) (K : Nat)
    (Hfrag : ∀ (nm sf : String) (ic : Bool) (v : List String), goodSuf sf →
      mU reg v ≤ K → ∃ f, step reg dam f (.frag nm sf ic) v ≠ .error .fuelOut) :
    ∀ (keys : List String) (v : List String), mU reg v ≤ K →
      ∃ f, step reg dam f (.expList keys) v ≠ .error .fuelOut := by
  intro keys
  induction keys with
  | nil =>
    intro v hK
    exact ⟨1, fun hh => nomatch hh⟩
  | cons n rest IH =>
    intro v hK
    obtain ⟨f1, h1⟩ := Hfrag n "" true v (.inl rfl) hK
    rcases hres : step reg dam f1 (.frag n "" true) v with e | f0
    · refine ⟨f1 + 1, ?_⟩
      simp only [step, stepBody, hres]
      rw [hres] at h1
      exact h1
    · have hle : mU reg f0.visited ≤ K :=
        le_trans (mU_step_le f1 reg dam _ v f0 hres) hK
      obtain ⟨f2, h2⟩ := IH f0.visited hle
      refine ⟨max f1 f2 + 1, ?_⟩
      have hm1 := step_fuel_mono reg dam (.frag n "" true)
        v f1 (max f1 f2) (Nat.le_max_left f1 f2) h1
      rw [hres] at hm1
      have hm2 := step_fuel_mono reg dam (.expList rest) f0.visited
        f2 (max f1 f2) (Nat.le_max_right f1 f2) h2
      simp only [step, stepBody, hm1]
      rcases hq : step reg dam f2 (.expList rest) f0.visited with e2 | r
      · rw [hq] at hm2 h2
        simp only [hm2]
        exact h2
      · rw [hq] at hm2
        simp only [hm2]
        exact fun hh => nomatch hh

theorem term_expFrags (reg : Registry) (dam : Bool) (K : Nat)
    (Hfrag : ∀ (nm sf : String) (ic : Bool) (v : List String), goodSuf sf →
      mU reg v ≤ K → ∃ f, step reg dam f (.frag nm sf ic) v ≠ .error .fuelOut) :
    ∀ (v : List String), mU reg v ≤ K →
      ∃ f, step reg dam f .expFrags v ≠ .error .fuelOut := by
  intro v hK
  obtain ⟨f1, h1⟩ := term_expList reg dam K Hfrag
    ((experienceNodes reg).filter (fun n => !v.contains n)) v hK
  rcases hres : step reg dam f1
      (.expList ((experienceNodes reg).filter (fun n => !v.contains n))) v with e | r
  · refine ⟨f1 + 1, ?_⟩
    simp only [step, stepBody, hres]
    rw [hres] at h1
    exact h1
  · refine ⟨f1 + 1, ?_⟩
    simp only [step, stepBody, hres]
    exact fun hh => nomatch hh

theorem term_prop (reg : Registry) (dam : Bool) (K : Nat)
    (Hfrag : ∀ (nm sf : String) (ic : Bool) (v : List String), goodSuf sf →
      mU reg v ≤ K → ∃ f, step reg dam f (.frag nm sf ic) v ≠ .error .fuelOut) :
    ∀ (d : Nat) (p : AnyProperty), propDepth p ≤ d →
      ∀ (pname root suffix : String) (v : List String), mU reg v ≤ K →
        ∃ f, step reg dam f (.prop pname p root suffix) v ≠ .error .fuelOut := by
  intro d
  induction d with
  | zero =>
    intro p hd
    rcases p with ⟨ind, sh⟩
    exact absurd hd (by simp [propDepth])
  | succ d IH =>
    intro p hd pname root suffix v hK
    rcases p with ⟨ind, sh⟩
    match sh with
    | .scalar => exact ⟨1, fun hh => nomatch hh⟩
    | .richText => exact ⟨1, fun hh => nomatch hh⟩
    | .url => exact ⟨1, fun hh => nomatch hh⟩
    | .link => exact ⟨1, fun hh => nomatch hh⟩
    | .contentReference => exact ⟨1, fun hh => nomatch hh⟩
    | .component key =>
      obtain ⟨f1, h1⟩ := Hfrag key "Property" false v (.inr rfl) hK
      rcases hres : step reg dam f1 (.frag key "Property" false) v with e | f0
      · refine ⟨f1 + 1, ?_⟩
        simp only [step, stepBody, AnyProperty.shape, hres]
        rw [hres] at h1
        exact h1
      · refine ⟨f1 + 1, ?_⟩
        simp only [step, stepBody, AnyProperty.shape, hres]
        exact fun hh => nomatch hh
    | .content aT rT =>
      obtain ⟨f1, h1⟩ := term_contentKeys reg dam K Hfrag
        (resolveAllowedTypes reg aT rT) root v hK
      rcases hres : step reg dam f1
          (.contentKeys root (resolveAllowedTypes reg aT rT)) v with e | ck
      · refine ⟨f1 + 1, ?_⟩
        simp only [step, stepBody, AnyProperty.shape, hres]
        rw [hres] at h1
        exact h1
      · refine ⟨f1 + 1, ?_⟩
        simp only [step, stepBody, AnyProperty.shape, hres]
        exact fun hh => nomatch hh
    | .array items =>
      have hdi : propDepth items ≤ d := by
        have : propDepth items + 2 ≤ d + 1 := by
          simpa [propDepth, shapeDepth] using hd
        omega
      obtain ⟨f1, h1⟩ := IH items hdi pname root suffix v hK
      rcases hres : step reg dam f1 (.prop pname items root suffix) v with e | r
      · refine ⟨f1 + 1, ?_⟩
        simp only [step, stepBody, AnyProperty.shape, hres]
        rw [hres] at h1
        exact h1
      · refine ⟨f1 + 1, ?_⟩
        simp only [step, stepBody, AnyProperty.shape, hres]
        exact fun hh => nomatch hh

theorem term_props (reg : Registry) (dam : Bool) (K : Nat)
    (Hfrag : ∀ (nm sf : String) (ic : Bool) (v : List String), goodSuf sf →
      mU reg v ≤ K → ∃ f, step reg dam f (.frag nm sf ic) v ≠ .error .fuelOut) :
    ∀ (ps : List (String × AnyProperty)) (root suffix : String) (v : List String),
      mU reg v ≤ K →
      ∃ f, step reg dam f (.props root suffix ps) v ≠ .error .fuelOut := by
  intro ps
  induction ps with
  | nil =>
    intro root suffix v hK
    exact ⟨1, fun hh => nomatch hh⟩
  | cons pp rest IH =>
    rcases pp with ⟨pname, p⟩
    intro root suffix v hK
    by_cases hdis : (p.indexingType == some "disabled") = true
    · obtain ⟨f1, h1⟩ := IH root suffix v hK
      refine ⟨f1 + 1, ?_⟩
      simp only [step, stepBody, hdis, if_pos]
      exact h1
    · obtain ⟨f1, h1⟩ := term_prop reg dam K Hfrag (propDepth p) p (le_refl _)
        pname root suffix v hK
      rcases hres : step reg dam f1 (.prop pname p root suffix) v with e | r1
      · refine ⟨f1 + 1, ?_⟩
        simp only [step, stepBody, hdis, Bool.false_eq_true, if_false, hres]
        rw [hres] at h1
        exact h1
      · have hle : mU reg r1.visited ≤ K :=
          le_trans (mU_step_le f1 reg dam _ v r1 hres) hK
        obtain ⟨f2, h2⟩ := IH root suffix r1.visited hle
        refine ⟨max f1 f2 + 1, ?_⟩
        have hm1 := step_fuel_mono reg dam (.prop pname p root suffix)
          v f1 (max f1 f2) (Nat.le_max_left f1 f2) h1
        rw [hres] at hm1
        have hm2 := step_fuel_mono reg dam (.props root suffix rest) r1.visited
          f2 (max f1 f2) (Nat.le_max_right f1 f2) h2
        simp only [step, stepBody, hdis, Bool.false_eq_true, if_false, hm1]
        rcases hq : step reg dam f2 (.props root suffix rest) r1.visited with e2 | r2
        · rw [hq] at hm2 h2
          simp only [hm2]
          exact h2
        · rw [hq] at hm2
          simp only [hm2]
          exact fun hh => nomatch hh

/-- Main termination lemma: with a suffix the composer itself uses, some
finite fuel always suffices — the recursion never runs out of unvisited
registry keys. -/
theorem frag_term (reg : Registry) (dam : Bool) :
    ∀ (N : Nat) (name suffix : String) (incl : Bool) (v : List String),
      goodSuf suffix → mU reg v < N →
      ∃ f, step reg dam f (.frag name suffix incl) v ≠ .error .fuelOut := by
  intro N
  induction N using Nat.strong_induction_on with
  | _ N IH =>
    intro name suffix incl v hg hN
    by_cases hv : (List.contains v (name ++ suffix)) = true
    · refine ⟨1, ?_⟩
      simp only [step, stepBody, hv, if_pos]
      exact fun hh => nomatch hh
    · by_cases hb : isBaseType name = true
      · refine ⟨1, ?_⟩
        simp only [step, stepBody, hv, Bool.false_eq_true, if_false, hb, if_pos]
        exact fun hh => nomatch hh
      · rcases hct : getContentType reg name with _ | ct
        · refine ⟨1, ?_⟩
          simp only [step, stepBody, hv, Bool.false_eq_true, if_false, hb, hct]
          intro hh
          injection hh with hh
          cases hh
        · have hkey : ct.key = name := by
            have := List.find?_some hct
            exact eq_of_beq this
          have hmemreg : ct ∈ reg := List.mem_of_find?_eq_some hct
          have hmem : (name ++ suffix) ∈ uNames reg := by
            rcases hg with rfl | rfl
            · rw [string_append_empty]
              exact List.mem_append.mpr (.inl (List.mem_map.mpr ⟨ct, hmemreg, hkey⟩))
            · exact List.mem_append.mpr (.inr (List.mem_map.mpr ⟨ct, hmemreg, by rw [hkey]⟩))
          have hvf : List.contains v (name ++ suffix) = false := by
            rcases hcb : List.contains v (name ++ suffix) with _ | _
            · rfl
            · exact absurd hcb hv
          have hlt : mU reg ((name ++ suffix) :: v) < mU reg v :=
            mU_cons_lt reg v (name ++ suffix) hmem hvf
          have Hfrag : ∀ (nm sf : String) (ic : Bool) (v' : List String), goodSuf sf →
              mU reg v' ≤ mU reg ((name ++ suffix) :: v) →
              ∃ f, step reg dam f (.frag nm sf ic) v' ≠ .error .fuelOut := by
            intro nm sf ic v' hg' hle
            exact IH (mU reg ((name ++ suffix) :: v) + 1) (by omega) nm sf ic v' hg'
              (by omega)
          obtain ⟨f1, h1⟩ := term_props reg dam (mU reg ((name ++ suffix) :: v)) Hfrag
            ct.properties name suffix ((name ++ suffix) :: v) (le_refl _)
          rcases hres : step reg dam f1 (.props name suffix ct.properties)
              ((name ++ suffix) :: v) with e | pr
          · refine ⟨f1 + 1, ?_⟩
            simp only [step, stepBody, hv, Bool.false_eq_true, if_false, hb, hct, hres]
            rw [hres] at h1
            exact h1
          · by_cases hexp : (ct.baseType == "_experience") = true
            · have hle2 : mU reg pr.visited ≤ mU reg ((name ++ suffix) :: v) :=
                mU_step_le f1 reg dam _ _ pr hres
              obtain ⟨f2, h2⟩ := term_expFrags reg dam
                (mU reg ((name ++ suffix) :: v)) Hfrag pr.visited hle2
              refine ⟨max f1 f2 + 1, ?_⟩
              have hm1 := step_fuel_mono reg dam (.props name suffix ct.properties)
                ((name ++ suffix) :: v) f1 (max f1 f2) (Nat.le_max_left f1 f2) h1
              rw [hres] at hm1
              have hm2 := step_fuel_mono reg dam .expFrags pr.visited
                f2 (max f1 f2) (Nat.le_max_right f1 f2) h2
              simp only [step, stepBody, hv, Bool.false_eq_true, if_false, hb, hct, hm1,
                hexp, if_pos]
              rcases hq : step reg dam f2 .expFrags pr.visited with e2 | ex
              · rw [hq] at hm2 h2
                simp only [hm2]
                exact h2
              · rw [hq] at hm2
                simp only [hm2]
                exact fun hh => nomatch hh
            · refine ⟨f1 + 1, ?_⟩
              simp only [step, stepBody, hv, Bool.false_eq_true, if_false, hb, hct, hres,
                hexp]
              exact fun hh => nomatch hh

theorem contentKeys_fields :
    ∀ (f : Nat) (reg : Registry) (dam : Bool) (root : String) (keys : List String)
      (v : List String) (out : Out),
      step reg dam f (.contentKeys root keys) v = .ok out →
      out.fields = keys.map (fun t => "..." ++ (if t == "_self" then root else t)) := by
  intro f
  induction f with
  | zero =>
    intro reg dam root keys v out h
    cases h
  | succ f ih =>
    intro reg dam root keys v out h
    simp only [step, stepBody] at h
    match keys with
    | [] =>
      injection h with h
      subst h
      rfl
    | t :: rest =>
      rcases hp : step reg dam f (.frag (if t == "_self" then root else t) "" true) v
        with e | f0 <;> simp only [hp] at h
      · cases h
      rcases hq : step reg dam f (.contentKeys root rest) f0.visited with e | r <;>
        simp only [hq] at h
      · cases h
      injection h with h
      subst h
      simp only [List.map_cons]
      exact congrArg _ (ih reg dam root rest f0.visited r hq)

/-- C3: (1) the cycle guard — when `typeKey ++ suffix` is already visited
the call returns empty immediately without touching the state; (2) for
every registry, root and flag, some finite fuel settles the top-level
composition (termination: the recursion never exhausts — the result is a
value or a missing-type throw, never fuel-out); (3) the deduplicated
spread list of a `content` property that allows the root itself (directly
or via `_self`) carries the self-referencing spread `...root` exactly
once; (4) on the minimal self-referencing schema the composition
terminates with the common fragments plus one `Cyc` fragment whose
self-spread `...Cyc` occurs exactly once in the emitted text. -/
theorem createFragment_cycle_safe :
    (∀ (reg : Registry) (dam : Bool) (f : Nat) (name suffix : String) (incl : Bool)
        (v : List String), v.contains (name ++ suffix) = true →
      step reg dam (f + 1) (.frag name suffix incl) v = .ok ⟨[], [], false, false, v⟩) ∧
    (∀ (reg : Registry) (dam : Bool) (root : String),
      ∃ f, step reg dam f (.frag root "" true) [] ≠ .error .fuelOut) ∧
    (∀ (f : Nat) (reg : Registry) (dam : Bool) (root : String) (keys : List String)
        (v : List String) (out : Out),
      step reg dam f (.contentKeys root keys) v = .ok out →
      ("_self" ∈ keys ∨ root ∈ keys) →
      (jsDedup out.fields).count ("..." ++ root) = 1) ∧
    (createFragment 6 regCyc "Cyc" [] "" true false = .ok (COMMON_FRAGMENTS ++
        ["fragment Cyc on Cyc \x7b __typename Cyc__kids:kids \x7b __typename ...Cyc \x7d ..._IContent \x7d"]) ∧
      countSeg "...Cyc".data
        "fragment Cyc on Cyc \x7b __typename Cyc__kids:kids \x7b __typename ...Cyc \x7d ..._IContent \x7d".data = 1) := by
  refine ⟨?_, ?_, ?_, ?_, ?_⟩
  · intro reg dam f name suffix incl v hc
    simp only [step, stepBody, hc, if_pos]
  · intro reg dam root
    exact frag_term reg dam (mU reg [] + 1) root "" true [] (.inl rfl)
      (Nat.lt_succ_self _)
  · intro f reg dam root keys v out h hself
    have hf := contentKeys_fields f reg dam root keys v out h
    have hmem : ("..." ++ root) ∈ out.fields := by
      rw [hf]
      rcases hself with hs | hs
      · refine List.mem_map.mpr ⟨"_self", hs, ?_⟩
        rfl
      · refine List.mem_map.mpr ⟨root, hs, ?_⟩
        rw [ite_self]
    exact List.count_eq_one_of_mem (jsDedup_nodup out.fields)
      (jsDedup_mem out.fields _ |>.mpr hmem)
  · rfl
  · rfl

/-- Witness for C3: the cycle guard fires on a concrete visited set. -/
theorem createFragment_cycle_safe_witness :
    step regCyc false 3 (.frag "Cyc" "" true) ["Cyc"] =
      .ok ⟨[], [], false, false, ["Cyc"]⟩ :=
  createFragment_cycle_safe.1 regCyc false 2 "Cyc" "" true ["Cyc"] (by decide)

theorem string_data_append (a b : String) : (a ++ b).data = a.data ++ b.data := by
  cases a
  cases b
  rfl

theorem takeWhile_all_append (p : Char → Bool) (a : List Char) (c : Char)
    (rest : List Char) (ha : a.all p = true) (hc : p c = false) :
    (a ++ c :: rest).takeWhile p = a := by
  induction a with
  | nil =>
    simp only [List.nil_append, List.takeWhile]
    rw [hc]
  | cons x xs ih =>
    simp only [List.all_cons, Bool.and_eq_true] at ha
    simp only [List.cons_append, List.takeWhile]
    rw [ha.1]
    simp only [List.append_eq, ih ha.2]

/-- The declared name of a composed fragment is its `fragmentName`,
provided that name is space-free. -/
theorem dn_mk (n pn : String) (flds : List String)
    (h : n.data.all (fun c => !(c == ' ')) = true) :
    dn (mkFragmentString n pn flds) = n.data := by
  rcases n with ⟨nd⟩
  rcases pn with ⟨pd⟩
  rcases hj : joinSpace (jsDedup flds) with ⟨jd⟩
  unfold dn mkFragmentString
  rw [hj]
  show ((("fragment ".data ++ nd ++ " on ".data ++ pd ++ " \x7b ".data ++ jd ++
      " \x7d".data).drop 9).takeWhile (fun c => !(c == ' '))) = nd
  have hstep : ("fragment ".data ++ nd ++ " on ".data ++ pd ++ " \x7b ".data ++ jd ++
      " \x7d".data).drop 9 =
      nd ++ (" on ".data ++ (pd ++ (" \x7b ".data ++ (jd ++ " \x7d".data)))) := by
    simp only [List.append_assoc]
    rw [show (9 : Nat) = ("fragment ".data).length from rfl, List.drop_left]
  rw [hstep]
  exact takeWhile_all_append _ nd ' '
    ("on ".data ++ (pd ++ (" \x7b ".data ++ (jd ++ " \x7d".data)))) h rfl

/-- The polymorphic component fragment always declares `_IComponent`. -/
theorem comp_dn (reg : Registry) :
    dn (componentFragmentString reg) = "_IComponent".data := by
  rcases hj : joinSpace ((experienceNodes reg).map (fun n => "..." ++ n)) with ⟨jd⟩
  unfold dn componentFragmentString
  rw [hj]
  show ((("fragment _IComponent on _IComponent \x7b __typename ".data ++ jd ++
      " \x7d".data).drop 9).takeWhile (fun c => !(c == ' '))) = "_IComponent".data
  have hstep : ("fragment _IComponent on _IComponent \x7b __typename ".data ++ jd ++
      " \x7d".data).drop 9 =
      "_IComponent".data ++ (' ' :: ("on _IComponent \x7b __typename ".data ++
        (jd ++ " \x7d".data))) := by
    simp only [List.append_assoc]
    rfl
  rw [hstep]
  exact takeWhile_all_append _ "_IComponent".data ' '
    ("on _IComponent \x7b __typename ".data ++ (jd ++ " \x7d".data)) (by decide) rfl

theorem mem_LIB_cases (reg : Registry) (s : String) (h : s ∈ LIB reg) :
    s = "fragment MediaMetadata on MediaMetadata \x7b mimeType thumbnail content \x7d" ∨
    s = "fragment ItemMetadata on ItemMetadata \x7b changeset displayOption \x7d" ∨
    s = "fragment InstanceMetadata on InstanceMetadata \x7b changeset locales expired container owner routeSegment lastModifiedBy path createdBy \x7d" ∨
    s = "fragment ContentUrl on ContentUrl \x7b type default hierarchical internal graph base \x7d" ∨
    s = "fragment IContentMetadata on IContentMetadata \x7b key locale fallbackForLocale version displayName url \x7b...ContentUrl\x7d types published status created lastModified sortOrder ...MediaMetadata ...ItemMetadata ...InstanceMetadata \x7d" ∨
    s = "fragment _IContent on _IContent \x7b _id _metadata \x7b...IContentMetadata\x7d \x7d" ∨
    s = "fragment PublicImageAsset on cmp_PublicImageAsset \x7b Url Title AltText Description MimeType Height Width Renditions \x7b Id Name Url Width Height \x7d FocalPoint \x7b X Y \x7d Tags \x7b Guid Name \x7d \x7d" ∨
    s = "fragment PublicVideoAsset on cmp_PublicVideoAsset \x7b Url Title AltText Description MimeType Renditions \x7b Id Name Url Width Height \x7d Tags \x7b Guid Name \x7d \x7d" ∨
    s = "fragment PublicRawFileAsset on cmp_PublicRawFileAsset \x7b Url Title Description MimeType Tags \x7b Guid Name \x7d \x7d" ∨
    s = "fragment ContentReferenceItem on ContentReference \x7b item \x7b ...PublicImageAsset ...PublicVideoAsset ...PublicRawFileAsset \x7d \x7d" ∨
    s = "fragment _IExperience on _IExperience \x7b composition \x7b...ICompositionNode \x7d\x7d" ∨
    s = "fragment ICompositionNode on ICompositionNode \x7b __typename key type nodeType layoutType displayName displayTemplateKey displaySettings \x7bkey value\x7d ...on CompositionStructureNode \x7b nodes @recursive \x7d ...on CompositionComponentNode \x7b nodeType component \x7b ..._IComponent \x7d \x7d \x7d" ∨
    s = componentFragmentString reg := by
  simp only [LIB, COMMON_FRAGMENTS, DAM_ASSET_FRAGMENTS, CONTENT_URL_FRAGMENT,
    EXPERIENCE_FIXED_FRAGMENTS, List.mem_append, List.mem_cons, List.mem_singleton,
    List.not_mem_nil, or_false, false_or] at h
  tauto

set_option maxHeartbeats 2000000 in
/-- No two distinct library fragments declare the same name. -/
theorem libU (reg : Registry) :
    ∀ s1 ∈ LIB reg, ∀ s2 ∈ LIB reg, dn s1 = dn s2 → s1 = s2 := by
  intro s1 h1 s2 h2 hdn
  rcases mem_LIB_cases reg s1 h1 with
    rfl|rfl|rfl|rfl|rfl|rfl|rfl|rfl|rfl|rfl|rfl|rfl|rfl <;>
  rcases mem_LIB_cases reg s2 h2 with
    rfl|rfl|rfl|rfl|rfl|rfl|rfl|rfl|rfl|rfl|rfl|rfl|rfl <;>
  first
    | rfl
    | (exact absurd hdn (by decide))
    | (rw [comp_dn] at hdn; exact absurd hdn (by decide))

theorem classif_sub (reg : Registry) (Δ : List String) (L M : List String)
    (hsub : ∀ s ∈ M, s ∈ L) (h : classif reg Δ L) : classif reg Δ M :=
  fun s hs => h s (hsub s hs)

theorem uniq_sub (L M : List String) (hsub : ∀ s ∈ M, s ∈ L)
    (h : uniqNames L) : uniqNames M :=
  fun n hn s1 h1 s2 h2 c1 c2 => h n hn s1 (hsub s1 h1) s2 (hsub s2 h2) c1 c2

theorem classif_mono (reg : Registry) (Δ Δ2 : List String) (L : List String)
    (hΔ : ∀ n ∈ Δ, n ∈ Δ2) (h : classif reg Δ L) : classif reg Δ2 L := by
  intro s hs
  rcases h s hs with hl | ⟨n, hn, pn, flds, he⟩
  · exact .inl hl
  · exact .inr ⟨n, hΔ n hn, pn, flds, he⟩

theorem classif_append (reg : Registry) (Δ : List String) (A B : List String)
    (hA : classif reg Δ A) (hB : classif reg Δ B) : classif reg Δ (A ++ B) := by
  intro s hs
  rcases List.mem_append.mp hs with hm | hm
  · exact hA s hm
  · exact hB s hm

theorem classif_lib (reg : Registry) (Δ : List String) (A : List String)
    (hsub : ∀ s ∈ A, s ∈ LIB reg) : classif reg Δ A :=
  fun s hs => .inl (hsub s hs)

theorem classif_nil (reg : Registry) (Δ : List String) : classif reg Δ [] :=
  fun s hs => nomatch hs

theorem uniq_nil : uniqNames [] := fun n _ s1 h1 => nomatch h1

/-- Library-only lists have unique names. -/
theorem uniq_lib (reg : Registry) (A : List String)
    (hsub : ∀ s ∈ A, s ∈ LIB reg) : uniqNames A := by
  intro n hn s1 h1 s2 h2 c1 c2
  rcases c1 with ⟨pn1, flds1, he1⟩
  rcases c2 with ⟨pn2, flds2, he2⟩
  have hd1 : dn s1 = n.data := by rw [he1]; exact dn_mk n pn1 flds1 hn
  have hd2 : dn s2 = n.data := by rw [he2]; exact dn_mk n pn2 flds2 hn
  exact libU reg s1 (hsub s1 h1) s2 (hsub s2 h2) (hd1.trans hd2.symm)

theorem uniq_single (s : String) : uniqNames [s] := by
  intro n hn s1 h1 s2 h2 c1 c2
  rcases List.mem_singleton.mp h1 with rfl
  rcases List.mem_singleton.mp h2 with rfl
  rfl

/-- Combining two classified blocks with disjoint composed-name sets
preserves name uniqueness, provided registry names never collide with
library names. -/
theorem uniq_append (reg : Registry) (A0 : List String)
    (HNS : ∀ n ∈ A0, n.data.all (fun c => !(c == ' ')) = true)
    (HD : ∀ n ∈ A0, ∀ s ∈ LIB reg, dn s ≠ n.data)
    (A B : List String) (ΔA ΔB : List String)
    (hCA : classif reg ΔA A) (hCB : classif reg ΔB B)
    (hNA : ∀ x ∈ ΔA, x ∈ A0) (hNB : ∀ x ∈ ΔB, x ∈ A0)
    (hdisj : ∀ n, n ∈ ΔA → n ∈ ΔB → False)
    (hUA : uniqNames A) (hUB : uniqNames B) :
    uniqNames (A ++ B) := by
  have key : ∀ (X Y : List String) (ΔX ΔY : List String),
      classif reg ΔX X → classif reg ΔY Y →
      (∀ x ∈ ΔX, x ∈ A0) → (∀ x ∈ ΔY, x ∈ A0) →
      (∀ n, n ∈ ΔX → n ∈ ΔY → False) →
      ∀ n : String, n.data.all (fun c => !(c == ' ')) = true →
      ∀ s1 ∈ X, ∀ s2 ∈ Y,
        (∃ pn flds, s1 = mkFragmentString n pn flds) →
        (∃ pn flds, s2 = mkFragmentString n pn flds) → s1 = s2 := by
    intro X Y ΔX ΔY hCX hCY hNX hNY hdj n hn s1 h1 s2 h2 c1 c2
    rcases c1 with ⟨pn1, flds1, he1⟩
    rcases c2 with ⟨pn2, flds2, he2⟩
    have hd1 : dn s1 = n.data := by rw [he1]; exact dn_mk n pn1 flds1 hn
    have hd2 : dn s2 = n.data := by rw [he2]; exact dn_mk n pn2 flds2 hn
    rcases hCX s1 h1 with hl1 | ⟨n1, hn1, pn1b, flds1b, he1b⟩
    · rcases hCY s2 h2 with hl2 | ⟨n2, hn2, pn2b, flds2b, he2b⟩
      · exact libU reg s1 hl1 s2 hl2 (hd1.trans hd2.symm)
      · exfalso
        have hsp2 : n2.data.all (fun c => !(c == ' ')) = true := HNS n2 (hNY n2 hn2)
        have hd2b : dn s2 = n2.data := by rw [he2b]; exact dn_mk n2 pn2b flds2b hsp2
        have : n.data = n2.data := hd2.symm.trans hd2b
        exact HD n2 (hNY n2 hn2) s1 hl1 (hd1.trans this)
    · have hsp1 : n1.data.all (fun c => !(c == ' ')) = true := HNS n1 (hNX n1 hn1)
      have hd1b : dn s1 = n1.data := by rw [he1b]; exact dn_mk n1 pn1b flds1b hsp1
      have hnn1 : n = n1 := by
        have h0 : n.data = n1.data := hd1.symm.trans hd1b
        cases n
        cases n1
        exact congrArg String.mk h0
      rcases hCY s2 h2 with hl2 | ⟨n2, hn2, pn2b, flds2b, he2b⟩
      · exfalso
        exact HD n1 (hNX n1 hn1) s2 hl2 (hd2.trans (hnn1 ▸ rfl))
      · exfalso
        have hsp2 : n2.data.all (fun c => !(c == ' ')) = true := HNS n2 (hNY n2 hn2)
        have hd2b : dn s2 = n2.data := by rw [he2b]; exact dn_mk n2 pn2b flds2b hsp2
        have hnn2 : n = n2 := by
          have h0 : n.data = n2.data := hd2.symm.trans hd2b
          cases n
          cases n2
          exact congrArg String.mk h0
        exact hdj n (hnn1 ▸ hn1) (hnn2 ▸ hn2)
  intro n hn s1 h1 s2 h2 c1 c2
  rcases List.mem_append.mp h1 with hm1 | hm1 <;>
    rcases List.mem_append.mp h2 with hm2 | hm2
  · exact hUA n hn s1 hm1 s2 hm2 c1 c2
  · exact key A B ΔA ΔB hCA hCB hNA hNB hdisj n hn s1 hm1 s2 hm2 c1 c2
  · exact key B A ΔB ΔA hCB hCA hNB hNA (fun n hb ha => hdisj n ha hb)
      n hn s1 hm1 s2 hm2 c1 c2
  · exact hUB n hn s1 hm1 s2 hm2 c1 c2

theorem raAdd_result_sub (reg : Registry) (skip : List String) (st : RAState)
    (key : String) (x : String) (hx : x ∈ (raAdd reg skip st key).result) :
    x ∈ st.result ∨ x = key := by
  rcases raAdd_eq_or reg skip st key with ⟨heq, _⟩ | ⟨heq, _⟩
  · rw [heq] at hx
    exact .inl hx
  · rw [heq] at hx
    rcases List.mem_append.mp hx with hm | hm
    · exact .inl hm
    · exact .inr (List.mem_singleton.mp hm)

theorem foldl_result_inv {α : Type} (P : String → Prop) (Q : α → Prop)
    (g : RAState → α → RAState)
    (hg : ∀ st a, (∀ x ∈ st.result, P x) → Q a → ∀ x ∈ (g st a).result, P x) :
    ∀ (l : List α) (st : RAState), (∀ a ∈ l, Q a) → (∀ x ∈ st.result, P x) →
      ∀ x ∈ (l.foldl g st).result, P x := by
  intro l
  induction l with
  | nil =>
    intro st _ hst x hx
    exact hst x hx
  | cons a l ihl =>
    intro st hQ hst x hx
    exact ihl (g st a) (fun b hb => hQ b (List.mem_cons_of_mem a hb))
      (hg st a hst (hQ a (List.mem_cons_self a l))) x hx

theorem getContentTypeByBaseType_sub (reg : Registry) (bt : String)
    (ct : ContentType) (h : ct ∈ getContentTypeByBaseType reg bt) : ct ∈ reg :=
  List.mem_of_mem_filter h

/-- With no explicit allow list the main loop is a plain `add` fold over
the registered keys. -/
theorem resolveAllowedTypes_none (reg : Registry) (rT : Option (List String)) :
    resolveAllowedTypes reg none rT =
      ((reg.map (fun c => c.key)).foldl
        (fun st entry => raAdd reg (raSkip reg rT) st entry) ⟨[], []⟩).result := by
  unfold resolveAllowedTypes getAllContentTypes
  simp

/-- An empty explicit allow list behaves like no allow list. -/
theorem resolveAllowedTypes_some_nil (reg : Registry) (rT : Option (List String)) :
    resolveAllowedTypes reg (some []) rT =
      ((reg.map (fun c => c.key)).foldl
        (fun st entry => raAdd reg (raSkip reg rT) st entry) ⟨[], []⟩).result := by
  unfold resolveAllowedTypes getAllContentTypes
  simp

theorem raEntryStep_result_sub (reg : Registry) (skip : List String)
    (P : String → Prop) (hreg : ∀ c ∈ reg, P c.key) (st : RAState) (entry : String)
    (hst : ∀ x ∈ st.result, P x) (hP : P entry) :
    ∀ x ∈ (raEntryStep reg skip st entry).result, P x := by
  intro x hx
  unfold raEntryStep at hx
  rcases raAdd_result_sub reg skip _ entry x hx with hm | rfl
  · by_cases hb : isBaseType entry = true
    · rw [if_pos hb] at hm
      refine foldl_result_inv P (fun ct : ContentType => ct ∈ reg) _ ?_ _ _ ?_ hst x hm
      · intro st2 c2 hst2 hc2 y hy
        rcases raAdd_result_sub reg skip _ c2.key y hy with hm2 | rfl
        · exact hst2 y hm2
        · exact hreg c2 hc2
      · intro c2 hc2
        exact getContentTypeByBaseType_sub reg entry c2 hc2
    · rw [if_neg hb] at hm
      exact hst x hm
  · exact hP

/-- Every key `resolveAllowedTypes` returns is an explicit allow-list entry
or a registered key. -/
theorem resolveAllowedTypes_sub (reg : Registry) (aT rT : Option (List String)) :
    ∀ t ∈ resolveAllowedTypes reg aT rT,
      t ∈ aT.getD [] ∨ t ∈ reg.map (fun c => c.key) := by
  have hdef : ∀ t ∈ ((reg.map (fun c => c.key)).foldl
      (fun st entry => raAdd reg (raSkip reg rT) st entry)
      (⟨[], []⟩ : RAState)).result, t ∈ reg.map (fun c => c.key) := by
    intro t ht
    refine foldl_result_inv (fun x => x ∈ reg.map (fun c => c.key))
      (fun x => x ∈ reg.map (fun c => c.key)) _ ?_ _ _ (fun a ha => ha) ?_ t ht
    · intro st a hst hQ x hx
      rcases raAdd_result_sub reg _ st a x hx with hm | rfl
      · exact hst x hm
      · exact hQ
    · intro x hx
      exact absurd hx (List.not_mem_nil x)
  intro t ht
  rcases aT with _ | al
  · rw [resolveAllowedTypes_none reg rT] at ht
    exact .inr (hdef t ht)
  · rcases al with _ | ⟨a0, al0⟩
    · rw [resolveAllowedTypes_some_nil reg rT] at ht
      exact .inr (hdef t ht)
    · rw [resolveAllowedTypes_explicit reg (a0 :: al0) rT (by simp)] at ht
      refine foldl_result_inv
        (fun x => x ∈ (some (a0 :: al0)).getD [] ∨ x ∈ reg.map (fun c => c.key))
        (fun x => x ∈ (a0 :: al0)) _ ?_ _ _ (fun a ha => ha) ?_ t ht
      · intro st a hst hQ
        exact raEntryStep_result_sub reg (raSkip reg rT) _
          (fun c hc => .inr (List.mem_map.mpr ⟨c, hc, rfl⟩)) st a hst (.inl hQ)
      · intro x hx
        exact absurd hx (List.not_mem_nil x)

theorem COMMON_sub_LIB (reg : Registry) : ∀ s ∈ COMMON_FRAGMENTS, s ∈ LIB reg := by
  intro s hs
  unfold LIB
  exact List.mem_append.mpr (.inl (List.mem_append.mpr (.inl (List.mem_append.mpr
    (.inl (List.mem_append.mpr (.inl hs)))))))

theorem DAM_sub_LIB (reg : Registry) : ∀ s ∈ DAM_ASSET_FRAGMENTS, s ∈ LIB reg := by
  intro s hs
  unfold LIB
  exact List.mem_append.mpr (.inl (List.mem_append.mpr (.inl (List.mem_append.mpr
    (.inl (List.mem_append.mpr (.inr hs)))))))

theorem CU_mem_LIB (reg : Registry) : CONTENT_URL_FRAGMENT ∈ LIB reg := by
  unfold LIB
  exact List.mem_append.mpr (.inl (List.mem_append.mpr (.inl (List.mem_append.mpr
    (.inr (List.mem_singleton.mpr rfl))))))

theorem EXP_sub_LIB (reg : Registry) :
    ∀ s ∈ EXPERIENCE_FIXED_FRAGMENTS, s ∈ LIB reg := by
  intro s hs
  unfold LIB
  exact List.mem_append.mpr (.inl (List.mem_append.mpr (.inr hs)))

theorem cfs_mem_LIB (reg : Registry) : componentFragmentString reg ∈ LIB reg := by
  unfold LIB
  exact List.mem_append.mpr (.inr (List.mem_singleton.mpr rfl))

theorem ite_dam_sub_LIB (reg : Registry) (c : Bool) :
    ∀ s ∈ (if c then DAM_ASSET_FRAGMENTS else []), s ∈ LIB reg := by
  intro s hs
  rcases c with _ | _
  · exact absurd hs (List.not_mem_nil s)
  · exact DAM_sub_LIB reg s hs

theorem ite_common_sub_LIB (reg : Registry) (c : Bool) :
    ∀ s ∈ (if c = true then buildBaseTypeFragmentsExtra else []), s ∈ LIB reg := by
  intro s hs
  rcases c with _ | _
  · exact absurd hs (List.not_mem_nil s)
  · exact COMMON_sub_LIB reg s hs

theorem propNames_shape (p : AnyProperty) : propNames p = shapeNames p.shape := by
  rcases p with ⟨ind, sh⟩
  rfl

theorem experienceNodes_sub (reg : Registry) :
    ∀ n ∈ experienceNodes reg, n ∈ reg.map (fun c => c.key) := by
  intro n hn
  unfold experienceNodes getAllContentTypes at hn
  rcases List.mem_map.mp hn with ⟨ct, hct, rfl⟩
  exact List.mem_map.mpr ⟨ct, List.mem_of_mem_filter hct, rfl⟩

theorem regKey_mem_uNames (reg : Registry) (k : String)
    (h : k ∈ reg.map (fun c => c.key)) : k ∈ uNames reg := by
  unfold uNames
  refine List.mem_append.mpr (.inl ?_)
  rcases List.mem_map.mp h with ⟨c, hc, rfl⟩
  exact List.mem_map.mpr ⟨c, hc, rfl⟩

theorem classif_single_comp (reg : Registry) (Δ : List String) (fn pn : String)
    (flds : List String) (hfn : fn ∈ Δ) :
    classif reg Δ [mkFragmentString fn pn flds] := by
  intro s hs
  rcases List.mem_singleton.mp hs with rfl
  exact .inr ⟨fn, hfn, pn, flds, rfl⟩

theorem uniq_lib_prepend (reg : Registry) (A0 : List String)
    (HNS : ∀ n ∈ A0, n.data.all (fun c => !(c == ' ')) = true)
    (HD : ∀ n ∈ A0, ∀ s ∈ LIB reg, dn s ≠ n.data)
    (A B : List String) (ΔB : List String)
    (hAlib : ∀ s ∈ A, s ∈ LIB reg) (hCB : classif reg ΔB B)
    (hNB : ∀ x ∈ ΔB, x ∈ A0) (hUB : uniqNames B) : uniqNames (A ++ B) :=
  uniq_append reg A0 HNS HD A B [] ΔB (classif_lib reg [] A hAlib) hCB
    (fun x hx => absurd hx (List.not_mem_nil x)) hNB (fun n hn _ => absurd hn (List.not_mem_nil n))
    (uniq_lib reg A hAlib) hUB

theorem uniq_final_append (reg : Registry) (A0 : List String)
    (HNS : ∀ n ∈ A0, n.data.all (fun c => !(c == ' ')) = true)
    (HD : ∀ n ∈ A0, ∀ s ∈ LIB reg, dn s ≠ n.data)
    (A : List String) (Δp : List String)
    (hCA : classif reg Δp A) (hNA : ∀ x ∈ Δp, x ∈ A0) (hUA : uniqNames A)
    (fn pn : String) (flds : List String) (hfnA : fn ∈ A0) (hfn : fn ∉ Δp) :
    uniqNames (A ++ [mkFragmentString fn pn flds]) := by
  refine uniq_append reg A0 HNS HD A [mkFragmentString fn pn flds] Δp [fn] hCA
    (classif_single_comp reg [fn] fn pn flds (List.mem_singleton.mpr rfl)) hNA
    (fun x hx => by rcases List.mem_singleton.mp hx with rfl; exact hfnA) ?_ hUA
    (uniq_single _)
  intro n hn1 hn2
  rcases List.mem_singleton.mp hn2 with rfl
  exact hfn hn1

set_option maxHeartbeats 2000000 in
/-- Naming invariant of the composer, by induction on fuel: every
successful run classifies its output into library fragments and
uniquely-named composed fragments. -/
theorem step_names_inv :
    ∀ (f : Nat) (reg : Registry) (dam : Bool) (A : List String),
      (∀ n ∈ A, n.data.all (fun c => !(c == ' ')) = true) →
      (∀ n ∈ A, ∀ s ∈ LIB reg, dn s ≠ n.data) →
      (∀ n ∈ uNames reg, n ∈ A) →
      (∀ c ∈ reg, ∀ pp ∈ c.properties, ∀ n ∈ propNames pp.2, n ∈ A) →
      ∀ (job : Job) (v : List String) (out : Out),
        jobNamesOK A job →
        step reg dam f job v = .ok out →
        NInv reg A v out := by
  intro f
  induction f with
  | zero =>
    intro reg dam A HNS HD HA HP job v out hok h
    cases h
  | succ f ih =>
    intro reg dam A HNS HD HA HP job v out hok h
    simp only [step] at h
    match job with
    | .frag name suffix includeBase =>
      obtain ⟨hgs, hfnA⟩ := hok
      simp only [stepBody] at h
      by_cases hv : (List.contains v (name ++ suffix)) = true
      · simp only [hv, if_pos] at h
        injection h with h
        subst h
        exact ⟨[], rfl, List.nodup_nil, fun x hx => absurd hx (List.not_mem_nil x), fun x hx => absurd hx (List.not_mem_nil x),
          classif_nil reg [], uniq_nil⟩
      · simp only [hv, Bool.false_eq_true, if_false] at h
        have hone : (name ++ suffix) :: v = [name ++ suffix] ++ v := rfl
        have hnone : ([name ++ suffix] : List String).Nodup := List.nodup_singleton _
        have hdone : ∀ x ∈ [name ++ suffix], v.contains x = false := by
          intro x hx
          rcases List.mem_singleton.mp hx with rfl
          exact Bool.not_eq_true _ ▸ hv
        by_cases hb : isBaseType name = true
        · simp only [hb, if_pos] at h
          injection h with h
          subst h
          refine ⟨[name ++ suffix], rfl, hnone, hdone, ?_, ?_, ?_⟩
          · intro x hx
            rcases List.mem_singleton.mp hx with rfl
            exact hfnA
          · refine classif_append reg _ _ _ ?_
              (classif_single_comp reg _ _ _ _ (List.mem_singleton.mpr rfl))
            refine classif_sub reg _ buildBaseTypeFragmentsExtra _
              (fun s hs => (jsDedup_mem _ s).mp hs) ?_
            exact classif_lib reg _ _ (COMMON_sub_LIB reg)
          · refine uniq_final_append reg A HNS HD _ [] ?_ (fun x hx => absurd hx (List.not_mem_nil x)) ?_
              _ _ _ hfnA (List.not_mem_nil _)
            · exact classif_sub reg [] buildBaseTypeFragmentsExtra _
                (fun s hs => (jsDedup_mem _ s).mp hs)
                (classif_lib reg [] _ (COMMON_sub_LIB reg))
            · exact uniq_sub buildBaseTypeFragmentsExtra _
                (fun s hs => (jsDedup_mem _ s).mp hs)
                (uniq_lib reg _ (COMMON_sub_LIB reg))
        · simp only [hb, Bool.false_eq_true, if_false] at h
          rcases hct : getContentType reg name with _ | ct <;> simp only [hct] at h
          · cases h
          have hkey : ct.key = name := by
            have h0 := List.find?_some hct
            exact eq_of_beq h0
          have hctmem : ct ∈ reg := List.mem_of_find?_eq_some hct
          have hnameA : name ∈ A :=
            HA name (regKey_mem_uNames reg name (List.mem_map.mpr ⟨ct, hctmem, hkey⟩))
          rcases hp : step reg dam f (.props name suffix ct.properties)
            ((name ++ suffix) :: v) with e | pr <;> simp only [hp] at h
          · cases h
          obtain ⟨Δp, p1, p2, p3, p4, p5, p6⟩ := ih reg dam A HNS HD HA HP
            (.props name suffix ct.properties) ((name ++ suffix) :: v) pr
            ⟨hnameA, fun pp hpp n hn => HP ct hctmem pp hpp n hn⟩ hp
          obtain ⟨hc1, hc2, hc3⟩ := delta_compose v ((name ++ suffix) :: v) pr.visited
            [name ++ suffix] Δp hone hnone hdone p1 p2 p3
          have hfnv1 : (name ++ suffix) ∈ ((name ++ suffix) :: v) :=
            List.mem_cons_self _ _
          have hfn_not_dp : (name ++ suffix) ∉ Δp := by
            intro hmem
            have := p3 _ hmem
            rw [strContains_iff _ _ |>.mpr hfnv1] at this
            cases this
          have hnames2 : ∀ x ∈ Δp ++ [name ++ suffix], x ∈ A := by
            intro x hx
            rcases List.mem_append.mp hx with hm | hm
            · exact p4 x hm
            · rcases List.mem_singleton.mp hm with rfl
              exact hfnA
          by_cases hexp : (ct.baseType == "_experience") = true
          · simp only [hexp, if_pos] at h
            rcases hx : step reg dam f .expFrags pr.visited with e | ex <;>
              simp only [hx] at h
            · cases h
            obtain ⟨Δe, e1, e2, e3, e4, e5, e6⟩ := ih reg dam A HNS HD HA HP
              .expFrags pr.visited ex trivial hx
            obtain ⟨hf1, hf2, hf3⟩ := delta_compose v pr.visited ex.visited
              (Δp ++ [name ++ suffix]) Δe hc1 hc2 hc3 e1 e2 e3
            injection h with h
            subst h
            refine ⟨Δe ++ (Δp ++ [name ++ suffix]), hf1, hf2, hf3, ?_, ?_, ?_⟩
            · intro x hx2
              rcases List.mem_append.mp hx2 with hm | hm
              · exact e4 x hm
              · exact hnames2 x hm
            · refine classif_append reg _ _ _ ?_ (classif_single_comp reg _ _ _ _ ?_)
              · refine classif_sub reg _ _ _ (fun s hs => (jsDedup_mem _ s).mp hs) ?_
                refine classif_append reg _ _ _
                  (classif_lib reg _ _ (ite_dam_sub_LIB reg pr.dam)) ?_
                refine classif_append reg _ _ _ ?_ ?_
                · refine classif_append reg _ _ _
                    (classif_lib reg _ _ (ite_common_sub_LIB reg includeBase)) ?_
                  exact classif_mono reg Δp _ _
                    (fun n hn => List.mem_append.mpr
                      (.inr (List.mem_append.mpr (.inl hn)))) p5
                · exact classif_mono reg Δe _ _
                    (fun n hn => List.mem_append.mpr (.inl hn)) e5
              · exact List.mem_append.mpr (.inr (List.mem_append.mpr
                  (.inr (List.mem_singleton.mpr rfl))))
            · have hdisj_pe : ∀ n, n ∈ Δp → n ∈ Δe → False := by
                intro n hnp hne
                have := e3 n hne
                have hmem : n ∈ pr.visited := by
                  rw [p1]
                  exact List.mem_append.mpr (.inl hnp)
                rw [strContains_iff _ _ |>.mpr hmem] at this
                cases this
              have hCinner : classif reg (Δp ++ Δe)
                  (((if includeBase = true then buildBaseTypeFragmentsExtra else []) ++
                    pr.extra) ++ ex.extra) := by
                refine classif_append reg _ _ _ ?_
                  (classif_mono reg Δe _ _
                    (fun n hn => List.mem_append.mpr (.inr hn)) e5)
                refine classif_append reg _ _ _
                  (classif_lib reg _ _ (ite_common_sub_LIB reg includeBase)) ?_
                exact classif_mono reg Δp _ _
                  (fun n hn => List.mem_append.mpr (.inl hn)) p5
              have hUinner : uniqNames
                  (((if includeBase = true then buildBaseTypeFragmentsExtra else []) ++
                    pr.extra) ++ ex.extra) := by
                refine uniq_append reg A HNS HD _ _ Δp Δe ?_ e5 p4 e4 hdisj_pe ?_ e6
                · refine classif_append reg _ _ _
                    (classif_lib reg _ _ (ite_common_sub_LIB reg includeBase)) p5
                · exact uniq_lib_prepend reg A HNS HD _ _ Δp
                    (ite_common_sub_LIB reg includeBase) p5 p4 p6
              have hNpe : ∀ x ∈ Δp ++ Δe, x ∈ A := by
                intro x hx2
                rcases List.mem_append.mp hx2 with hm | hm
                · exact p4 x hm
                · exact e4 x hm
              have hfn_not_pe : (name ++ suffix) ∉ Δp ++ Δe := by
                intro hmem
                rcases List.mem_append.mp hmem with hm | hm
                · exact hfn_not_dp hm
                · have := e3 _ hm
                  have hmem2 : (name ++ suffix) ∈ pr.visited := by
                    rw [p1]
                    exact List.mem_append.mpr (.inr hfnv1)
                  rw [strContains_iff _ _ |>.mpr hmem2] at this
                  cases this
              refine uniq_final_append reg A HNS HD _ (Δp ++ Δe) ?_ hNpe ?_
                _ _ _ hfnA hfn_not_pe
              · refine classif_sub reg _ _ _ (fun s hs => (jsDedup_mem _ s).mp hs) ?_
                refine classif_append reg _ _ _
                  (classif_lib reg _ _ (ite_dam_sub_LIB reg pr.dam)) hCinner
              · refine uniq_sub _ _ (fun s hs => (jsDedup_mem _ s).mp hs) ?_
                exact uniq_lib_prepend reg A HNS HD _ _ (Δp ++ Δe)
                  (ite_dam_sub_LIB reg pr.dam) hCinner hNpe hUinner
          · simp only [hexp, Bool.false_eq_true, if_false] at h
            injection h with h
            subst h
            refine ⟨Δp ++ [name ++ suffix], hc1, hc2, hc3, hnames2, ?_, ?_⟩
            · refine classif_append reg _ _ _ ?_ (classif_single_comp reg _ _ _ _ ?_)
              · refine classif_sub reg _ _ _ (fun s hs => (jsDedup_mem _ s).mp hs) ?_
                refine classif_append reg _ _ _
                  (classif_lib reg _ _ (ite_dam_sub_LIB reg pr.dam)) ?_
                refine classif_append reg _ _ _
                  (classif_lib reg _ _ (ite_common_sub_LIB reg includeBase)) ?_
                exact classif_mono reg Δp _ _
                  (fun n hn => List.mem_append.mpr (.inl hn)) p5
              · exact List.mem_append.mpr (.inr (List.mem_singleton.mpr rfl))
            · have hCX : classif reg Δp
                  ((if pr.dam = true then DAM_ASSET_FRAGMENTS else []) ++
                    ((if includeBase = true then buildBaseTypeFragmentsExtra else []) ++
                      pr.extra)) := by
                refine classif_append reg _ _ _
                  (classif_lib reg _ _ (ite_dam_sub_LIB reg pr.dam)) ?_
                refine classif_append reg _ _ _
                  (classif_lib reg _ _ (ite_common_sub_LIB reg includeBase)) p5
              refine uniq_final_append reg A HNS HD _ Δp ?_ p4 ?_ _ _ _ hfnA hfn_not_dp
              · exact classif_sub reg _ _ _ (fun s hs => (jsDedup_mem _ s).mp hs) hCX
              · refine uniq_sub _ _ (fun s hs => (jsDedup_mem _ s).mp hs) ?_
                refine uniq_lib_prepend reg A HNS HD _ _ Δp
                  (ite_dam_sub_LIB reg pr.dam) ?_ p4 ?_
                · refine classif_append reg _ _ _
                    (classif_lib reg _ _ (ite_common_sub_LIB reg includeBase)) p5
                · exact uniq_lib_prepend reg A HNS HD _ _ Δp
                    (ite_common_sub_LIB reg includeBase) p5 p4 p6
    | .props root suffix ps =>
      obtain ⟨hrootA, hps⟩ := hok
      simp only [stepBody] at h
      match ps with
      | [] =>
        injection h with h
        subst h
        exact ⟨[], rfl, List.nodup_nil, fun x hx => absurd hx (List.not_mem_nil x), fun x hx => absurd hx (List.not_mem_nil x),
          classif_nil reg [], uniq_nil⟩
      | (pname, p) :: rest =>
        by_cases hd : (p.indexingType == some "disabled") = true
        · simp only [hd, if_pos] at h
          exact ih reg dam A HNS HD HA HP (.props root suffix rest) v out
            ⟨hrootA, fun pp hpp n hn => hps pp (List.mem_cons_of_mem _ hpp) n hn⟩ h
        · simp only [hd, Bool.false_eq_true, if_false] at h
          rcases hp : step reg dam f (.prop pname p root suffix) v with e | r1 <;>
            simp only [hp] at h
          · cases h
          rcases hq : step reg dam f (.props root suffix rest) r1.visited with e | r2 <;>
            simp only [hq] at h
          · cases h
          injection h with h
          subst h
          obtain ⟨Δ1, h11, h12, h13, h14, h15, h16⟩ := ih reg dam A HNS HD HA HP
            (.prop pname p root suffix) v r1
            ⟨hrootA, fun n hn => hps (pname, p) (List.mem_cons_self _ _) n hn⟩ hp
          obtain ⟨Δ2, h21, h22, h23, h24, h25, h26⟩ := ih reg dam A HNS HD HA HP
            (.props root suffix rest) r1.visited r2
            ⟨hrootA, fun pp hpp n hn => hps pp (List.mem_cons_of_mem _ hpp) n hn⟩ hq
          obtain ⟨hcc1, hcc2, hcc3⟩ := delta_compose v r1.visited r2.visited
            Δ1 Δ2 h11 h12 h13 h21 h22 h23
          have hdisj : ∀ n, n ∈ Δ1 → n ∈ Δ2 → False := by
            intro n hn1 hn2
            have := h23 n hn2
            have hmem : n ∈ r1.visited := by
              rw [h11]
              exact List.mem_append.mpr (.inl hn1)
            rw [strContains_iff _ _ |>.mpr hmem] at this
            cases this
          refine ⟨Δ2 ++ Δ1, hcc1, hcc2, hcc3, ?_, ?_, ?_⟩
          · intro x hx
            rcases List.mem_append.mp hx with hm | hm
            · exact h24 x hm
            · exact h14 x hm
          · refine classif_append reg _ _ _
              (classif_mono reg Δ1 _ _
                (fun n hn => List.mem_append.mpr (.inr hn)) h15)
              (classif_mono reg Δ2 _ _
                (fun n hn => List.mem_append.mpr (.inl hn)) h25)
          · exact uniq_append reg A HNS HD _ _ Δ1 Δ2 h15 h25 h14 h24 hdisj h16 h26
    | .prop pname p root suffix =>
      obtain ⟨hrootA, hpn⟩ := hok
      simp only [stepBody] at h
      match hsh : p.shape with
      | .component key =>
        simp only [hsh] at h
        rcases hp : step reg dam f (.frag key "Property" false) v with e | f0 <;>
          simp only [hp] at h
        · cases h
        injection h with h
        subst h
        have hkeyA : (key ++ "Property") ∈ A := by
          refine hpn (key ++ "Property") ?_
          rw [propNames_shape, hsh]
          exact List.mem_singleton.mpr rfl
        obtain ⟨Δ, d1, d2, d3, d4, d5, d6⟩ := ih reg dam A HNS HD HA HP
          (.frag key "Property" false) v f0 ⟨.inr rfl, hkeyA⟩ hp
        exact ⟨Δ, d1, d2, d3, d4,
          classif_sub reg Δ f0.extra _ (fun s hs => (jsDedup_mem _ s).mp hs) d5,
          uniq_sub f0.extra _ (fun s hs => (jsDedup_mem _ s).mp hs) d6⟩
      | .content allowedT restrictedT =>
        simp only [hsh] at h
        rcases hp : step reg dam f
          (.contentKeys root (resolveAllowedTypes reg allowedT restrictedT)) v
          with e | ck <;> simp only [hp] at h
        · cases h
        injection h with h
        subst h
        have hkeysA : ∀ t ∈ resolveAllowedTypes reg allowedT restrictedT,
            t ≠ "_self" → t ∈ A := by
          intro t ht _
          rcases resolveAllowedTypes_sub reg allowedT restrictedT t ht with hm | hm
          · refine hpn t ?_
            rw [propNames_shape, hsh]
            rcases allowedT with _ | al
            · exact absurd hm (List.not_mem_nil t)
            · exact hm
          · exact HA t (regKey_mem_uNames reg t hm)
        obtain ⟨Δ, d1, d2, d3, d4, d5, d6⟩ := ih reg dam A HNS HD HA HP
          (.contentKeys root (resolveAllowedTypes reg allowedT restrictedT)) v ck
          ⟨hrootA, hkeysA⟩ hp
        exact ⟨Δ, d1, d2, d3, d4,
          classif_sub reg Δ ck.extra _ (fun s hs => (jsDedup_mem _ s).mp hs) d5,
          uniq_sub ck.extra _ (fun s hs => (jsDedup_mem _ s).mp hs) d6⟩
      | .richText =>
        simp only [hsh] at h
        injection h with h
        subst h
        exact ⟨[], rfl, List.nodup_nil, fun x hx => absurd hx (List.not_mem_nil x), fun x hx => absurd hx (List.not_mem_nil x),
          classif_nil reg [], uniq_nil⟩
      | .url =>
        simp only [hsh] at h
        injection h with h
        subst h
        refine ⟨[], rfl, List.nodup_nil, fun x hx => absurd hx (List.not_mem_nil x), fun x hx => absurd hx (List.not_mem_nil x),
          ?_, ?_⟩
        · refine classif_lib reg [] _ ?_
          intro s hs
          rcases (jsDedup_mem _ s).mp hs with hm
          rcases List.mem_singleton.mp hm with rfl
          exact CU_mem_LIB reg
        · refine uniq_lib reg _ ?_
          intro s hs
          rcases (jsDedup_mem _ s).mp hs with hm
          rcases List.mem_singleton.mp hm with rfl
          exact CU_mem_LIB reg
      | .link =>
        simp only [hsh] at h
        injection h with h
        subst h
        refine ⟨[], rfl, List.nodup_nil, fun x hx => absurd hx (List.not_mem_nil x), fun x hx => absurd hx (List.not_mem_nil x),
          ?_, ?_⟩
        · refine classif_lib reg [] _ ?_
          intro s hs
          rcases (jsDedup_mem _ s).mp hs with hm
          rcases List.mem_singleton.mp hm with rfl
          exact CU_mem_LIB reg
        · refine uniq_lib reg _ ?_
          intro s hs
          rcases (jsDedup_mem _ s).mp hs with hm
          rcases List.mem_singleton.mp hm with rfl
          exact CU_mem_LIB reg
      | .contentReference =>
        simp only [hsh] at h
        injection h with h
        subst h
        refine ⟨[], rfl, List.nodup_nil, fun x hx => absurd hx (List.not_mem_nil x), fun x hx => absurd hx (List.not_mem_nil x),
          ?_, ?_⟩
        · refine classif_lib reg [] _ ?_
          intro s hs
          rcases (jsDedup_mem _ s).mp hs with hm
          rcases List.mem_singleton.mp hm with rfl
          exact CU_mem_LIB reg
        · refine uniq_lib reg _ ?_
          intro s hs
          rcases (jsDedup_mem _ s).mp hs with hm
          rcases List.mem_singleton.mp hm with rfl
          exact CU_mem_LIB reg
      | .array items =>
        simp only [hsh] at h
        rcases hp : step reg dam f (.prop pname items root suffix) v with e | r <;>
          simp only [hp] at h
        · cases h
        injection h with h
        subst h
        have hitems : ∀ n ∈ propNames items, n ∈ A := by
          intro n hn
          refine hpn n ?_
          rw [propNames_shape, hsh]
          exact hn
        obtain ⟨Δ, d1, d2, d3, d4, d5, d6⟩ := ih reg dam A HNS HD HA HP
          (.prop pname items root suffix) v r ⟨hrootA, hitems⟩ hp
        exact ⟨Δ, d1, d2, d3, d4,
          classif_sub reg Δ r.extra _ (fun s hs => (jsDedup_mem _ s).mp hs) d5,
          uniq_sub r.extra _ (fun s hs => (jsDedup_mem _ s).mp hs) d6⟩
      | .scalar =>
        simp only [hsh] at h
        injection h with h
        subst h
        exact ⟨[], rfl, List.nodup_nil, fun x hx => absurd hx (List.not_mem_nil x), fun x hx => absurd hx (List.not_mem_nil x),
          classif_nil reg [], uniq_nil⟩
    | .contentKeys root keys =>
      obtain ⟨hrootA, hkeys⟩ := hok
      simp only [stepBody] at h
      match keys with
      | [] =>
        injection h with h
        subst h
        exact ⟨[], rfl, List.nodup_nil, fun x hx => absurd hx (List.not_mem_nil x), fun x hx => absurd hx (List.not_mem_nil x),
          classif_nil reg [], uniq_nil⟩
      | t :: rest =>
        rcases hp : step reg dam f
          (.frag (if t == "_self" then root else t) "" true) v with e | f0 <;>
          simp only [hp] at h
        · cases h
        rcases hq : step reg dam f (.contentKeys root rest) f0.visited with e | r <;>
          simp only [hq] at h
        · cases h
        injection h with h
        subst h
        have hkA : ((if t == "_self" then root else t) ++ "") ∈ A := by
          rw [string_append_empty]
          by_cases ht : (t == "_self") = true
          · rw [if_pos ht]
            exact hrootA
          · rw [if_neg ht]
            refine hkeys t (List.mem_cons_self _ _) ?_
            intro hteq
            exact ht (by rw [hteq]; rfl)
        obtain ⟨Δ1, h11, h12, h13, h14, h15, h16⟩ := ih reg dam A HNS HD HA HP
          (.frag (if t == "_self" then root else t) "" true) v f0
          ⟨.inl rfl, hkA⟩ hp
        obtain ⟨Δ2, h21, h22, h23, h24, h25, h26⟩ := ih reg dam A HNS HD HA HP
          (.contentKeys root rest) f0.visited r
          ⟨hrootA, fun u hu hne => hkeys u (List.mem_cons_of_mem _ hu) hne⟩ hq
        obtain ⟨hcc1, hcc2, hcc3⟩ := delta_compose v f0.visited r.visited
          Δ1 Δ2 h11 h12 h13 h21 h22 h23
        have hdisj : ∀ n, n ∈ Δ1 → n ∈ Δ2 → False := by
          intro n hn1 hn2
          have := h23 n hn2
          have hmem : n ∈ f0.visited := by
            rw [h11]
            exact List.mem_append.mpr (.inl hn1)
          rw [strContains_iff _ _ |>.mpr hmem] at this
          cases this
        refine ⟨Δ2 ++ Δ1, hcc1, hcc2, hcc3, ?_, ?_, ?_⟩
        · intro x hx
          rcases List.mem_append.mp hx with hm | hm
          · exact h24 x hm
          · exact h14 x hm
        · exact classif_append reg _ _ _
            (classif_mono reg Δ1 _ _
              (fun n hn => List.mem_append.mpr (.inr hn)) h15)
            (classif_mono reg Δ2 _ _
              (fun n hn => List.mem_append.mpr (.inl hn)) h25)
        · exact uniq_append reg A HNS HD _ _ Δ1 Δ2 h15 h25 h14 h24 hdisj h16 h26
    | .expFrags =>
      simp only [stepBody] at h
      rcases hp : step reg dam f
        (.expList ((experienceNodes reg).filter (fun n => !v.contains n))) v
        with e | r <;> simp only [hp] at h
      · cases h
      injection h with h
      subst h
      have hkeysA : ∀ n ∈ (experienceNodes reg).filter (fun n => !v.contains n),
          n ∈ A := by
        intro n hn
        exact HA n (regKey_mem_uNames reg n
          (experienceNodes_sub reg n (List.mem_of_mem_filter hn)))
      obtain ⟨Δ, d1, d2, d3, d4, d5, d6⟩ := ih reg dam A HNS HD HA HP
        (.expList ((experienceNodes reg).filter (fun n => !v.contains n))) v r
        hkeysA hp
      refine ⟨Δ, d1, d2, d3, d4, ?_, ?_⟩
      · refine classif_append reg _ _ _ ?_ ?_
        · exact classif_append reg _ _ _
            (classif_lib reg _ _ (EXP_sub_LIB reg)) d5
        · refine classif_lib reg _ _ ?_
          intro s hs
          rcases List.mem_singleton.mp hs with rfl
          exact cfs_mem_LIB reg
      · have hcfs : ∀ s ∈ [componentFragmentString reg], s ∈ LIB reg := by
          intro s hs
          rcases List.mem_singleton.mp hs with rfl
          exact cfs_mem_LIB reg
        refine uniq_append reg A HNS HD _ _ Δ [] ?_
          (classif_lib reg [] _ hcfs) d4 (fun x hx => absurd hx (List.not_mem_nil x))
          (fun n hn1 hn2 => absurd hn2 (List.not_mem_nil n)) ?_ (uniq_lib reg _ hcfs)
        · exact classif_append reg _ _ _
            (classif_lib reg _ _ (EXP_sub_LIB reg)) d5
        · exact uniq_lib_prepend reg A HNS HD _ _ Δ (EXP_sub_LIB reg) d5 d4 d6
    | .expList ks =>
      simp only [stepBody] at h
      match ks with
      | [] =>
        injection h with h
        subst h
        exact ⟨[], rfl, List.nodup_nil, fun x hx => absurd hx (List.not_mem_nil x), fun x hx => absurd hx (List.not_mem_nil x),
          classif_nil reg [], uniq_nil⟩
      | n :: rest =>
        rcases hp : step reg dam f (.frag n "" true) v with e | f0 <;>
          simp only [hp] at h
        · cases h
        rcases hq : step reg dam f (.expList rest) f0.visited with e | r <;>
          simp only [hq] at h
        · cases h
        injection h with h
        subst h
        have hnA : (n ++ "") ∈ A := by
          rw [string_append_empty]
          exact hok n (List.mem_cons_self _ _)
        obtain ⟨Δ1, h11, h12, h13, h14, h15, h16⟩ := ih reg dam A HNS HD HA HP
          (.frag n "" true) v f0 ⟨.inl rfl, hnA⟩ hp
        obtain ⟨Δ2, h21, h22, h23, h24, h25, h26⟩ := ih reg dam A HNS HD HA HP
          (.expList rest) f0.visited r
          (fun u hu => hok u (List.mem_cons_of_mem _ hu)) hq
        obtain ⟨hcc1, hcc2, hcc3⟩ := delta_compose v f0.visited r.visited
          Δ1 Δ2 h11 h12 h13 h21 h22 h23
        have hdisj : ∀ u, u ∈ Δ1 → u ∈ Δ2 → False := by
          intro u hn1 hn2
          have := h23 u hn2
          have hmem : u ∈ f0.visited := by
            rw [h11]
            exact List.mem_append.mpr (.inl hn1)
          rw [strContains_iff _ _ |>.mpr hmem] at this
          cases this
        refine ⟨Δ2 ++ Δ1, hcc1, hcc2, hcc3, ?_, ?_, ?_⟩
        · intro x hx
          rcases List.mem_append.mp hx with hm | hm
          · exact h24 x hm
          · exact h14 x hm
        · exact classif_append reg _ _ _
            (classif_mono reg Δ1 _ _
              (fun u hu => List.mem_append.mpr (.inr hu)) h15)
            (classif_mono reg Δ2 _ _
              (fun u hu => List.mem_append.mpr (.inl hu)) h25)
        · exact uniq_append reg A HNS HD _ _ Δ1 Δ2 h15 h25 h14 h24 hdisj h16 h26

set_option maxRecDepth 100000 in
/-- C4 as stated is false: one top-level `createFragment` pass over
`regC4` emits two distinct fragment strings both declaring the name
`ContentUrl` — the library URL fragment and the composed fragment of
the user type keyed `ContentUrl`. -/
theorem fragment_names_not_unique_counterexample :
    ∃ L : List String, createFragment 8 regC4 "Root" [] "" true false = .ok L ∧
      ∃ s1 ∈ L, ∃ s2 ∈ L, s1 ≠ s2 ∧ dn s1 = dn s2 := by
  refine ⟨[
    "fragment MediaMetadata on MediaMetadata \x7b mimeType thumbnail content \x7d",
    "fragment ItemMetadata on ItemMetadata \x7b changeset displayOption \x7d",
    "fragment InstanceMetadata on InstanceMetadata \x7b changeset locales expired container owner routeSegment lastModifiedBy path createdBy \x7d",
    "fragment ContentUrl on ContentUrl \x7b type default hierarchical internal graph base \x7d",
    "fragment IContentMetadata on IContentMetadata \x7b key locale fallbackForLocale version displayName url \x7b...ContentUrl\x7d types published status created lastModified sortOrder ...MediaMetadata ...ItemMetadata ...InstanceMetadata \x7d",
    "fragment _IContent on _IContent \x7b _id _metadata \x7b...IContentMetadata\x7d \x7d",
    "fragment ContentUrl on ContentUrl \x7b __typename ..._IContent \x7d",
    "fragment Root on Root \x7b __typename Root__kids:kids \x7b __typename ...ContentUrl \x7d ..._IContent \x7d"], rfl,
    "fragment ContentUrl on ContentUrl \x7b type default hierarchical internal graph base \x7d",
    by decide,
    "fragment ContentUrl on ContentUrl \x7b __typename ..._IContent \x7d",
    by decide, by decide, by decide⟩

/-- C4, amended: provided no composable type name (registered keys, their
`Property` forms, property-referenced names, and the root) collides with a
library fragment name or contains a space, the fragment list of one
top-level `createFragment` pass never contains two distinct fragment
strings declaring the same name. -/
theorem fragment_names_unique (reg : Registry) (dam : Bool) (root : String)
    (f : Nat) (out : Out)
    (HNS : ∀ n ∈ allTypeNames reg root, n.data.all (fun c => !(c == ' ')) = true)
    (HD : ∀ n ∈ allTypeNames reg root, ∀ s ∈ LIB reg, dn s ≠ n.data)
    (h : step reg dam f (.frag root "" true) [] = .ok out) :
    ∀ s1 ∈ out.extra, ∀ s2 ∈ out.extra, dn s1 = dn s2 → s1 = s2 := by
  have HA : ∀ n ∈ uNames reg, n ∈ allTypeNames reg root := by
    intro n hn
    exact List.mem_cons_of_mem _ (List.mem_append.mpr (.inl hn))
  have HP : ∀ c ∈ reg, ∀ pp ∈ c.properties, ∀ n ∈ propNames pp.2,
      n ∈ allTypeNames reg root := by
    intro c hc pp hpp n hn
    refine List.mem_cons_of_mem _ (List.mem_append.mpr (.inr ?_))
    refine List.mem_flatten.mpr ⟨ctNames c, List.mem_map.mpr ⟨c, hc, rfl⟩, ?_⟩
    exact List.mem_flatten.mpr ⟨propNames pp.2, List.mem_map.mpr ⟨pp, hpp, rfl⟩, hn⟩
  have hrootA : (root ++ "") ∈ allTypeNames reg root := by
    rw [string_append_empty]
    exact List.mem_cons_self _ _
  obtain ⟨Δ, d1, d2, d3, d4, d5, d6⟩ := step_names_inv f reg dam
    (allTypeNames reg root) HNS HD HA HP (.frag root "" true) [] out
    ⟨.inl rfl, hrootA⟩ h
  intro s1 h1 s2 h2 hdn
  rcases d5 s1 h1 with hl1 | ⟨n1, hn1, pn1, flds1, he1⟩
  · rcases d5 s2 h2 with hl2 | ⟨n2, hn2, pn2, flds2, he2⟩
    · exact libU reg s1 hl1 s2 hl2 hdn
    · exfalso
      have hsp2 := HNS n2 (d4 n2 hn2)
      have hd2 : dn s2 = n2.data := by rw [he2]; exact dn_mk n2 pn2 flds2 hsp2
      exact HD n2 (d4 n2 hn2) s1 hl1 (hdn.trans hd2)
  · have hsp1 := HNS n1 (d4 n1 hn1)
    have hd1 : dn s1 = n1.data := by rw [he1]; exact dn_mk n1 pn1 flds1 hsp1
    rcases d5 s2 h2 with hl2 | ⟨n2, hn2, pn2, flds2, he2⟩
    · exfalso
      exact HD n1 (d4 n1 hn1) s2 hl2 (hdn.symm.trans hd1)
    · have hsp2 := HNS n2 (d4 n2 hn2)
      have hd2 : dn s2 = n2.data := by rw [he2]; exact dn_mk n2 pn2 flds2 hsp2
      have hnn : n1 = n2 := by
        have h0 : n1.data = n2.data := hd1.symm.trans (hdn.trans hd2)
        cases n1
        cases n2
        exact congrArg String.mk h0
      refine d6 n1 hsp1 s1 h1 s2 h2 ⟨pn1, flds1, he1⟩ ⟨pn2, flds2, ?_⟩
      rw [he2, hnn]

set_option maxRecDepth 100000 in
/-- Witness for C4: the amended uniqueness theorem applied to the
self-referencing one-type registry, whose names are clean. -/
theorem fragment_names_unique_witness :
    "fragment Cyc on Cyc \x7b __typename Cyc__kids:kids \x7b __typename ...Cyc \x7d ..._IContent \x7d" =
    "fragment Cyc on Cyc \x7b __typename Cyc__kids:kids \x7b __typename ...Cyc \x7d ..._IContent \x7d" :=
  fragment_names_unique regCyc false "Cyc" 6
    ⟨[], COMMON_FRAGMENTS ++
      ["fragment Cyc on Cyc \x7b __typename Cyc__kids:kids \x7b __typename ...Cyc \x7d ..._IContent \x7d"],
      false, false, ["Cyc"]⟩
    (by decide) (by decide) rfl
    "fragment Cyc on Cyc \x7b __typename Cyc__kids:kids \x7b __typename ...Cyc \x7d ..._IContent \x7d"
    (by decide)
    "fragment Cyc on Cyc \x7b __typename Cyc__kids:kids \x7b __typename ...Cyc \x7d ..._IContent \x7d"
    (by decide) rfl
